import Mathlib

/-!
# Segmented deque (`structure/deque/deque.go`)

Shallow embedding of the Go deque.  Go `int` values are modelled as `Int`
(the 64-bit range is never approached: a deque would need 2^63 elements).
A Go slice of blocks `[][]T` is a `List (Option (List α))`: `none` is a nil
block, `some b` an allocated block.  Every operation that can panic in Go
(index out of range, slice bounds out of range, explicit `panic`) returns
`Option`, with `none` standing for the panic.  The zero value of the element
type is `default`.
-/

namespace Deque

/-- Size of every storage block (`blockSize`). -/
def blockSize : Int := 128

/-- Initial size of the central map (`initialMapSize`). -/
def initialMapSize : Int := 8

/-- Go `len(s)` as an `int`. -/
def len {β : Type} (l : List β) : Int := (l.length : Int)

/-- Go `s[i]` as an rvalue: panics (here `none`) outside `0 ≤ i < len(s)`. -/
def idx {β : Type} (l : List β) (i : Int) : Option β :=
  if i < 0 then none else l[i.toNat]?

/-- Go `s[i] = v`: panics (here `none`) outside `0 ≤ i < len(s)`. -/
def setIdx {β : Type} (l : List β) (i : Int) (v : β) : Option (List β) :=
  if i < 0 ∨ len l ≤ i then none else some (l.set i.toNat v)

/-- Go `m[i][j]` as an rvalue; a nil block has length 0, so indexing it panics. -/
def readSlot {α : Type} (m : List (Option (List α))) (i j : Int) : Option α :=
  match idx m i with
  | some (some b) => idx b j
  | _ => none

/-- Go `m[i][j] = v`; the block is shared storage, so the map sees the write. -/
def writeSlot {α : Type} (m : List (Option (List α))) (i j : Int) (v : α) :
    Option (List (Option (List α))) :=
  match idx m i with
  | some (some b) =>
    match setIdx b j v with
    | some b1 => setIdx m i (some b1)
    | none => none
  | _ => none

/-- The lazy allocation of block `m[i]` when it is nil (`make([]T, blockSize)`);
reading `m[i]` panics outside the map. -/
def ensureBlock {α : Type} [Inhabited α] (m : List (Option (List α))) (i : Int) :
    Option (List (Option (List α))) :=
  match idx m i with
  | none => none
  | some none => setIdx m i (some (List.replicate blockSize.toNat default))
  | some (some _) => some m

/-- Go `make([]T, n)`: panics for negative `n`, otherwise `n` zero values. -/
def makeSlice {β : Type} (n : Int) (zero : β) : Option (List β) :=
  if n < 0 then none else some (List.replicate n.toNat zero)

/-- Go `copy(dst, src)`: overwrites the first `min(len dst, len src)` cells. -/
def copySlice {β : Type} (dst src : List β) : List β :=
  src.take dst.length ++ dst.drop src.length

end Deque

/-- The Go struct `Deque[T]`. -/
structure Deque (α : Type) where
  mapData : List (Option (List α))
  mapSize : Int
  mapStart : Int
  mapEnd : Int
  headBlock : Int
  headOffset : Int
  tailBlock : Int
  tailOffset : Int
  size : Int
deriving DecidableEq, Repr

namespace Deque

variable {α : Type}

/-- `NewDeque`: map of 8 slots, one block allocated in the middle, cursors in
the middle of that block. -/
def NewDeque [Inhabited α] : Deque α :=
  { mapSize := initialMapSize
    mapData := (List.replicate initialMapSize.toNat none).set (initialMapSize / 2).toNat
      (some (List.replicate blockSize.toNat default))
    mapStart := initialMapSize / 2
    mapEnd := initialMapSize / 2 + 1
    size := 0
    headBlock := 0
    tailBlock := 0
    headOffset := blockSize / 2
    tailOffset := blockSize / 2 }

/-- `Len`. -/
def Len (d : Deque α) : Int := d.size

/-- `IsEmpty`. -/
def IsEmpty (d : Deque α) : Bool := d.size == 0

/-- `Clear`. -/
def Clear [Inhabited α] (_d : Deque α) : Deque α := NewDeque

/-- `expandMap`: doubles the map and re-centres the span `[mapStart, mapEnd)`.
The slice expressions `newMapData[newMapStart:]` and
`d.mapData[d.mapStart:d.mapEnd]` panic when their bounds are out of order. -/
def expandMap (d : Deque α) : Option (Deque α) :=
  let newMapSize := d.mapSize * 2
  match makeSlice newMapSize (none : Option (List α)) with
  | none => none
  | some newMapData =>
    let newMapStart := Int.tdiv (newMapSize - (d.mapEnd - d.mapStart)) 2
    if newMapStart < 0 ∨ len newMapData < newMapStart then none
    else if d.mapStart < 0 ∨ d.mapEnd < d.mapStart ∨ len d.mapData < d.mapEnd then none
    else
      let src := (d.mapData.take d.mapEnd.toNat).drop d.mapStart.toNat
      let newMapData1 := newMapData.take newMapStart.toNat ++
        copySlice (newMapData.drop newMapStart.toNat) src
      some { d with
        mapData := newMapData1
        mapSize := newMapSize
        mapEnd := newMapStart + (d.mapEnd - d.mapStart)
        mapStart := newMapStart }

/-- `PushBack`. -/
def PushBack [Inhabited α] (d : Deque α) (elem : α) : Option (Deque α) :=
  if d.IsEmpty then
    match writeSlot d.mapData (d.mapStart + d.tailBlock) d.tailOffset elem with
    | none => none
    | some m => some { d with mapData := m, size := d.size + 1 }
  else if d.tailOffset < blockSize - 1 then
    match writeSlot d.mapData (d.mapStart + d.tailBlock) (d.tailOffset + 1) elem with
    | none => none
    | some m => some { d with mapData := m, tailOffset := d.tailOffset + 1, size := d.size + 1 }
  else
    match (if d.mapStart + d.tailBlock + 1 ≥ len d.mapData then expandMap d else some d) with
    | none => none
    | some d1 =>
      let blockIndex := d1.mapStart + (d1.tailBlock + 1)
      if blockIndex ≥ len d1.mapData then none
      else
        match ensureBlock d1.mapData blockIndex with
        | none => none
        | some m2 =>
          let mapEnd2 := if blockIndex + 1 > d1.mapEnd then blockIndex + 1 else d1.mapEnd
          match writeSlot m2 blockIndex 0 elem with
          | none => none
          | some m3 =>
            some { d1 with
              mapData := m3
              mapEnd := mapEnd2
              tailBlock := d1.tailBlock + 1
              tailOffset := 0
              size := d1.size + 1 }

/-- `PushFront`. -/
def PushFront [Inhabited α] (d : Deque α) (elem : α) : Option (Deque α) :=
  if d.IsEmpty then
    match writeSlot d.mapData (d.mapStart + d.headBlock) d.headOffset elem with
    | none => none
    | some m => some { d with mapData := m, size := d.size + 1 }
  else if d.headOffset > 0 then
    match writeSlot d.mapData (d.mapStart + d.headBlock) (d.headOffset - 1) elem with
    | none => none
    | some m => some { d with mapData := m, headOffset := d.headOffset - 1, size := d.size + 1 }
  else
    match (if d.mapStart + d.headBlock - 1 < 0 then expandMap d else some d) with
    | none => none
    | some d1 =>
      let blockIndex := d1.mapStart + (d1.headBlock - 1)
      if blockIndex < 0 ∨ blockIndex ≥ len d1.mapData then none
      else
        match ensureBlock d1.mapData blockIndex with
        | none => none
        | some m2 =>
          match writeSlot m2 blockIndex (blockSize - 1) elem with
          | none => none
          | some m3 =>
            some { d1 with
              mapData := m3
              headBlock := d1.headBlock - 1
              headOffset := blockSize - 1
              size := d1.size + 1 }

/-- `PopBack`: the result is `(state, element, ok)`. -/
def PopBack [Inhabited α] (d : Deque α) : Option (Deque α × α × Bool) :=
  if d.IsEmpty then some (d, default, false)
  else
    match readSlot d.mapData (d.mapStart + d.tailBlock) d.tailOffset with
    | none => none
    | some elem =>
      match writeSlot d.mapData (d.mapStart + d.tailBlock) d.tailOffset default with
      | none => none
      | some m =>
        if d.size = 1 then
          some ({ d with
                  mapData := m
                  size := 0
                  headBlock := 0
                  tailBlock := 0
                  headOffset := blockSize / 2
                  tailOffset := blockSize / 2 }, elem, true)
        else if d.tailOffset > 0 then
          some ({ d with mapData := m, size := d.size - 1, tailOffset := d.tailOffset - 1 },
            elem, true)
        else
          some ({ d with
                  mapData := m
                  size := d.size - 1
                  tailBlock := d.tailBlock - 1
                  tailOffset := blockSize - 1 }, elem, true)

/-- `PopFront`: the result is `(state, element, ok)`. -/
def PopFront [Inhabited α] (d : Deque α) : Option (Deque α × α × Bool) :=
  if d.IsEmpty then some (d, default, false)
  else
    match readSlot d.mapData (d.mapStart + d.headBlock) d.headOffset with
    | none => none
    | some elem =>
      match writeSlot d.mapData (d.mapStart + d.headBlock) d.headOffset default with
      | none => none
      | some m =>
        if d.size = 1 then
          some ({ d with
                  mapData := m
                  size := 0
                  headBlock := 0
                  tailBlock := 0
                  headOffset := blockSize / 2
                  tailOffset := blockSize / 2 }, elem, true)
        else if d.headOffset < blockSize - 1 then
          some ({ d with mapData := m, size := d.size - 1, headOffset := d.headOffset + 1 },
            elem, true)
        else
          some ({ d with
                  mapData := m
                  size := d.size - 1
                  headBlock := d.headBlock + 1
                  headOffset := 0 }, elem, true)

/-- `Front`: `(element, ok)`, reading the head slot when non-empty. -/
def Front [Inhabited α] (d : Deque α) : Option (α × Bool) :=
  if d.IsEmpty then some (default, false)
  else
    match readSlot d.mapData (d.mapStart + d.headBlock) d.headOffset with
    | none => none
    | some e => some (e, true)

/-- `Back`: `(element, ok)`, reading the tail slot when non-empty. -/
def Back [Inhabited α] (d : Deque α) : Option (α × Bool) :=
  if d.IsEmpty then some (default, false)
  else
    match readSlot d.mapData (d.mapStart + d.tailBlock) d.tailOffset with
    | none => none
    | some e => some (e, true)

/-- `At`: unchecked access; Go `/` and `%` truncate toward zero. -/
def At (d : Deque α) (index : Int) : Option α :=
  let absoluteIndex := d.headOffset + index
  let blockIndex := d.headBlock + Int.tdiv absoluteIndex blockSize
  let offset := Int.tmod absoluteIndex blockSize
  readSlot d.mapData (d.mapStart + blockIndex) offset

/-- The loop `for i < size: result[i] = d.At(i)` of `ToSlice`, from index `i`
with `n` iterations left. -/
def toSliceLoop (d : Deque α) : Nat → Nat → Option (List α)
  | _, 0 => some []
  | i, n + 1 =>
    match At d (i : Int) with
    | none => none
    | some v =>
      match toSliceLoop d (i + 1) n with
      | none => none
      | some r => some (v :: r)

/-- `ToSlice`: the elements `At(0), ..., At(size-1)`; `[]` when empty.  The
result slice `make([]T, d.size)` is overwritten cell by cell. -/
def ToSlice [Inhabited α] (d : Deque α) : Option (List α) :=
  if d.IsEmpty then some []
  else
    match makeSlice d.size (default : α) with
    | none => none
    | some _ => toSliceLoop d 0 d.size.toNat

/-! ## Indexed and structural operations

A Go `for` loop whose counter moves by one per iteration towards a bound that
the body does not change is a recursion on the number of iterations left, which
the caller computes from the counter and the bound. -/

/-- `Get`: bounds-checked `At`; it assigns nothing. -/
def Get [Inhabited α] (d : Deque α) (index : Int) : Option (α × Bool) :=
  if index < 0 ∨ index ≥ d.size then some (default, false)
  else
    match At d index with
    | none => none
    | some v => some (v, true)

/-- `Set`: bounds check, then a write through its own copy of the index
translation; the result is `(state, ok)`. -/
def Set (d : Deque α) (index : Int) (value : α) : Option (Deque α × Bool) :=
  if index < 0 ∨ index ≥ d.size then some (d, false)
  else
    let absoluteIndex := d.headOffset + index
    let blockIndex := d.headBlock + Int.tdiv absoluteIndex blockSize
    let offset := Int.tmod absoluteIndex blockSize
    match writeSlot d.mapData (d.mapStart + blockIndex) offset value with
    | none => none
    | some m => some ({ d with mapData := m }, true)

/-- The loop `for i < index: d.Set(i, d.At(i+1))` of `Insert`, at counter `i`
with `n` iterations left. -/
def insertShiftFront (d : Deque α) (i : Int) : Nat → Option (Deque α)
  | 0 => some d
  | n + 1 =>
    match At d (i + 1) with
    | none => none
    | some v =>
      match Set d i v with
      | none => none
      | some (d1, _) => insertShiftFront d1 (i + 1) n

/-- The loop `for i > index, downwards: d.Set(i, d.At(i-1))` of `Insert`, at
counter `i` with `n` iterations left. -/
def insertShiftBack (d : Deque α) (i : Int) : Nat → Option (Deque α)
  | 0 => some d
  | n + 1 =>
    match At d (i - 1) with
    | none => none
    | some v =>
      match Set d i v with
      | none => none
      | some (d1, _) => insertShiftBack d1 (i - 1) n

/-- `Insert`: the result is `(state, ok)`. -/
def Insert [Inhabited α] (d : Deque α) (index : Int) (elem : α) : Option (Deque α × Bool) :=
  if index < 0 ∨ index > d.size then some (d, false)
  else if index = 0 then
    match PushFront d elem with
    | none => none
    | some d1 => some (d1, true)
  else if index = d.size then
    match PushBack d elem with
    | none => none
    | some d1 => some (d1, true)
  else if index < Int.tdiv d.size 2 then
    match At d 0 with
    | none => none
    | some v0 =>
      match PushFront d v0 with
      | none => none
      | some d1 =>
        match insertShiftFront d1 0 index.toNat with
        | none => none
        | some d2 =>
          match Set d2 index elem with
          | none => none
          | some (d3, _) => some (d3, true)
  else
    match At d (d.size - 1) with
    | none => none
    | some vl =>
      match PushBack d vl with
      | none => none
      | some d1 =>
        match insertShiftBack d1 (d1.size - 2) (d1.size - 2 - index).toNat with
        | none => none
        | some d2 =>
          match Set d2 index elem with
          | none => none
          | some (d3, _) => some (d3, true)

/-- The loop `for i >= 0, downwards: d.Set(i+count, d.At(i))` of `Erase`, at
counter `i` with `n` iterations left. -/
def eraseShiftFront (d : Deque α) (count i : Int) : Nat → Option (Deque α)
  | 0 => some d
  | n + 1 =>
    match At d i with
    | none => none
    | some v =>
      match Set d (i + count) v with
      | none => none
      | some (d1, _) => eraseShiftFront d1 count (i - 1) n

/-- The loop `for i < d.size: d.Set(i-count, d.At(i))` of `Erase`, at counter
`i` with `n` iterations left. -/
def eraseShiftBack (d : Deque α) (count i : Int) : Nat → Option (Deque α)
  | 0 => some d
  | n + 1 =>
    match At d i with
    | none => none
    | some v =>
      match Set d (i - count) v with
      | none => none
      | some (d1, _) => eraseShiftBack d1 count (i + 1) n

/-- `n` calls of `PopFront`, results discarded. -/
def popFrontTimes [Inhabited α] (d : Deque α) : Nat → Option (Deque α)
  | 0 => some d
  | n + 1 =>
    match PopFront d with
    | none => none
    | some (d1, _, _) => popFrontTimes d1 n

/-- `n` calls of `PopBack`, results discarded. -/
def popBackTimes [Inhabited α] (d : Deque α) : Nat → Option (Deque α)
  | 0 => some d
  | n + 1 =>
    match PopBack d with
    | none => none
    | some (d1, _, _) => popBackTimes d1 n

/-- `Erase(start, end)`: the result is `(state, ok)`. -/
def Erase [Inhabited α] (d : Deque α) (start stop : Int) : Option (Deque α × Bool) :=
  if start < 0 ∨ stop > d.size ∨ start ≥ stop then some (d, false)
  else
    let count := stop - start
    if start < d.size - stop then
      match eraseShiftFront d count (start - 1) start.toNat with
      | none => none
      | some d1 =>
        match popFrontTimes d1 count.toNat with
        | none => none
        | some d2 => some (d2, true)
    else
      match eraseShiftBack d count stop (d.size - stop).toNat with
      | none => none
      | some d1 =>
        match popBackTimes d1 count.toNat with
        | none => none
        | some d2 => some (d2, true)

/-- `n` calls of `PushBack(value)`. -/
def pushBackTimes [Inhabited α] (d : Deque α) (value : α) : Nat → Option (Deque α)
  | 0 => some d
  | n + 1 =>
    match PushBack d value with
    | none => none
    | some d1 => pushBackTimes d1 value n

/-- `Resize(newSize, fillValue...)`; the variadic argument is a list, of which
only the first element is used. -/
def Resize [Inhabited α] (d : Deque α) (newSize : Int) (fillValue : List α) :
    Option (Deque α) :=
  if newSize < 0 then some d
  else if newSize > d.size then
    let value : α :=
      match fillValue with
      | [] => default
      | v :: _ => v
    pushBackTimes d value (newSize - d.size).toNat
  else if newSize < d.size then popBackTimes d (d.size - newSize).toNat
  else some d

/-- A fragment of Go's `float64`, enough to show how `==` behaves on it: the
integer-valued numbers and a NaN. -/
inductive GoFloat where
  | num (n : Int)
  | nan
deriving DecidableEq, Repr

/-- The zero value of `float64` is 0. -/
instance instInhabitedGoFloat : Inhabited GoFloat := ⟨GoFloat.num 0⟩

/-- Go's `==` on `float64` (IEEE 754 comparison): two numbers are compared by
value, and a NaN is equal to nothing, itself included.  The result is `some r`;
`none` stands for a comparison that panics, which `float64` never does. -/
def GoFloat.goEq : GoFloat → GoFloat → Option Bool
  | GoFloat.num a, GoFloat.num b => some (decide (a = b))
  | _, _ => some false

/-- Go's `==` on an element type where it is equality of values and never
panics (integers, strings, booleans, pointers). -/
def valueEq [DecidableEq α] (a b : α) : Option Bool := some (decide (a = b))

/-- The comparison loop of `Equals`, at counter `i` with `n` iterations left.
The parameter `eq` is Go's `==` at the element type `T`: `some r` is its result
and `none` a run-time panic of the comparison (interface values whose dynamic
type is not comparable); `a != b` is the negation of `a == b`. -/
def equalsLoop (eq : α → α → Option Bool) (d1 d2 : Deque α) (i : Int) : Nat → Option Bool
  | 0 => some true
  | n + 1 =>
    match At d1 i with
    | none => none
    | some a =>
      match At d2 i with
      | none => none
      | some b =>
        match eq a b with
        | none => none
        | some r => if r = false then some false else equalsLoop eq d1 d2 (i + 1) n

/-- `Equals`: sizes first, then element by element with the `==` of `T`. -/
def Equals (eq : α → α → Option Bool) (d1 d2 : Deque α) : Option Bool :=
  if d1.size ≠ d2.size then some false else equalsLoop eq d1 d2 0 d1.size.toNat

/-- The swap loop of `Reverse`, at counter `i` with `n` iterations left. -/
def reverseLoop (d : Deque α) (i : Int) : Nat → Option (Deque α)
  | 0 => some d
  | n + 1 =>
    match At d i with
    | none => none
    | some temp =>
      match At d (d.size - 1 - i) with
      | none => none
      | some vj =>
        match Set d i vj with
        | none => none
        | some (d1, _) =>
          match Set d1 (d.size - 1 - i) temp with
          | none => none
          | some (d2, _) => reverseLoop d2 (i + 1) n

/-- `Reverse`. -/
def Reverse (d : Deque α) : Option (Deque α) :=
  if d.size ≤ 1 then some d else reverseLoop d 0 (Int.tdiv d.size 2).toNat

/-- The loop `for i < d.size: clone.PushBack(d.At(i))` of `Clone`, at counter
`i` with `n` iterations left; `c` is the clone under construction. -/
def cloneLoop [Inhabited α] (d c : Deque α) (i : Int) : Nat → Option (Deque α)
  | 0 => some c
  | n + 1 =>
    match At d i with
    | none => none
    | some v =>
      match PushBack c v with
      | none => none
      | some c1 => cloneLoop d c1 (i + 1) n

/-- `Clone`: a new deque filled by back-pushes; it assigns nothing to `d`. -/
def Clone [Inhabited α] (d : Deque α) : Option (Deque α) :=
  cloneLoop d NewDeque 0 d.size.toNat

/-- The scan of `Contains`, at counter `i` with `n` iterations left; `eq` is
Go's `==` at the element type, as in `equalsLoop`. -/
def containsLoop (eq : α → α → Option Bool) (d : Deque α) (elem : α) (i : Int) :
    Nat → Option Bool
  | 0 => some false
  | n + 1 =>
    match At d i with
    | none => none
    | some v =>
      match eq v elem with
      | none => none
      | some r => if r = true then some true else containsLoop eq d elem (i + 1) n

/-- `Contains`. -/
def Contains (eq : α → α → Option Bool) (d : Deque α) (elem : α) : Option Bool :=
  containsLoop eq d elem 0 d.size.toNat

/-- The scan of `IndexOf`, at counter `i` with `n` iterations left; `eq` is
Go's `==` at the element type, as in `equalsLoop`. -/
def indexOfLoop (eq : α → α → Option Bool) (d : Deque α) (elem : α) (i : Int) :
    Nat → Option Int
  | 0 => some (-1)
  | n + 1 =>
    match At d i with
    | none => none
    | some v =>
      match eq v elem with
      | none => none
      | some r => if r = true then some i else indexOfLoop eq d elem (i + 1) n

/-- `IndexOf`: the first index whose element is `==` to `elem`, or `-1`. -/
def IndexOf (eq : α → α → Option Bool) (d : Deque α) (elem : α) : Option Int :=
  indexOfLoop eq d elem 0 d.size.toNat

/-- `Swap`: the assignment `*d, *other = *other, *d`; the result is the pair
of the new states of `d` and of `other`. -/
def Swap (d other : Deque α) : Deque α × Deque α := (other, d)

/-- How a call on a deque ends: it returns, or it panics and leaves the receiver
in the state it had reached, which is the state a caller that recovers from the
panic holds. -/
inductive Outcome (α : Type) where
  | returned (d : Deque α)
  | panicked (d : Deque α)
deriving DecidableEq, Repr

/-- `PushFront` with the state of the receiver at a panic.  The statements run
in the order of the source: the head cursor moves (and the map grows, the block
is allocated) before the element is written and before `size` is incremented.
A panic inside `expandMap` happens before its first assignment. -/
def PushFrontOutcome [Inhabited α] (d : Deque α) (elem : α) : Outcome α :=
  if d.IsEmpty then
    match writeSlot d.mapData (d.mapStart + d.headBlock) d.headOffset elem with
    | none => Outcome.panicked d
    | some m => Outcome.returned { d with mapData := m, size := d.size + 1 }
  else if d.headOffset > 0 then
    let d1 := { d with headOffset := d.headOffset - 1 }
    match writeSlot d1.mapData (d1.mapStart + d1.headBlock) d1.headOffset elem with
    | none => Outcome.panicked d1
    | some m => Outcome.returned { d1 with mapData := m, size := d1.size + 1 }
  else
    match (if d.mapStart + d.headBlock - 1 < 0 then expandMap d else some d) with
    | none => Outcome.panicked d
    | some d1 =>
      let d2 := { d1 with headBlock := d1.headBlock - 1, headOffset := blockSize - 1 }
      let blockIndex := d2.mapStart + d2.headBlock
      if blockIndex < 0 ∨ blockIndex ≥ len d2.mapData then Outcome.panicked d2
      else
        match ensureBlock d2.mapData blockIndex with
        | none => Outcome.panicked d2
        | some m2 =>
          let d3 := { d2 with mapData := m2 }
          match writeSlot d3.mapData (d3.mapStart + d3.headBlock) d3.headOffset elem with
          | none => Outcome.panicked d3
          | some m3 => Outcome.returned { d3 with mapData := m3, size := d3.size + 1 }

/-! ## Sequences of operations -/

/-- The four end operations of the deque. -/
inductive Op (α : Type) where
  | pushBack (x : α)
  | pushFront (x : α)
  | popBack
  | popFront
deriving DecidableEq, Repr

/-- Operations a `Queue` performs on its deque: `PushBack` and `PopFront`. -/
def Op.isQueueOp : Op α → Bool
  | .pushBack _ => true
  | .popFront => true
  | _ => false

/-- Operations a `Stack` performs on its deque: `PushBack` and `PopBack`. -/
def Op.isStackOp : Op α → Bool
  | .pushBack _ => true
  | .popBack => true
  | _ => false

/-- Recognises `PushFront`. -/
def Op.isPushFront : Op α → Bool
  | .pushFront _ => true
  | _ => false

/-- One operation on the deque; a pop also yields its `(element, ok)` result. -/
def step [Inhabited α] (d : Deque α) : Op α → Option (Deque α × Option (α × Bool))
  | .pushBack x =>
    match PushBack d x with
    | none => none
    | some d1 => some (d1, none)
  | .pushFront x =>
    match PushFront d x with
    | none => none
    | some d1 => some (d1, none)
  | .popBack =>
    match PopBack d with
    | none => none
    | some (d1, e, ok) => some (d1, some (e, ok))
  | .popFront =>
    match PopFront d with
    | none => none
    | some (d1, e, ok) => some (d1, some (e, ok))

/-- Runs the operations left to right and collects the results of the pops. -/
def run [Inhabited α] (d : Deque α) : List (Op α) → Option (Deque α × List (α × Bool))
  | [] => some (d, [])
  | op :: ops =>
    match step d op with
    | none => none
    | some (d1, r) =>
      match run d1 ops with
      | none => none
      | some (d2, rs) => some (d2, r.toList ++ rs)

/-- `PushBack` of every element of a list, first element first. -/
def pushBackAll [Inhabited α] (d : Deque α) : List α → Option (Deque α)
  | [] => some d
  | x :: xs =>
    match PushBack d x with
    | none => none
    | some d1 => pushBackAll d1 xs

/-- `PushFront` of every element of a list, first element first. -/
def pushFrontAll [Inhabited α] (d : Deque α) : List α → Option (Deque α)
  | [] => some d
  | x :: xs =>
    match PushFront d x with
    | none => none
    | some d1 => pushFrontAll d1 xs

/-- `n` successive `PopFront` calls, collecting the results. -/
def popFrontN [Inhabited α] (d : Deque α) : Nat → Option (Deque α × List (α × Bool))
  | 0 => some (d, [])
  | n + 1 =>
    match PopFront d with
    | none => none
    | some (d1, e, ok) =>
      match popFrontN d1 n with
      | none => none
      | some (d2, rs) => some (d2, (e, ok) :: rs)

/-- List model of one operation, as the specification words it: `PushFront`
prepends, `PushBack` appends, `PopFront` removes and returns the first element,
`PopBack` the last; a pop of the empty list returns the zero value and false. -/
def modelStep [Inhabited α] (l : List α) : Op α → List α × Option (α × Bool)
  | .pushBack x => (l ++ [x], none)
  | .pushFront x => (x :: l, none)
  | .popBack =>
    match l.getLast? with
    | none => (l, some (default, false))
    | some a => (l.dropLast, some (a, true))
  | .popFront =>
    match l with
    | [] => ([], some (default, false))
    | a :: t => (t, some (a, true))

/-- The list model run over a sequence of operations. -/
def modelRun [Inhabited α] (l : List α) : List (Op α) → List α × List (α × Bool)
  | [] => (l, [])
  | op :: ops =>
    ((modelRun (modelStep l op).1 ops).1,
      (modelStep l op).2.toList ++ (modelRun (modelStep l op).1 ops).2)

/-! ## Concrete runs that reach map growth from the front -/

/-- 66 `PushFront(1)` (the head enters the block before `mapStart`), then 448
`PushBack(2)` (the last one grows the map). -/
def frontThenBackOps : List (Op Nat) :=
  List.replicate 66 (Op.pushFront 1) ++ List.replicate 448 (Op.pushBack 2)

/-- The state `frontThenBackOps` leaves: the head cursor addresses map slot 5,
which the growth left nil. -/
def frontThenBackState : Deque Nat :=
  { mapData := List.replicate 6 none ++
      [some (List.replicate 65 1 ++ List.replicate 63 2), some (List.replicate 128 2),
        some (List.replicate 128 2), some (List.replicate 128 2),
        some (2 :: List.replicate 127 0)] ++ List.replicate 5 none
    mapSize := 16
    mapStart := 6
    mapEnd := 11
    headBlock := -1
    headOffset := 127
    tailBlock := 4
    tailOffset := 0
    size := 514 }

/-- 577 `PushFront(1)`, 66 `PopBack()` (the tail retreats into the block before
`mapStart`), then one more `PushFront(1)`, which grows the map. -/
def frontPopBackOps : List (Op Nat) :=
  List.replicate 577 (Op.pushFront 1) ++ List.replicate 66 Op.popBack ++ [Op.pushFront 1]

/-- The state `frontPopBackOps` leaves: the tail cursor addresses map slot 6,
which the growth left nil. -/
def frontPopBackState : Deque Nat :=
  { mapData := [none, none, some (List.replicate 127 0 ++ [1]), none, none, none, none,
      some (List.replicate 128 0)] ++ List.replicate 8 none
    mapSize := 16
    mapStart := 7
    mapEnd := 8
    headBlock := -5
    headOffset := 127
    tailBlock := -1
    tailOffset := 126
    size := 512 }

/-- The state after `PushFront(0), ..., PushFront(577)` on a new deque: of the
five blocks in use before the growth only the one at `mapStart` was copied. -/
def front578State : Deque Nat :=
  { mapData := [none, none, some (List.replicate 127 0 ++ [577]), none, none, none, none,
      some ((List.range 65).reverse ++ List.replicate 63 0)] ++ List.replicate 8 none
    mapSize := 16
    mapStart := 7
    mapEnd := 8
    headBlock := -5
    headOffset := 127
    tailBlock := 0
    tailOffset := 64
    size := 578 }

/-- A well-formed state whose valid map range is the last map slot: eight
allocated blocks, the head at the start of slot 0, the tail in slot 7. -/
def lastSlotState : Deque Nat :=
  { mapData := List.replicate 8 (some (List.replicate 128 0))
    mapSize := 8
    mapStart := 7
    mapEnd := 8
    headBlock := -7
    headOffset := 0
    tailBlock := 0
    tailOffset := 0
    size := 897 }

/-- The state after `PushFront(0), ..., PushFront(576)` on a new deque: the head
is at the start of map slot 0, so the next `PushFront` has to grow the map, and
four of the five blocks in use lie before `mapStart`. -/
def front577State : Deque Nat :=
  { mapData := [some ((List.range 128).map fun o => 576 - o),
      some ((List.range 128).map fun o => 448 - o),
      some ((List.range 128).map fun o => 320 - o),
      some ((List.range 128).map fun o => 192 - o),
      some ((List.range 65).reverse ++ List.replicate 63 0), none, none, none]
    mapSize := 8
    mapStart := 4
    mapEnd := 5
    headBlock := -4
    headOffset := 0
    tailBlock := 0
    tailOffset := 64
    size := 577 }

/-! ## Representation invariant -/

/-- Block `i` of the map is allocated and has exactly `blockSize` cells. -/
def AllocAt {α : Type} (m : List (Option (List α))) (i : Int) : Prop :=
  ∃ b, idx m i = some (some b) ∧ len b = blockSize

/-- Every allocated block of the map has exactly `blockSize` cells. -/
def BlocksOK {α : Type} (m : List (Option (List α))) : Prop :=
  ∀ i b, idx m i = some (some b) → len b = blockSize

/-- Cell at linear position `p`, counted in cells from the start of the block
at map slot `ms`: block `p / blockSize`, offset `p % blockSize`. -/
def slotAt (m : List (Option (List α))) (ms p : Int) : Option α :=
  readSlot m (ms + p / blockSize) (p % blockSize)

/-- Linear position of the head cursor, relative to `mapStart`. -/
def headPos (d : Deque α) : Int := d.headBlock * blockSize + d.headOffset

/-- Linear position of the tail cursor, relative to `mapStart`. -/
def tailPos (d : Deque α) : Int := d.tailBlock * blockSize + d.tailOffset

/-- Well-formed deque state: the map bookkeeping is in order, the offsets are
inside a block, the cursors are consistent with `size` (canonical when empty),
and every block from the head block to the tail block, as well as the block at
`mapStart`, is allocated. -/
structure WF (d : Deque α) : Prop where
  mapLen : d.mapSize = len d.mapData
  mapStart_nonneg : 0 ≤ d.mapStart
  mapStart_lt : d.mapStart < d.mapEnd
  mapEnd_le : d.mapEnd ≤ d.mapSize
  blocks : BlocksOK d.mapData
  headOffset_lo : 0 ≤ d.headOffset
  headOffset_hi : d.headOffset < blockSize
  tailOffset_lo : 0 ≤ d.tailOffset
  tailOffset_hi : d.tailOffset < blockSize
  size_nonneg : 0 ≤ d.size
  empty_canon : d.size = 0 →
    d.headBlock = 0 ∧ d.tailBlock = 0 ∧ d.headOffset = blockSize / 2 ∧
      d.tailOffset = blockSize / 2
  cursors : 0 < d.size → tailPos d - headPos d = d.size - 1
  live : ∀ k, d.headBlock ≤ k → k ≤ d.tailBlock → AllocAt d.mapData (d.mapStart + k)
  first : AllocAt d.mapData d.mapStart

/-- Every live block lies inside the valid map range `[mapStart, mapEnd)`. -/
def InSpan (d : Deque α) : Prop :=
  0 ≤ d.headBlock ∧ d.mapStart + d.tailBlock < d.mapEnd

/-- State `d1` is `d` after the map has possibly been re-centred: the map
bookkeeping of `d1` is in order, cursors and size are those of `d`, and the
blocks of the valid range `[mapStart, mapEnd)` sit at the same distance from
`mapStart` as before. -/
structure Regrown (d d1 : Deque α) : Prop where
  mapLen : d1.mapSize = len d1.mapData
  mapStart_nonneg : 0 ≤ d1.mapStart
  mapEnd_le : d1.mapEnd ≤ d1.mapSize
  span : d1.mapEnd - d1.mapStart = d.mapEnd - d.mapStart
  blocks : BlocksOK d1.mapData
  headBlock : d1.headBlock = d.headBlock
  headOffset : d1.headOffset = d.headOffset
  tailBlock : d1.tailBlock = d.tailBlock
  tailOffset : d1.tailOffset = d.tailOffset
  size : d1.size = d.size
  kept : ∀ k, 0 ≤ k → k < d.mapEnd - d.mapStart →
    idx d1.mapData (d1.mapStart + k) = idx d.mapData (d.mapStart + k)

/-- Outcome `d1` of a successful `PushBack(x)` on `d`: size and cursors, the map
bookkeeping, the written tail slot, and what is kept of the valid map range. -/
structure BackPushed (d : Deque α) (x : α) (d1 : Deque α) : Prop where
  size : d1.size = d.size + 1
  headBlock : d1.headBlock = d.headBlock
  headOffset : d1.headOffset = d.headOffset
  tailOffset_lo : 0 ≤ d1.tailOffset
  tailOffset_hi : d1.tailOffset < blockSize
  tail_empty : d.size = 0 → tailPos d1 = tailPos d
  tail_next : d.size ≠ 0 → tailPos d1 = tailPos d + 1
  mapLen : d1.mapSize = len d1.mapData
  mapStart_nonneg : 0 ≤ d1.mapStart
  mapStart_lt : d1.mapStart < d1.mapEnd
  mapEnd_le : d1.mapEnd ≤ d1.mapSize
  blocks : BlocksOK d1.mapData
  inSpan : d.mapStart + d.tailBlock < d.mapEnd → d1.mapStart + d1.tailBlock < d1.mapEnd
  tail_alloc : AllocAt d1.mapData (d1.mapStart + d1.tailBlock)
  tail_read : readSlot d1.mapData (d1.mapStart + d1.tailBlock) d1.tailOffset = some x
  alloc_kept : ∀ k, 0 ≤ k → k < d.mapEnd - d.mapStart →
    AllocAt d.mapData (d.mapStart + k) → AllocAt d1.mapData (d1.mapStart + k)
  slot_kept : ∀ p v, 0 ≤ p → p < (d.mapEnd - d.mapStart) * blockSize → p ≠ tailPos d1 →
    slotAt d.mapData d.mapStart p = some v → slotAt d1.mapData d1.mapStart p = some v

/-- `PushFront` has to grow the map (non-empty deque, head at the start of map
slot 0) while `mapStart` is the last map slot. -/
def FrontStuck (d : Deque α) : Prop :=
  d.size ≠ 0 ∧ d.headOffset = 0 ∧ d.mapStart + d.headBlock - 1 < 0 ∧
    d.mapStart + 1 = d.mapSize

/-- The deque holds exactly the list `l`: `Len() = len l` and `At(i) = l[i]`. -/
def Holds (d : Deque α) (l : List α) : Prop :=
  d.size = (l.length : Int) ∧ ∀ i : Nat, i < l.length → At d (i : Int) = l[i]?

/-- A well-formed deque that holds the list `l`. -/
def Rep (d : Deque α) (l : List α) : Prop := WF d ∧ Holds d l

/-- What every run of the end operations keeps of a state, also after a map
growth has dropped blocks: the map bookkeeping is in order, allocated blocks
have `blockSize` cells, the block at `mapStart` is allocated, and an empty deque
has its cursors in canonical form. -/
structure Sound (d : Deque α) : Prop where
  mapLen : d.mapSize = len d.mapData
  mapStart_nonneg : 0 ≤ d.mapStart
  mapStart_lt : d.mapStart < d.mapEnd
  mapEnd_le : d.mapEnd ≤ d.mapSize
  blocks : BlocksOK d.mapData
  first : AllocAt d.mapData d.mapStart
  size_nonneg : 0 ≤ d.size
  empty_canon : d.size = 0 →
    d.headBlock = 0 ∧ d.tailBlock = 0 ∧ d.headOffset = blockSize / 2 ∧
      d.tailOffset = blockSize / 2

/-- The cursor part of the invariant: offsets inside a block, a non-negative
size, canonical cursors when empty, and otherwise the tail `size - 1` cells
after the head. -/
structure Cursors (d : Deque α) : Prop where
  headOffset_lo : 0 ≤ d.headOffset
  headOffset_hi : d.headOffset < blockSize
  tailOffset_lo : 0 ≤ d.tailOffset
  tailOffset_hi : d.tailOffset < blockSize
  size_nonneg : 0 ≤ d.size
  empty_canon : d.size = 0 →
    d.headBlock = 0 ∧ d.tailBlock = 0 ∧ d.headOffset = blockSize / 2 ∧
      d.tailOffset = blockSize / 2
  cursors : 0 < d.size → tailPos d - headPos d = d.size - 1

/-- A property of states that holds of `NewDeque` and that the four end
operations and `Set` keep whenever they return. -/
structure Stable [Inhabited α] (P : Deque α → Prop) : Prop where
  new : P NewDeque
  pushBack : ∀ (d d1 : Deque α) (x : α), P d → PushBack d x = some d1 → P d1
  pushFront : ∀ (d d1 : Deque α) (x : α), P d → PushFront d x = some d1 → P d1
  popBack : ∀ (d d1 : Deque α) (r : α × Bool), P d → PopBack d = some (d1, r) → P d1
  popFront : ∀ (d d1 : Deque α) (r : α × Bool), P d → PopFront d = some (d1, r) → P d1
  set : ∀ (d d1 : Deque α) (i : Int) (v : α) (ok : Bool), P d → Set d i v = some (d1, ok) →
    P d1

/-- States reachable from `NewDeque` by the public operations that return a
state: the pushes and pops, `Set`, `Insert`, `Erase`, `Resize`, `Reverse`,
`Clear`, `Clone` (its result) and `Swap` (of two reachable deques). -/
inductive Reach [Inhabited α] : Deque α → Prop where
  | new : Reach NewDeque
  | pushBack {d d1 : Deque α} (x : α) : Reach d → PushBack d x = some d1 → Reach d1
  | pushFront {d d1 : Deque α} (x : α) : Reach d → PushFront d x = some d1 → Reach d1
  | popBack {d d1 : Deque α} (r : α × Bool) : Reach d → PopBack d = some (d1, r) → Reach d1
  | popFront {d d1 : Deque α} (r : α × Bool) : Reach d → PopFront d = some (d1, r) → Reach d1
  | set {d d1 : Deque α} (i : Int) (v : α) (ok : Bool) :
      Reach d → Set d i v = some (d1, ok) → Reach d1
  | insert {d d1 : Deque α} (i : Int) (x : α) (ok : Bool) :
      Reach d → Insert d i x = some (d1, ok) → Reach d1
  | erase {d d1 : Deque α} (b e : Int) (ok : Bool) :
      Reach d → Erase d b e = some (d1, ok) → Reach d1
  | resize {d d1 : Deque α} (n : Int) (fill : List α) :
      Reach d → Resize d n fill = some d1 → Reach d1
  | reverse {d d1 : Deque α} : Reach d → Reverse d = some d1 → Reach d1
  | clear {d : Deque α} : Reach d → Reach (Clear d)
  | clone {d c : Deque α} : Reach d → Clone d = some c → Reach c
  | swapFst {d1 d2 : Deque α} : Reach d1 → Reach d2 → Reach (Swap d1 d2).1
  | swapSnd {d1 d2 : Deque α} : Reach d1 → Reach d2 → Reach (Swap d1 d2).2

/-- Where the cursors of a state are placed in its map: the state is sound and
its cursors are consistent, `mapStart` is not the last map slot, the head block
is at map slot 0 or later, and the tail block lies before `mapEnd`. -/
structure Placed (d : Deque α) : Prop where
  sound : Sound d
  cursors : Cursors d
  room : d.mapStart + 2 ≤ d.mapSize
  head_slot : 0 ≤ d.mapStart + d.headBlock
  tail_slot : d.mapStart + d.tailBlock < d.mapEnd

end Deque

/-! ## The queue adapter (`structure/queue/queue.go`) -/

/-- The Go struct `Queue[T]`; its `*Deque[T]` field is `none` when nil, as in
the zero value `var q Queue[T]`. -/
structure Queue (α : Type) where
  deque : Option (Deque α)

namespace Queue

variable {α : Type}

/-- `NewQueue`. -/
def NewQueue [Inhabited α] : Queue α := { deque := some Deque.NewDeque }

/-- The zero value `var q Queue[T]`: the deque pointer is nil. -/
def zeroValue : Queue α := { deque := none }

/-- `Queue.Len`: 0 for a nil deque. -/
def Len (q : Queue α) : Int :=
  match q.deque with
  | none => 0
  | some d => Deque.Len d

/-- `Queue.IsEmpty`: true for a nil deque. -/
def IsEmpty (q : Queue α) : Bool :=
  match q.deque with
  | none => true
  | some d => Deque.IsEmpty d

/-- `Queue.Front`: it calls `q.deque.IsEmpty()` without a nil check, and
`Deque.IsEmpty` reads `d.size` through its receiver, so a nil deque panics. -/
def Front [Inhabited α] (q : Queue α) : Option (α × Bool) :=
  match q.deque with
  | none => none
  | some d => if Deque.IsEmpty d then some (default, false) else Deque.Front d

/-- `Queue.Back`: as `Front`, through `Deque.Back`. -/
def Back [Inhabited α] (q : Queue α) : Option (α × Bool) :=
  match q.deque with
  | none => none
  | some d => if Deque.IsEmpty d then some (default, false) else Deque.Back d

/-- `Queue.Push`: `ensureDeque` replaces a nil deque by a new one, then
`PushBack`. -/
def Push [Inhabited α] (q : Queue α) (elem : α) : Option (Queue α) :=
  let d : Deque α :=
    match q.deque with
    | none => Deque.NewDeque
    | some d => d
  match Deque.PushBack d elem with
  | none => none
  | some d1 => some { deque := some d1 }

/-- `Queue.Pop`: it calls `q.deque.IsEmpty()` without a nil check; the result is
`(queue, element, ok)`. -/
def Pop [Inhabited α] (q : Queue α) : Option (Queue α × α × Bool) :=
  match q.deque with
  | none => none
  | some d =>
    if Deque.IsEmpty d then some (q, default, false)
    else
      match Deque.PopFront d with
      | none => none
      | some (d1, e, ok) => some ({ deque := some d1 }, e, ok)

end Queue

/-! ## Blocks as shared storage

A block `[]T` held in `mapData` is a reference to its backing array, so two Go
deques could hold the same block.  The definitions below repeat the operations
that `Clone` and a later write use with the references made explicit: a store
is the list of all blocks allocated so far, a block's address is its position in
the store, and a map slot holds an address or nil. -/

/-- The struct `Deque[T]` with each block of `mapData` replaced by its address
in the store (`none` is a nil slot). -/
structure RefDeque where
  mapData : List (Option Nat)
  mapSize : Int
  mapStart : Int
  mapEnd : Int
  headBlock : Int
  headOffset : Int
  tailBlock : Int
  tailOffset : Int
  size : Int
  deriving DecidableEq, Repr

namespace RefDeque

open Deque (blockSize initialMapSize len idx setIdx makeSlice copySlice)

variable {α : Type}

/-- Go `m[i][j]` as an rvalue, through the reference in `m[i]`. -/
def readSlot (h : List (List α)) (m : List (Option Nat)) (i j : Int) : Option α :=
  match idx m i with
  | some (some a) =>
    match h[a]? with
    | some b => idx b j
    | none => none
  | _ => none

/-- Go `m[i][j] = v`: the write goes to the block that `m[i]` refers to, and
the map itself is not assigned. -/
def writeSlot (h : List (List α)) (m : List (Option Nat)) (i j : Int) (v : α) :
    Option (List (List α)) :=
  match idx m i with
  | some (some a) =>
    match h[a]? with
    | some b =>
      match setIdx b j v with
      | some b1 => some (h.set a b1)
      | none => none
    | none => none
  | _ => none

/-- The lazy allocation of block `m[i]` when it is nil: `make([]T, blockSize)`
adds a block to the store and `m[i]` receives its address. -/
def ensureBlock [Inhabited α] (h : List (List α)) (m : List (Option Nat)) (i : Int) :
    Option (List (List α) × List (Option Nat)) :=
  match idx m i with
  | none => none
  | some none =>
    match setIdx m i (some h.length) with
    | none => none
    | some m1 => some (h ++ [List.replicate blockSize.toNat default], m1)
  | some (some _) => some (h, m)

/-- `NewDeque`: the map is a new slice and the first block a new block of the
store. -/
def NewDeque [Inhabited α] (h : List (List α)) : List (List α) × RefDeque :=
  (h ++ [List.replicate blockSize.toNat default],
    { mapSize := initialMapSize
      mapData := (List.replicate initialMapSize.toNat none).set (initialMapSize / 2).toNat
        (some h.length)
      mapStart := initialMapSize / 2
      mapEnd := initialMapSize / 2 + 1
      size := 0
      headBlock := 0
      tailBlock := 0
      headOffset := blockSize / 2
      tailOffset := blockSize / 2 })

/-- `IsEmpty`. -/
def IsEmpty (d : RefDeque) : Bool := d.size == 0

/-- `expandMap`: the block references of `[mapStart, mapEnd)` are copied into a
new map; no block is touched. -/
def expandMap (d : RefDeque) : Option RefDeque :=
  let newMapSize := d.mapSize * 2
  match makeSlice newMapSize (none : Option Nat) with
  | none => none
  | some newMapData =>
    let newMapStart := Int.tdiv (newMapSize - (d.mapEnd - d.mapStart)) 2
    if newMapStart < 0 ∨ len newMapData < newMapStart then none
    else if d.mapStart < 0 ∨ d.mapEnd < d.mapStart ∨ len d.mapData < d.mapEnd then none
    else
      let src := (d.mapData.take d.mapEnd.toNat).drop d.mapStart.toNat
      let newMapData1 := newMapData.take newMapStart.toNat ++
        copySlice (newMapData.drop newMapStart.toNat) src
      some { d with
        mapData := newMapData1
        mapSize := newMapSize
        mapEnd := newMapStart + (d.mapEnd - d.mapStart)
        mapStart := newMapStart }

/-- `PushBack`. -/
def PushBack [Inhabited α] (h : List (List α)) (d : RefDeque) (elem : α) :
    Option (List (List α) × RefDeque) :=
  if d.IsEmpty then
    match writeSlot h d.mapData (d.mapStart + d.tailBlock) d.tailOffset elem with
    | none => none
    | some h1 => some (h1, { d with size := d.size + 1 })
  else if d.tailOffset < blockSize - 1 then
    match writeSlot h d.mapData (d.mapStart + d.tailBlock) (d.tailOffset + 1) elem with
    | none => none
    | some h1 => some (h1, { d with tailOffset := d.tailOffset + 1, size := d.size + 1 })
  else
    match (if d.mapStart + d.tailBlock + 1 ≥ len d.mapData then expandMap d else some d) with
    | none => none
    | some d1 =>
      let blockIndex := d1.mapStart + (d1.tailBlock + 1)
      if blockIndex ≥ len d1.mapData then none
      else
        match ensureBlock h d1.mapData blockIndex with
        | none => none
        | some (h2, m2) =>
          let mapEnd2 := if blockIndex + 1 > d1.mapEnd then blockIndex + 1 else d1.mapEnd
          match writeSlot h2 m2 blockIndex 0 elem with
          | none => none
          | some h3 =>
            some (h3, { d1 with
              mapData := m2
              mapEnd := mapEnd2
              tailBlock := d1.tailBlock + 1
              tailOffset := 0
              size := d1.size + 1 })

/-- `PushFront`. -/
def PushFront [Inhabited α] (h : List (List α)) (d : RefDeque) (elem : α) :
    Option (List (List α) × RefDeque) :=
  if d.IsEmpty then
    match writeSlot h d.mapData (d.mapStart + d.headBlock) d.headOffset elem with
    | none => none
    | some h1 => some (h1, { d with size := d.size + 1 })
  else if d.headOffset > 0 then
    match writeSlot h d.mapData (d.mapStart + d.headBlock) (d.headOffset - 1) elem with
    | none => none
    | some h1 => some (h1, { d with headOffset := d.headOffset - 1, size := d.size + 1 })
  else
    match (if d.mapStart + d.headBlock - 1 < 0 then expandMap d else some d) with
    | none => none
    | some d1 =>
      let blockIndex := d1.mapStart + (d1.headBlock - 1)
      if blockIndex < 0 ∨ blockIndex ≥ len d1.mapData then none
      else
        match ensureBlock h d1.mapData blockIndex with
        | none => none
        | some (h2, m2) =>
          match writeSlot h2 m2 blockIndex (blockSize - 1) elem with
          | none => none
          | some h3 =>
            some (h3, { d1 with
              mapData := m2
              headBlock := d1.headBlock - 1
              headOffset := blockSize - 1
              size := d1.size + 1 })

/-- `At`. -/
def At (h : List (List α)) (d : RefDeque) (index : Int) : Option α :=
  let absoluteIndex := d.headOffset + index
  let blockIndex := d.headBlock + Int.tdiv absoluteIndex blockSize
  let offset := Int.tmod absoluteIndex blockSize
  readSlot h d.mapData (d.mapStart + blockIndex) offset

/-- `Set`: the result is `(store, state, ok)`. -/
def Set (h : List (List α)) (d : RefDeque) (index : Int) (value : α) :
    Option (List (List α) × RefDeque × Bool) :=
  if index < 0 ∨ index ≥ d.size then some (h, d, false)
  else
    let absoluteIndex := d.headOffset + index
    let blockIndex := d.headBlock + Int.tdiv absoluteIndex blockSize
    let offset := Int.tmod absoluteIndex blockSize
    match writeSlot h d.mapData (d.mapStart + blockIndex) offset value with
    | none => none
    | some h1 => some (h1, d, true)

/-- The loop `for i < d.size: clone.PushBack(d.At(i))` of `Clone`, at counter
`i` with `n` iterations left; `c` is the clone under construction. -/
def cloneLoop [Inhabited α] (h : List (List α)) (d c : RefDeque) (i : Int) :
    Nat → Option (List (List α) × RefDeque)
  | 0 => some (h, c)
  | n + 1 =>
    match At h d i with
    | none => none
    | some v =>
      match PushBack h c v with
      | none => none
      | some (h1, c1) => cloneLoop h1 d c1 (i + 1) n

/-- `Clone`: the result is the store after the call and the clone. -/
def Clone [Inhabited α] (h : List (List α)) (d : RefDeque) :
    Option (List (List α) × RefDeque) :=
  cloneLoop (NewDeque h).1 d (NewDeque h).2 0 d.size.toNat

/-- The blocks that a map of references denotes in a store. -/
def blocksOf (h : List (List α)) (m : List (Option Nat)) : List (Option (List α)) :=
  m.map fun o => o.bind fun a => h[a]?

/-- The state with blocks as values that a state with references denotes in a
store. -/
def toDeque (h : List (List α)) (d : RefDeque) : Deque α :=
  { mapData := blocksOf h d.mapData
    mapSize := d.mapSize
    mapStart := d.mapStart
    mapEnd := d.mapEnd
    headBlock := d.headBlock
    headOffset := d.headOffset
    tailBlock := d.tailBlock
    tailOffset := d.tailOffset
    size := d.size }

/-- Every reference of the map is an address below `n`. -/
def Below (n : Nat) (m : List (Option Nat)) : Prop := ∀ a, some a ∈ m → a < n

/-- Every reference of the map is an address `n` or above: the map refers only
to blocks allocated after the store had `n` blocks. -/
def Fresh (n : Nat) (m : List (Option Nat)) : Prop := ∀ a, some a ∈ m → n ≤ a

/-- Every reference of the map is an address of the store, and no two map slots
refer to the same block. -/
def Distinct (h : List (List α)) (m : List (Option Nat)) : Prop :=
  m.reduceOption.Nodup ∧ Below h.length m

/-- Store `h1` has the blocks of `h` unchanged at every address below `n`. -/
def Agree (n : Nat) (h h1 : List (List α)) : Prop := ∀ a, a < n → h1[a]? = h[a]?

end RefDeque

/-! ## Slices -/

namespace Deque

variable {α : Type}

theorem idx_eq_some {β : Type} {l : List β} {i : Int} {v : β} :
    idx l i = some v ↔ 0 ≤ i ∧ l[i.toNat]? = some v := by
  unfold idx
  by_cases h : i < 0
  · simp [h]
  · simp [h]; intro _; omega

theorem idx_isSome {β : Type} {l : List β} {i : Int} (h0 : 0 ≤ i) (h1 : i < len l) :
    ∃ v, idx l i = some v := by
  unfold len at h1
  have h2 : i.toNat < l.length := by omega
  exact ⟨l[i.toNat], idx_eq_some.mpr ⟨h0, List.getElem?_eq_getElem h2⟩⟩

theorem idx_bounds {β : Type} {l : List β} {i : Int} {v : β} (h : idx l i = some v) :
    0 ≤ i ∧ i < len l := by
  obtain ⟨h0, h1⟩ := idx_eq_some.mp h
  obtain ⟨h2, _⟩ := List.getElem?_eq_some.mp h1
  unfold len
  omega

theorem setIdx_eq_some {β : Type} {l l1 : List β} {i : Int} {v : β} :
    setIdx l i v = some l1 ↔ (0 ≤ i ∧ i < len l) ∧ l1 = l.set i.toNat v := by
  unfold setIdx
  by_cases h : i < 0 ∨ len l ≤ i
  · simp [h]; omega
  · simp [h]
    constructor
    · intro e; exact ⟨by omega, e.symm⟩
    · intro e; exact e.2.symm

theorem len_setIdx {β : Type} {l l1 : List β} {i : Int} {v : β}
    (h : setIdx l i v = some l1) : len l1 = len l := by
  obtain ⟨_, rfl⟩ := setIdx_eq_some.mp h
  simp [len]

theorem idx_setIdx_same {β : Type} {l l1 : List β} {i : Int} {v : β}
    (h : setIdx l i v = some l1) : idx l1 i = some v := by
  obtain ⟨⟨h0, h1⟩, rfl⟩ := setIdx_eq_some.mp h
  unfold len at h1
  refine idx_eq_some.mpr ⟨h0, ?_⟩
  have h2 : i.toNat < l.length := by omega
  simp [List.getElem?_set_self, h2]

theorem idx_setIdx_other {β : Type} {l l1 : List β} {i k : Int} {v : β}
    (h : setIdx l i v = some l1) (hk : k ≠ i) : idx l1 k = idx l k := by
  obtain ⟨⟨h0, _⟩, rfl⟩ := setIdx_eq_some.mp h
  unfold idx
  by_cases hk0 : k < 0
  · simp [hk0]
  · simp only [hk0, if_false]
    have hne : i.toNat ≠ k.toNat := by omega
    simp [List.getElem?_set_ne hne]

/-! ## Blocks and slots -/

theorem readSlot_eq_some {α : Type} {m : List (Option (List α))} {i j : Int} {v : α} :
    readSlot m i j = some v ↔ ∃ b, idx m i = some (some b) ∧ idx b j = some v := by
  unfold readSlot
  cases h : idx m i with
  | none => simp
  | some ob =>
    cases ob with
    | none => simp
    | some b => simp

theorem writeSlot_eq_some {α : Type} {m m1 : List (Option (List α))} {i j : Int} {v : α} :
    writeSlot m i j v = some m1 ↔
      ∃ b b1, idx m i = some (some b) ∧ setIdx b j v = some b1 ∧
        setIdx m i (some b1) = some m1 := by
  unfold writeSlot
  cases h : idx m i with
  | none => simp
  | some ob =>
    cases ob with
    | none => simp
    | some b =>
      cases h1 : setIdx b j v with
      | none => simp [h1]
      | some b1 => simp [h1]

theorem len_writeSlot {α : Type} {m m1 : List (Option (List α))} {i j : Int} {v : α}
    (h : writeSlot m i j v = some m1) : len m1 = len m := by
  obtain ⟨b, b1, _, _, h3⟩ := writeSlot_eq_some.mp h
  exact len_setIdx h3

theorem readSlot_writeSlot_same {α : Type} {m m1 : List (Option (List α))} {i j : Int} {v : α}
    (h : writeSlot m i j v = some m1) : readSlot m1 i j = some v := by
  obtain ⟨b, b1, _, h2, h3⟩ := writeSlot_eq_some.mp h
  exact readSlot_eq_some.mpr ⟨b1, idx_setIdx_same h3, idx_setIdx_same h2⟩

theorem readSlot_writeSlot_other {α : Type} {m m1 : List (Option (List α))} {i j k j1 : Int}
    {v : α} (h : writeSlot m i j v = some m1) (hne : k ≠ i ∨ j1 ≠ j) :
    readSlot m1 k j1 = readSlot m k j1 := by
  obtain ⟨b, b1, h1, h2, h3⟩ := writeSlot_eq_some.mp h
  by_cases hk : k = i
  · subst hk
    have hj : j1 ≠ j := by
      rcases hne with h | h
      · exact absurd rfl h
      · exact h
    unfold readSlot
    rw [idx_setIdx_same h3, h1]
    exact idx_setIdx_other h2 hj
  · unfold readSlot
    rw [idx_setIdx_other h3 hk]

theorem AllocAt_writeSlot {α : Type} {m m1 : List (Option (List α))} {i j k : Int} {v : α}
    (h : writeSlot m i j v = some m1) (ha : AllocAt m k) : AllocAt m1 k := by
  obtain ⟨b, b1, h1, h2, h3⟩ := writeSlot_eq_some.mp h
  by_cases hk : k = i
  · subst hk
    obtain ⟨b0, hb0, hl⟩ := ha
    rw [h1] at hb0
    cases hb0
    exact ⟨b1, idx_setIdx_same h3, by rw [len_setIdx h2]; exact hl⟩
  · obtain ⟨b0, hb0, hl⟩ := ha
    exact ⟨b0, by rw [idx_setIdx_other h3 hk]; exact hb0, hl⟩

theorem BlocksOK_writeSlot {α : Type} {m m1 : List (Option (List α))} {i j : Int} {v : α}
    (h : writeSlot m i j v = some m1) (hb : BlocksOK m) : BlocksOK m1 := by
  obtain ⟨b, b1, h1, h2, h3⟩ := writeSlot_eq_some.mp h
  intro k c hc
  by_cases hk : k = i
  · subst hk
    rw [idx_setIdx_same h3] at hc
    cases hc
    rw [len_setIdx h2]
    exact hb k b h1
  · rw [idx_setIdx_other h3 hk] at hc
    exact hb k c hc

theorem writeSlot_isSome {α : Type} {m : List (Option (List α))} {i j : Int} (v : α)
    (ha : AllocAt m i) (h0 : 0 ≤ j) (h1 : j < blockSize) :
    ∃ m1, writeSlot m i j v = some m1 := by
  obtain ⟨b, hb, hl⟩ := ha
  obtain ⟨hi0, hi1⟩ := idx_bounds hb
  have e1 : setIdx b j v = some (b.set j.toNat v) :=
    setIdx_eq_some.mpr ⟨⟨h0, by rw [hl]; exact h1⟩, rfl⟩
  have e2 : setIdx m i (some (b.set j.toNat v)) = some (m.set i.toNat (some (b.set j.toNat v))) :=
    setIdx_eq_some.mpr ⟨⟨hi0, hi1⟩, rfl⟩
  exact ⟨_, writeSlot_eq_some.mpr ⟨b, _, hb, e1, e2⟩⟩

theorem readSlot_isSome {α : Type} {m : List (Option (List α))} {i j : Int}
    (ha : AllocAt m i) (h0 : 0 ≤ j) (h1 : j < blockSize) :
    ∃ v, readSlot m i j = some v := by
  obtain ⟨b, hb, hl⟩ := ha
  obtain ⟨v, hv⟩ := idx_isSome h0 (by rw [hl]; exact h1 : j < len b)
  exact ⟨v, readSlot_eq_some.mpr ⟨b, hb, hv⟩⟩

theorem writeSlot_of_readSlot {α : Type} {m : List (Option (List α))} {i j : Int} {v : α}
    (z : α) (h : readSlot m i j = some v) : ∃ m1, writeSlot m i j z = some m1 := by
  obtain ⟨b, hb, hv⟩ := readSlot_eq_some.mp h
  obtain ⟨hj0, hj1⟩ := idx_bounds hv
  obtain ⟨hi0, hi1⟩ := idx_bounds hb
  have e1 : setIdx b j z = some (b.set j.toNat z) := setIdx_eq_some.mpr ⟨⟨hj0, hj1⟩, rfl⟩
  have e2 : setIdx m i (some (b.set j.toNat z)) = some (m.set i.toNat (some (b.set j.toNat z))) :=
    setIdx_eq_some.mpr ⟨⟨hi0, hi1⟩, rfl⟩
  exact ⟨_, writeSlot_eq_some.mpr ⟨b, _, hb, e1, e2⟩⟩

theorem len_replicate_blockSize {α : Type} (z : α) :
    len (List.replicate blockSize.toNat z) = blockSize := by
  simp [len, blockSize]

/-- Effect of the lazy allocation on a slot inside the map: the slot ends up
allocated, nothing else moves, and every cell that could be read keeps its value. -/
theorem ensureBlock_spec {α : Type} [Inhabited α] {m : List (Option (List α))} {i : Int}
    (h0 : 0 ≤ i) (h1 : i < len m) (hb : BlocksOK m) :
    ∃ m1, ensureBlock m i = some m1 ∧ len m1 = len m ∧ BlocksOK m1 ∧ AllocAt m1 i ∧
      (∀ k, AllocAt m k → AllocAt m1 k) ∧
      (∀ k j v, readSlot m k j = some v → readSlot m1 k j = some v) := by
  obtain ⟨ob, hob⟩ := idx_isSome h0 h1
  unfold ensureBlock
  rw [hob]
  cases ob with
  | some b =>
    exact ⟨m, rfl, rfl, hb, ⟨b, hob, hb i b hob⟩, fun _ h => h, fun _ _ _ h => h⟩
  | none =>
    have e : setIdx m i (some (List.replicate blockSize.toNat (default : α))) =
        some (m.set i.toNat (some (List.replicate blockSize.toNat default))) :=
      setIdx_eq_some.mpr ⟨⟨h0, h1⟩, rfl⟩
    refine ⟨_, e, len_setIdx e, ?_, ⟨_, idx_setIdx_same e, len_replicate_blockSize _⟩, ?_, ?_⟩
    · intro k c hc
      by_cases hk : k = i
      · subst hk
        rw [idx_setIdx_same e] at hc
        cases hc
        exact len_replicate_blockSize _
      · rw [idx_setIdx_other e hk] at hc
        exact hb k c hc
    · intro k ⟨c, hc, hl⟩
      have hk : k ≠ i := by
        intro hk; subst hk; rw [hob] at hc; cases hc
      exact ⟨c, by rw [idx_setIdx_other e hk]; exact hc, hl⟩
    · intro k j v hv
      obtain ⟨c, hc, hcv⟩ := readSlot_eq_some.mp hv
      have hk : k ≠ i := by
        intro hk; subst hk; rw [hob] at hc; cases hc
      exact readSlot_eq_some.mpr ⟨c, by rw [idx_setIdx_other e hk]; exact hc, hcv⟩

/-! ## Map growth -/

theorem recenter_length {β : Type} (m : List β) (M ns ms me : Nat) (z : β)
    (h1 : ms ≤ me) (h2 : me ≤ m.length) (h3 : ns + (me - ms) ≤ M) :
    ((List.replicate M z).take ns ++
      copySlice ((List.replicate M z).drop ns) ((m.take me).drop ms)).length = M := by
  simp [copySlice]
  omega

theorem recenter_inside {β : Type} (m : List β) (M ns ms me : Nat) (z : β)
    (h1 : ms ≤ me) (h2 : me ≤ m.length) (h3 : ns + (me - ms) ≤ M) (k : Nat) (hk : k < me - ms) :
    ((List.replicate M z).take ns ++
      copySlice ((List.replicate M z).drop ns) ((m.take me).drop ms))[ns + k]? = m[ms + k]? := by
  have hl : ((List.replicate M z).take ns).length = ns := by simp; omega
  rw [List.getElem?_append_right (by omega)]
  simp only [hl, copySlice, Nat.add_sub_cancel_left]
  rw [List.getElem?_append_left (by simp; omega)]
  rw [List.getElem?_take_of_lt (by simp; omega), List.getElem?_drop,
    List.getElem?_take_of_lt (by omega)]

theorem recenter_outside {β : Type} (m : List β) (M ns ms me : Nat) (z : β)
    (h1 : ms ≤ me) (h2 : me ≤ m.length) (h3 : ns + (me - ms) ≤ M) (j : Nat) (hj : j < M)
    (ho : j < ns ∨ ns + (me - ms) ≤ j) :
    ((List.replicate M z).take ns ++
      copySlice ((List.replicate M z).drop ns) ((m.take me).drop ms))[j]? = some z := by
  have hl : ((List.replicate M z).take ns).length = ns := by simp; omega
  rcases ho with ho | ho
  · rw [List.getElem?_append_left (by omega), List.getElem?_take_of_lt ho]
    simp [hj]
  · rw [List.getElem?_append_right (by omega)]
    simp only [hl, copySlice]
    rw [List.getElem?_append_right (by simp; omega)]
    simp only [List.length_take, List.length_drop, List.length_replicate, List.getElem?_drop,
      List.getElem?_replicate]
    rw [if_pos (by omega)]

theorem expandMap_spec {α : Type} (d : Deque α) (hM : d.mapSize = len d.mapData)
    (h0 : 0 ≤ d.mapStart) (h1 : d.mapStart ≤ d.mapEnd) (h2 : d.mapEnd ≤ d.mapSize) :
    ∃ d1, expandMap d = some d1 ∧
      d1.mapSize = 2 * d.mapSize ∧ len d1.mapData = 2 * d.mapSize ∧
      d1.mapStart = (2 * d.mapSize - (d.mapEnd - d.mapStart)) / 2 ∧
      d1.mapEnd = d1.mapStart + (d.mapEnd - d.mapStart) ∧
      d1.headBlock = d.headBlock ∧ d1.headOffset = d.headOffset ∧
      d1.tailBlock = d.tailBlock ∧ d1.tailOffset = d.tailOffset ∧ d1.size = d.size ∧
      (∀ k, 0 ≤ k → k < d.mapEnd - d.mapStart →
        idx d1.mapData (d1.mapStart + k) = idx d.mapData (d.mapStart + k)) ∧
      (∀ j, 0 ≤ j → j < 2 * d.mapSize → (j < d1.mapStart ∨ d1.mapEnd ≤ j) →
        idx d1.mapData j = some none) := by
  have hlen : (d.mapData.length : Int) = d.mapSize := by rw [hM]; rfl
  have hdiv : Int.tdiv (d.mapSize * 2 - (d.mapEnd - d.mapStart)) 2 =
      (2 * d.mapSize - (d.mapEnd - d.mapStart)) / 2 := by
    rw [Int.tdiv_eq_ediv (by omega) (by omega)]
    congr 1
    omega
  generalize hns : (2 * d.mapSize - (d.mapEnd - d.mapStart)) / 2 = ns at hdiv
  have hns0 : 0 ≤ ns := by omega
  have hns1 : ns + (d.mapEnd - d.mapStart) ≤ 2 * d.mapSize := by omega
  have c1 : ¬ (d.mapSize * 2 < 0) := by omega
  have c2 : ¬ (ns < 0 ∨ len (List.replicate (d.mapSize * 2).toNat (none : Option (List α))) < ns) := by
    simp only [len, List.length_replicate]
    omega
  have c3 : ¬ (d.mapStart < 0 ∨ d.mapEnd < d.mapStart ∨ len d.mapData < d.mapEnd) := by
    simp only [len]
    omega
  have e : expandMap d = some { d with
      mapData := (List.replicate (d.mapSize * 2).toNat (none : Option (List α))).take ns.toNat ++
        copySlice ((List.replicate (d.mapSize * 2).toNat (none : Option (List α))).drop ns.toNat)
          ((d.mapData.take d.mapEnd.toNat).drop d.mapStart.toNat)
      mapSize := d.mapSize * 2
      mapEnd := ns + (d.mapEnd - d.mapStart)
      mapStart := ns } := by
    simp only [expandMap, makeSlice, if_neg c1, hdiv, if_neg c2, if_neg c3]
  refine ⟨_, e, ?_, ?_, rfl, rfl, rfl, rfl, rfl, rfl, rfl, ?_, ?_⟩
  · simp only; omega
  · simp only [len]
    rw [recenter_length _ _ _ _ _ _ (by omega) (by omega) (by omega)]
    omega
  · intro k hk0 hk1
    simp only
    have ea : (ns + k).toNat = ns.toNat + k.toNat := by omega
    have eb : (d.mapStart + k).toNat = d.mapStart.toNat + k.toNat := by omega
    unfold idx
    rw [if_neg (by omega), if_neg (by omega), ea, eb]
    exact recenter_inside _ _ _ _ _ _ (by omega) (by omega) (by omega) _ (by omega)
  · intro j hj0 hj1 hj
    simp only at hj ⊢
    unfold idx
    rw [if_neg (by omega)]
    exact recenter_outside _ _ _ _ _ _ (by omega) (by omega) (by omega) _ (by omega) (by omega)

/-! ## Linear positions -/

theorem slotAt_pos (m : List (Option (List α))) (ms b o : Int) (h0 : 0 ≤ o)
    (h1 : o < blockSize) : slotAt m ms (b * blockSize + o) = readSlot m (ms + b) o := by
  unfold slotAt
  simp only [blockSize] at *
  have e1 : (b * 128 + o) / 128 = b := by omega
  have e2 : (b * 128 + o) % 128 = o := by omega
  rw [e1, e2]

theorem At_eq_slotAt (d : Deque α) (i : Int) (h0 : 0 ≤ d.headOffset) (hi : 0 ≤ i) :
    At d i = slotAt d.mapData d.mapStart (headPos d + i) := by
  unfold At slotAt headPos
  simp only [blockSize] at *
  rw [Int.tdiv_eq_ediv (by omega) (by omega), Int.tmod_eq_emod (by omega) (by omega)]
  have e1 : d.headBlock + (d.headOffset + i) / 128 =
      (d.headBlock * 128 + d.headOffset + i) / 128 := by omega
  have e2 : (d.headOffset + i) % 128 = (d.headBlock * 128 + d.headOffset + i) % 128 := by omega
  rw [e1, e2]

theorem slotAt_writeSlot_same {m m1 : List (Option (List α))} {ms b o : Int} {v : α}
    (h : writeSlot m (ms + b) o v = some m1) (h0 : 0 ≤ o) (h1 : o < blockSize) :
    slotAt m1 ms (b * blockSize + o) = some v := by
  rw [slotAt_pos _ _ _ _ h0 h1]
  exact readSlot_writeSlot_same h

theorem slotAt_writeSlot_other {m m1 : List (Option (List α))} {ms b o p : Int} {v : α}
    (h : writeSlot m (ms + b) o v = some m1) (hp : p ≠ b * blockSize + o) :
    slotAt m1 ms p = slotAt m ms p := by
  unfold slotAt
  apply readSlot_writeSlot_other h
  simp only [blockSize] at *
  omega

theorem Holds_slotAt {d : Deque α} {l : List α} (h0 : 0 ≤ d.headOffset) (h : Holds d l)
    (i : Nat) (hi : i < l.length) :
    slotAt d.mapData d.mapStart (headPos d + (i : Int)) = l[i]? := by
  rw [← At_eq_slotAt d i h0 (by omega)]
  exact h.2 i hi

theorem WF.head_le_tail {d : Deque α} (h : WF d) : d.headBlock ≤ d.tailBlock := by
  have h1 := h.headOffset_lo
  have h2 := h.headOffset_hi
  have h3 := h.tailOffset_lo
  have h4 := h.tailOffset_hi
  have h5 := h.size_nonneg
  have h6 := h.empty_canon
  have h7 := h.cursors
  simp only [blockSize, headPos, tailPos] at *
  by_cases hs : d.size = 0
  · obtain ⟨a, b, _, _⟩ := h6 hs
    omega
  · have := h7 (by omega)
    omega

theorem WF.head_alloc {d : Deque α} (h : WF d) :
    AllocAt d.mapData (d.mapStart + d.headBlock) :=
  h.live _ (le_refl _) h.head_le_tail

theorem WF.tail_alloc {d : Deque α} (h : WF d) :
    AllocAt d.mapData (d.mapStart + d.tailBlock) :=
  h.live _ h.head_le_tail (le_refl _)

/-! ## Pops -/

theorem PopFront_of_read [Inhabited α] (d : Deque α) (v : α) (hne : d.size ≠ 0)
    (hr : readSlot d.mapData (d.mapStart + d.headBlock) d.headOffset = some v) :
    ∃ d1, PopFront d = some (d1, v, true) ∧ d1.size = d.size - 1 := by
  obtain ⟨m, hm⟩ := writeSlot_of_readSlot (default : α) hr
  have hemp : d.IsEmpty = false := by simp [IsEmpty, hne]
  unfold PopFront
  simp only [hemp, hr, hm]
  by_cases h1 : d.size = 1
  · simp [h1]
  · by_cases h2 : d.headOffset < blockSize - 1
    · simp [h1, h2]
    · simp [h1, h2]

theorem PopBack_of_read [Inhabited α] (d : Deque α) (v : α) (hne : d.size ≠ 0)
    (hr : readSlot d.mapData (d.mapStart + d.tailBlock) d.tailOffset = some v) :
    ∃ d1, PopBack d = some (d1, v, true) ∧ d1.size = d.size - 1 := by
  obtain ⟨m, hm⟩ := writeSlot_of_readSlot (default : α) hr
  have hemp : d.IsEmpty = false := by simp [IsEmpty, hne]
  unfold PopBack
  simp only [hemp, hr, hm]
  by_cases h1 : d.size = 1
  · simp [h1]
  · by_cases h2 : d.tailOffset > 0
    · simp [h1, h2]
    · simp [h1, h2]

theorem PopFront_spec [Inhabited α] (d : Deque α) (a : α) (l : List α) (hwf : WF d)
    (hh : Holds d (a :: l)) :
    ∃ d1, PopFront d = some (d1, a, true) ∧ WF d1 ∧ Holds d1 l ∧ (InSpan d → InSpan d1) := by
  have hsz : d.size = (l.length : Int) + 1 := by rw [hh.1]; simp
  have ho0 := hwf.headOffset_lo
  have ho1 := hwf.headOffset_hi
  have ht0 := hwf.tailOffset_lo
  have ht1 := hwf.tailOffset_hi
  have hr : readSlot d.mapData (d.mapStart + d.headBlock) d.headOffset = some a := by
    have := Holds_slotAt ho0 hh 0 (by simp)
    simp only [headPos, Nat.cast_zero, add_zero] at this
    rw [slotAt_pos _ _ _ _ ho0 ho1] at this
    simpa using this
  obtain ⟨m, hm⟩ := writeSlot_of_readSlot (default : α) hr
  have hlen := len_writeSlot hm
  have hblk := BlocksOK_writeSlot hm hwf.blocks
  have hall : ∀ k, AllocAt d.mapData k → AllocAt m k := fun k => AllocAt_writeSlot hm
  have hother : ∀ p, p ≠ headPos d → slotAt m d.mapStart p = slotAt d.mapData d.mapStart p :=
    fun p hp => slotAt_writeSlot_other hm hp
  have hcur := hwf.cursors (by omega)
  have hemp : d.IsEmpty = false := by simp [IsEmpty]; omega
  unfold PopFront
  simp only [hemp, Bool.false_eq_true, if_false, hr, hm]
  by_cases h1 : d.size = 1
  · rw [if_pos h1]
    have hl : l = [] := by
      apply List.eq_nil_of_length_eq_zero
      omega
    subst hl
    refine ⟨_, rfl, ?_, ?_, ?_⟩
    · exact
        { mapLen := by rw [hwf.mapLen]; exact hlen.symm
          mapStart_nonneg := hwf.mapStart_nonneg
          mapStart_lt := hwf.mapStart_lt
          mapEnd_le := hwf.mapEnd_le
          blocks := hblk
          headOffset_lo := by simp [blockSize]
          headOffset_hi := by simp [blockSize]
          tailOffset_lo := by simp [blockSize]
          tailOffset_hi := by simp [blockSize]
          size_nonneg := le_refl _
          empty_canon := fun _ => ⟨rfl, rfl, rfl, rfl⟩
          cursors := fun h => absurd h (lt_irrefl _)
          live := by
            intro k hk0 hk1
            have : k = 0 := le_antisymm hk1 hk0
            subst this
            simpa using hall _ hwf.first
          first := hall _ hwf.first }
    · exact ⟨rfl, fun i hi => absurd hi (Nat.not_lt_zero _)⟩
    · intro hs
      exact ⟨le_refl _, by simpa using hwf.mapStart_lt⟩
  · rw [if_neg h1]
    by_cases h2 : d.headOffset < blockSize - 1
    · rw [if_pos h2]
      refine ⟨_, rfl, ?_, ?_, ?_⟩
      · exact
          { mapLen := by rw [hwf.mapLen]; exact hlen.symm
            mapStart_nonneg := hwf.mapStart_nonneg
            mapStart_lt := hwf.mapStart_lt
            mapEnd_le := hwf.mapEnd_le
            blocks := hblk
            headOffset_lo := by simp only; omega
            headOffset_hi := by simp only; omega
            tailOffset_lo := ht0
            tailOffset_hi := ht1
            size_nonneg := by simp only; omega
            empty_canon := by simp only; intro h; omega
            cursors := by
              simp only [headPos, tailPos] at hcur ⊢
              intro _; omega
            live := fun k hk0 hk1 => hall _ (hwf.live k hk0 hk1)
            first := hall _ hwf.first }
      · refine ⟨by simp only; omega, fun i hi => ?_⟩
        rw [At_eq_slotAt _ _ (by simp only; omega) (by omega)]
        simp only [headPos]
        have e : d.headBlock * blockSize + (d.headOffset + 1) + (i : Int) =
            headPos d + ((i + 1 : Nat) : Int) := by
          simp only [headPos]; push_cast; ring
        rw [e]
        rw [hother _ (by omega), Holds_slotAt ho0 hh (i + 1) (by simpa using hi)]
        simp
      · intro hs
        exact hs
    · rw [if_neg h2]
      refine ⟨_, rfl, ?_, ?_, ?_⟩
      · exact
          { mapLen := by rw [hwf.mapLen]; exact hlen.symm
            mapStart_nonneg := hwf.mapStart_nonneg
            mapStart_lt := hwf.mapStart_lt
            mapEnd_le := hwf.mapEnd_le
            blocks := hblk
            headOffset_lo := le_refl _
            headOffset_hi := by simp [blockSize]
            tailOffset_lo := ht0
            tailOffset_hi := ht1
            size_nonneg := by simp only; omega
            empty_canon := by simp only; intro h; omega
            cursors := by
              simp only [headPos, tailPos, blockSize] at hcur h2 ho1 ⊢
              intro _; omega
            live := fun k hk0 hk1 => hall _ (hwf.live k (by simp only at hk0; omega) hk1)
            first := hall _ hwf.first }
      · refine ⟨by simp only; omega, fun i hi => ?_⟩
        rw [At_eq_slotAt _ _ (le_refl _) (by omega)]
        simp only [headPos]
        have e : (d.headBlock + 1) * blockSize + 0 + (i : Int) =
            headPos d + ((i + 1 : Nat) : Int) := by
          simp only [headPos, blockSize] at h2 ho1 ⊢; push_cast; omega
        rw [e]
        rw [hother _ (by omega), Holds_slotAt ho0 hh (i + 1) (by simpa using hi)]
        simp
      · intro hs
        have hle := hwf.head_le_tail
        have hc2 : d.headBlock < d.tailBlock := by
          simp only [headPos, tailPos, blockSize] at hcur h2 ho1 ht1
          omega
        exact ⟨by simp only; have := hs.1; omega, hs.2⟩

theorem PopBack_spec [Inhabited α] (d : Deque α) (a : α) (l : List α) (hwf : WF d)
    (hh : Holds d (l ++ [a])) :
    ∃ d1, PopBack d = some (d1, a, true) ∧ WF d1 ∧ Holds d1 l ∧ (InSpan d → InSpan d1) := by
  have hsz : d.size = (l.length : Int) + 1 := by rw [hh.1]; simp
  have ho0 := hwf.headOffset_lo
  have ho1 := hwf.headOffset_hi
  have ht0 := hwf.tailOffset_lo
  have ht1 := hwf.tailOffset_hi
  have hcur := hwf.cursors (by omega)
  have htp : tailPos d = headPos d + (l.length : Int) := by omega
  have hr : readSlot d.mapData (d.mapStart + d.tailBlock) d.tailOffset = some a := by
    have := Holds_slotAt ho0 hh l.length (by simp)
    rw [← htp] at this
    simp only [tailPos] at this
    rw [slotAt_pos _ _ _ _ ht0 ht1] at this
    simpa using this
  obtain ⟨m, hm⟩ := writeSlot_of_readSlot (default : α) hr
  have hlen := len_writeSlot hm
  have hblk := BlocksOK_writeSlot hm hwf.blocks
  have hall : ∀ k, AllocAt d.mapData k → AllocAt m k := fun k => AllocAt_writeSlot hm
  have hother : ∀ p, p ≠ tailPos d → slotAt m d.mapStart p = slotAt d.mapData d.mapStart p :=
    fun p hp => slotAt_writeSlot_other hm hp
  have hemp : d.IsEmpty = false := by simp [IsEmpty]; omega
  have hkeep : ∀ i : Nat, i < l.length →
      slotAt m d.mapStart (headPos d + (i : Int)) = l[i]? := by
    intro i hi
    rw [hother _ (by omega), Holds_slotAt ho0 hh i (by simp; omega)]
    exact List.getElem?_append_left hi
  unfold PopBack
  simp only [hemp, Bool.false_eq_true, if_false, hr, hm]
  by_cases h1 : d.size = 1
  · rw [if_pos h1]
    have hl : l = [] := by
      apply List.eq_nil_of_length_eq_zero
      omega
    subst hl
    refine ⟨_, rfl, ?_, ?_, ?_⟩
    · exact
        { mapLen := by rw [hwf.mapLen]; exact hlen.symm
          mapStart_nonneg := hwf.mapStart_nonneg
          mapStart_lt := hwf.mapStart_lt
          mapEnd_le := hwf.mapEnd_le
          blocks := hblk
          headOffset_lo := by simp [blockSize]
          headOffset_hi := by simp [blockSize]
          tailOffset_lo := by simp [blockSize]
          tailOffset_hi := by simp [blockSize]
          size_nonneg := le_refl _
          empty_canon := fun _ => ⟨rfl, rfl, rfl, rfl⟩
          cursors := fun h => absurd h (lt_irrefl _)
          live := by
            intro k hk0 hk1
            have : k = 0 := le_antisymm hk1 hk0
            subst this
            simpa using hall _ hwf.first
          first := hall _ hwf.first }
    · exact ⟨rfl, fun i hi => absurd hi (Nat.not_lt_zero _)⟩
    · intro hs
      exact ⟨le_refl _, by simpa using hwf.mapStart_lt⟩
  · rw [if_neg h1]
    by_cases h2 : d.tailOffset > 0
    · rw [if_pos h2]
      refine ⟨_, rfl, ?_, ?_, ?_⟩
      · exact
          { mapLen := by rw [hwf.mapLen]; exact hlen.symm
            mapStart_nonneg := hwf.mapStart_nonneg
            mapStart_lt := hwf.mapStart_lt
            mapEnd_le := hwf.mapEnd_le
            blocks := hblk
            headOffset_lo := ho0
            headOffset_hi := ho1
            tailOffset_lo := by simp only; omega
            tailOffset_hi := by simp only; omega
            size_nonneg := by simp only; omega
            empty_canon := by simp only; intro h; omega
            cursors := by
              simp only [headPos, tailPos] at hcur ⊢
              intro _; omega
            live := fun k hk0 hk1 => hall _ (hwf.live k hk0 hk1)
            first := hall _ hwf.first }
      · refine ⟨by simp only; omega, fun i hi => ?_⟩
        rw [At_eq_slotAt _ (i : Int) (by exact ho0) (by omega)]
        exact hkeep i hi
      · intro hs
        exact hs
    · rw [if_neg h2]
      refine ⟨_, rfl, ?_, ?_, ?_⟩
      · exact
          { mapLen := by rw [hwf.mapLen]; exact hlen.symm
            mapStart_nonneg := hwf.mapStart_nonneg
            mapStart_lt := hwf.mapStart_lt
            mapEnd_le := hwf.mapEnd_le
            blocks := hblk
            headOffset_lo := ho0
            headOffset_hi := ho1
            tailOffset_lo := by simp [blockSize]
            tailOffset_hi := by simp [blockSize]
            size_nonneg := by simp only; omega
            empty_canon := by simp only; intro h; omega
            cursors := by
              simp only [headPos, tailPos, blockSize] at hcur h2 ht0 ⊢
              intro _; omega
            live := fun k hk0 hk1 => hall _ (hwf.live k hk0 (by simp only at hk1; omega))
            first := hall _ hwf.first }
      · refine ⟨by simp only; omega, fun i hi => ?_⟩
        rw [At_eq_slotAt _ (i : Int) (by exact ho0) (by omega)]
        exact hkeep i hi
      · intro hs
        exact ⟨hs.1, by simp only; have := hs.2; omega⟩

/-! ## Growth seen from the cursors -/

theorem Regrown.refl {d : Deque α} (h : WF d) : Regrown d d :=
  { mapLen := h.mapLen
    mapStart_nonneg := h.mapStart_nonneg
    mapEnd_le := h.mapEnd_le
    span := rfl
    blocks := h.blocks
    headBlock := rfl
    headOffset := rfl
    tailBlock := rfl
    tailOffset := rfl
    size := rfl
    kept := fun _ _ _ => rfl }

theorem expandMap_regrown (d : Deque α) (h : WF d) :
    ∃ d1, expandMap d = some d1 ∧ Regrown d d1 ∧ d1.mapSize = 2 * d.mapSize ∧
      d1.mapStart = (2 * d.mapSize - (d.mapEnd - d.mapStart)) / 2 := by
  obtain ⟨d1, e, h1, h2, h3, h4, h5, h6, h7, h8, h9, hin, hout⟩ :=
    expandMap_spec d h.mapLen h.mapStart_nonneg (le_of_lt h.mapStart_lt) h.mapEnd_le
  have hs := h.mapStart_lt
  have he := h.mapEnd_le
  have h0 := h.mapStart_nonneg
  refine ⟨d1, e, ?_, h1, h3⟩
  exact
    { mapLen := by rw [h1, h2]
      mapStart_nonneg := by omega
      mapEnd_le := by omega
      span := by omega
      blocks := by
        intro i b hb
        obtain ⟨hi0, hi1⟩ := idx_bounds hb
        rw [h2] at hi1
        by_cases hi : i < d1.mapStart ∨ d1.mapEnd ≤ i
        · rw [hout i hi0 hi1 hi] at hb
          cases hb
        · have e2 : i = d1.mapStart + (i - d1.mapStart) := by omega
          rw [e2, hin (i - d1.mapStart) (by omega) (by omega)] at hb
          exact h.blocks _ b hb
      headBlock := h5
      headOffset := h6
      tailBlock := h7
      tailOffset := h8
      size := h9
      kept := hin }

theorem Regrown.alloc {d d1 : Deque α} (h : Regrown d d1) (k : Int) (h0 : 0 ≤ k)
    (h1 : k < d.mapEnd - d.mapStart) (ha : AllocAt d.mapData (d.mapStart + k)) :
    AllocAt d1.mapData (d1.mapStart + k) := by
  obtain ⟨b, hb, hl⟩ := ha
  exact ⟨b, by rw [h.kept k h0 h1]; exact hb, hl⟩

theorem Regrown.slot {d d1 : Deque α} (h : Regrown d d1) (p : Int) (h0 : 0 ≤ p)
    (h1 : p < (d.mapEnd - d.mapStart) * blockSize) :
    slotAt d1.mapData d1.mapStart p = slotAt d.mapData d.mapStart p := by
  unfold slotAt readSlot
  simp only [blockSize] at *
  rw [h.kept (p / 128) (by omega) (by omega)]

/-- The growth check of `PushBack` leaves room for the next tail block. -/
theorem growBack (d : Deque α) (h : WF d) :
    ∃ d1, (if d.mapStart + d.tailBlock + 1 ≥ len d.mapData then expandMap d else some d) =
        some d1 ∧ Regrown d d1 ∧ 0 ≤ d1.mapStart + (d1.tailBlock + 1) ∧
      d1.mapStart + (d1.tailBlock + 1) < len d1.mapData := by
  obtain ⟨b, hb, _⟩ := h.tail_alloc
  obtain ⟨ht0, ht1⟩ := idx_bounds hb
  have hs := h.mapStart_lt
  have he := h.mapEnd_le
  have h0 := h.mapStart_nonneg
  have hM := h.mapLen
  by_cases hg : d.mapStart + d.tailBlock + 1 ≥ len d.mapData
  · obtain ⟨d1, e, hr, hsz, hst⟩ := expandMap_regrown d h
    refine ⟨d1, by rw [if_pos hg]; exact e, hr, ?_, ?_⟩
    · rw [hr.tailBlock, hst]; omega
    · rw [← hr.mapLen, hsz, hr.tailBlock, hst]; omega
  · exact ⟨d, by rw [if_neg hg], Regrown.refl h, by omega, by omega⟩

/-- The growth check of `PushFront` leaves room for the previous head block,
provided the map has a slot after `mapStart` whenever it has to grow. -/
theorem growFront (d : Deque α) (h : WF d)
    (hroom : d.mapStart + d.headBlock - 1 < 0 → d.mapStart + 1 < d.mapSize) :
    ∃ d1, (if d.mapStart + d.headBlock - 1 < 0 then expandMap d else some d) = some d1 ∧
      Regrown d d1 ∧ 0 ≤ d1.mapStart + (d1.headBlock - 1) ∧
      d1.mapStart + (d1.headBlock - 1) < len d1.mapData := by
  obtain ⟨b, hb, _⟩ := h.head_alloc
  obtain ⟨ht0, ht1⟩ := idx_bounds hb
  have hs := h.mapStart_lt
  have he := h.mapEnd_le
  have h0 := h.mapStart_nonneg
  have hM := h.mapLen
  by_cases hg : d.mapStart + d.headBlock - 1 < 0
  · have hroom1 := hroom hg
    obtain ⟨d1, e, hr, hsz, hst⟩ := expandMap_regrown d h
    refine ⟨d1, by rw [if_pos hg]; exact e, hr, ?_, ?_⟩
    · rw [hr.headBlock, hst]; omega
    · rw [← hr.mapLen, hsz, hr.headBlock, hst]; omega
  · exact ⟨d, by rw [if_neg hg], Regrown.refl h, by omega, by omega⟩

/-! ## Pushes -/

theorem PushBack_char [Inhabited α] (d : Deque α) (x : α) (h : WF d) :
    ∃ d1, PushBack d x = some d1 ∧ BackPushed d x d1 := by
  have ho0 := h.headOffset_lo
  have ho1 := h.headOffset_hi
  have ht0 := h.tailOffset_lo
  have ht1 := h.tailOffset_hi
  have hs0 := h.size_nonneg
  unfold PushBack
  by_cases he : d.size = 0
  · -- empty deque: write at the tail cursor
    have hemp : d.IsEmpty = true := by simp [IsEmpty, he]
    obtain ⟨m, hm⟩ := writeSlot_isSome x h.tail_alloc ht0 ht1
    simp only [hemp, if_true, hm]
    refine ⟨_, rfl, ?_⟩
    exact
      { size := rfl
        headBlock := rfl
        headOffset := rfl
        tailOffset_lo := ht0
        tailOffset_hi := ht1
        tail_empty := fun _ => rfl
        tail_next := fun hne => absurd he hne
        mapLen := by rw [h.mapLen]; exact (len_writeSlot hm).symm
        mapStart_nonneg := h.mapStart_nonneg
        mapStart_lt := h.mapStart_lt
        mapEnd_le := h.mapEnd_le
        blocks := BlocksOK_writeSlot hm h.blocks
        inSpan := fun hi => hi
        tail_alloc := AllocAt_writeSlot hm h.tail_alloc
        tail_read := readSlot_writeSlot_same hm
        alloc_kept := fun k _ _ ha => AllocAt_writeSlot hm ha
        slot_kept := by
          intro p v _ _ hp hv
          rw [← hv]
          exact slotAt_writeSlot_other hm hp }
  · have hemp : d.IsEmpty = false := by simp [IsEmpty, he]
    simp only [hemp, Bool.false_eq_true, if_false]
    by_cases hto : d.tailOffset < blockSize - 1
    · -- room left in the tail block
      obtain ⟨m, hm⟩ := writeSlot_isSome x h.tail_alloc (by omega : 0 ≤ d.tailOffset + 1)
        (by omega : d.tailOffset + 1 < blockSize)
      simp only [hto, if_true, hm]
      refine ⟨_, rfl, ?_⟩
      exact
        { size := rfl
          headBlock := rfl
          headOffset := rfl
          tailOffset_lo := by simp only; omega
          tailOffset_hi := by simp only; omega
          tail_empty := fun h0 => absurd h0 he
          tail_next := fun _ => by simp only [tailPos]; ring
          mapLen := by rw [h.mapLen]; exact (len_writeSlot hm).symm
          mapStart_nonneg := h.mapStart_nonneg
          mapStart_lt := h.mapStart_lt
          mapEnd_le := h.mapEnd_le
          blocks := BlocksOK_writeSlot hm h.blocks
          inSpan := fun hi => hi
          tail_alloc := AllocAt_writeSlot hm h.tail_alloc
          tail_read := readSlot_writeSlot_same hm
          alloc_kept := fun k _ _ ha => AllocAt_writeSlot hm ha
          slot_kept := by
            intro p v _ _ hp hv
            rw [← hv]
            exact slotAt_writeSlot_other hm hp }
    · -- the tail moves to the next block, after growing the map if needed
      obtain ⟨d1, hg, hr, hb0, hb1⟩ := growBack d h
      obtain ⟨m2, hens, hlen2, hblk2, hal2, hall2, hrd2⟩ := ensureBlock_spec hb0 hb1 hr.blocks
      obtain ⟨m3, hm3⟩ := writeSlot_isSome x hal2 (le_refl 0) (by simp [blockSize] : (0 : Int) < blockSize)
      have hnb : ¬ (d1.mapStart + (d1.tailBlock + 1) ≥ len d1.mapData) := by omega
      simp only [hto, if_false, hg, hnb, hens, hm3]
      refine ⟨_, rfl, ?_⟩
      have hsp := hr.span
      have hme := hr.mapEnd_le
      have hml := hr.mapLen
      have hms := h.mapStart_lt
      exact
        { size := by simp only; rw [hr.size]
          headBlock := hr.headBlock
          headOffset := hr.headOffset
          tailOffset_lo := le_refl _
          tailOffset_hi := by simp [blockSize]
          tail_empty := fun h0 => absurd h0 he
          tail_next := fun _ => by
            simp only [tailPos, blockSize] at hto ht1 ⊢
            rw [hr.tailBlock]
            omega
          mapLen := by simp only; rw [hr.mapLen, len_writeSlot hm3, hlen2]
          mapStart_nonneg := hr.mapStart_nonneg
          mapStart_lt := by
            simp only
            split <;> omega
          mapEnd_le := by
            simp only
            split <;> omega
          blocks := BlocksOK_writeSlot hm3 hblk2
          inSpan := fun _ => by
            simp only
            split <;> omega
          tail_alloc := AllocAt_writeSlot hm3 hal2
          tail_read := readSlot_writeSlot_same hm3
          alloc_kept := fun k hk0 hk1 ha =>
            AllocAt_writeSlot hm3 (hall2 _ (hr.alloc k hk0 hk1 ha))
          slot_kept := by
            intro p v hp0 hp1 hp hv
            simp only [tailPos] at hp
            simp only
            rw [slotAt_writeSlot_other hm3 hp]
            rw [← hr.slot p hp0 hp1] at hv
            exact hrd2 _ _ _ hv }

/-- `PushBack` on a well-formed deque whose live blocks lie in the valid map
range appends the element and keeps both properties. -/
theorem PushBack_spec [Inhabited α] (d : Deque α) (x : α) (l : List α) (h : WF d)
    (hs : InSpan d) (hh : Holds d l) :
    ∃ d1, PushBack d x = some d1 ∧ WF d1 ∧ InSpan d1 ∧ Holds d1 (l ++ [x]) := by
  obtain ⟨d1, e, c⟩ := PushBack_char d x h
  have ho0 := h.headOffset_lo
  have ho1 := h.headOffset_hi
  have ht0 := h.tailOffset_lo
  have ht1 := h.tailOffset_hi
  have hs0 := h.size_nonneg
  have hsz := hh.1
  have c1 := c.tailOffset_lo
  have c2 := c.tailOffset_hi
  have c3 := c.size
  have c4 := c.headBlock
  have c5 := c.headOffset
  have hsp := hs.2
  have hhb := hs.1
  have hms := h.mapStart_lt
  -- tail position after the push, in terms of the old head position
  have htp : tailPos d1 = headPos d + (l.length : Int) := by
    by_cases he : d.size = 0
    · have := c.tail_empty he
      obtain ⟨a1, a2, a3, a4⟩ := h.empty_canon he
      simp only [tailPos, headPos] at this ⊢
      rw [this, a1, a2, a3, a4]
      omega
    · have := c.tail_next he
      have hc := h.cursors (by omega)
      omega
  have hhp : headPos d1 = headPos d := by simp only [headPos, c4, c5]
  have htb : d1.tailBlock ≤ d.tailBlock + 1 := by
    by_cases he : d.size = 0
    · have := c.tail_empty he
      simp only [tailPos, blockSize] at *
      omega
    · have := c.tail_next he
      simp only [tailPos, blockSize] at *
      omega
  refine ⟨d1, e, ?_, ⟨by omega, c.inSpan hsp⟩, ?_, ?_⟩
  · exact
      { mapLen := c.mapLen
        mapStart_nonneg := c.mapStart_nonneg
        mapStart_lt := c.mapStart_lt
        mapEnd_le := c.mapEnd_le
        blocks := c.blocks
        headOffset_lo := by omega
        headOffset_hi := by omega
        tailOffset_lo := c1
        tailOffset_hi := c2
        size_nonneg := by omega
        empty_canon := fun h0 => by omega
        cursors := fun _ => by omega
        live := by
          intro k hk0 hk1
          by_cases hk : k = d1.tailBlock
          · rw [hk]; exact c.tail_alloc
          · exact c.alloc_kept k (by omega) (by omega) (h.live k (by omega) (by omega))
        first := by
          have := c.alloc_kept 0 (le_refl _) (by omega) (by simpa using h.first)
          simpa using this }
  · rw [c3, hsz]; simp
  · intro i hi
    rw [At_eq_slotAt _ _ (by omega) (by omega), hhp]
    by_cases hil : i < l.length
    · rw [List.getElem?_append_left hil]
      have hv := Holds_slotAt ho0 hh i hil
      rw [List.getElem?_eq_getElem hil] at hv ⊢
      refine c.slot_kept _ _ ?_ ?_ ?_ hv
      · simp only [headPos, blockSize] at *; omega
      · have hc := h.cursors (by omega)
        simp only [headPos, tailPos, blockSize] at *
        omega
      · omega
    · have hie : i = l.length := by
        simp only [List.length_append, List.length_singleton] at hi
        omega
      subst hie
      rw [← htp]
      simp only [tailPos]
      rw [slotAt_pos _ _ _ _ c1 c2, c.tail_read]
      simp

theorem Holds_NewDeque [Inhabited α] : Holds (NewDeque : Deque α) [] :=
  ⟨rfl, fun _ hi => absurd hi (Nat.not_lt_zero _)⟩

theorem InSpan_NewDeque [Inhabited α] : InSpan (NewDeque : Deque α) :=
  ⟨le_refl _, by simp only [NewDeque, initialMapSize, blockSize]; omega⟩

theorem WF_NewDeque [Inhabited α] : WF (NewDeque : Deque α) := by
  have hfirst : AllocAt (NewDeque : Deque α).mapData 4 :=
    ⟨List.replicate blockSize.toNat default, rfl, len_replicate_blockSize _⟩
  exact
    { mapLen := rfl
      mapStart_nonneg := by simp only [NewDeque, initialMapSize, blockSize]; omega
      mapStart_lt := by simp only [NewDeque, initialMapSize, blockSize]; omega
      mapEnd_le := by simp only [NewDeque, initialMapSize, blockSize]; omega
      blocks := by
        intro i b hb
        obtain ⟨h0, h1⟩ := idx_bounds hb
        have h2 : len (NewDeque : Deque α).mapData = 8 := rfl
        rw [h2] at h1
        have : i = 0 ∨ i = 1 ∨ i = 2 ∨ i = 3 ∨ i = 4 ∨ i = 5 ∨ i = 6 ∨ i = 7 := by omega
        rcases this with h | h | h | h | h | h | h | h <;> subst h <;>
          first
          | (exfalso; revert hb; exact fun hb => Option.noConfusion (Option.some.inj hb))
          | (cases hb; exact len_replicate_blockSize _)
      headOffset_lo := by simp only [NewDeque, initialMapSize, blockSize]; omega
      headOffset_hi := by simp only [NewDeque, initialMapSize, blockSize]; omega
      tailOffset_lo := by simp only [NewDeque, initialMapSize, blockSize]; omega
      tailOffset_hi := by simp only [NewDeque, initialMapSize, blockSize]; omega
      size_nonneg := le_refl _
      empty_canon := fun _ => ⟨rfl, rfl, rfl, rfl⟩
      cursors := fun h => absurd h (lt_irrefl _)
      live := by
        intro k hk0 hk1
        have : k = 0 := le_antisymm hk1 hk0
        subst this
        exact hfirst
      first := hfirst }

/-! ## Runs without `PushFront` -/

theorem toSliceLoop_eq (d : Deque α) (l : List α) :
    ∀ i : Nat, (∀ j : Nat, j < l.length → At d ((i + j : Nat) : Int) = l[j]?) →
      toSliceLoop d i l.length = some l := by
  induction l with
  | nil => intro i _; rfl
  | cons a t ih =>
    intro i h
    have h0 := h 0 (by simp)
    simp only [Nat.add_zero, List.getElem?_cons_zero] at h0
    have ht := ih (i + 1) (fun j hj => by
      have := h (j + 1) (by simpa using hj)
      simp only [List.getElem?_cons_succ] at this
      rw [← this]
      congr 2
      omega)
    simp only [List.length_cons, toSliceLoop, h0, ht]

theorem ToSlice_of_Holds [Inhabited α] {d : Deque α} {l : List α} (h : Holds d l) :
    ToSlice d = some l := by
  unfold ToSlice IsEmpty makeSlice
  by_cases he : d.size = 0
  · have : l = [] := by
      apply List.eq_nil_of_length_eq_zero
      have := h.1
      omega
    simp [he, this]
  · have e : d.size.toNat = l.length := by
      have := h.1
      omega
    have hn : ¬ d.size < 0 := by
      have := h.1
      omega
    simp only [beq_iff_eq, he, if_false, hn, e]
    exact toSliceLoop_eq d l 0 (fun j hj => by simpa using h.2 j hj)

theorem PopFront_empty [Inhabited α] (d : Deque α) (h : d.size = 0) :
    PopFront d = some (d, default, false) := by
  simp [PopFront, IsEmpty, h]

theorem PopBack_empty [Inhabited α] (d : Deque α) (h : d.size = 0) :
    PopBack d = some (d, default, false) := by
  simp [PopBack, IsEmpty, h]

/-- A run without `PushFront`, started in a well-formed state whose live blocks
lie in the valid map range, never panics and follows the list model. -/
theorem run_refines [Inhabited α] (ops : List (Op α)) :
    ∀ (d : Deque α) (l : List α), WF d → InSpan d → Holds d l →
      (∀ op ∈ ops, Op.isPushFront op = false) →
      ∃ d1, run d ops = some (d1, (modelRun l ops).2) ∧ WF d1 ∧ InSpan d1 ∧
        Holds d1 (modelRun l ops).1 := by
  induction ops with
  | nil => intro d l hwf hs hh _; exact ⟨d, rfl, hwf, hs, hh⟩
  | cons op ops ih =>
    intro d l hwf hs hh hops
    have hrest : ∀ o ∈ ops, Op.isPushFront o = false :=
      fun o ho => hops o (List.mem_cons_of_mem _ ho)
    have hop := hops op (List.mem_cons_self _ _)
    cases op with
    | pushFront x => simp [Op.isPushFront] at hop
    | pushBack x =>
      obtain ⟨d1, e1, w1, s1, h1⟩ := PushBack_spec d x l hwf hs hh
      obtain ⟨d2, e2, w2, s2, h2⟩ := ih d1 (l ++ [x]) w1 s1 h1 hrest
      exact ⟨d2, by simp [run, step, e1, e2, modelRun, modelStep], w2, s2, h2⟩
    | popFront =>
      cases l with
      | nil =>
        have e1 := PopFront_empty d (by simpa using hh.1)
        obtain ⟨d2, e2, w2, s2, h2⟩ := ih d [] hwf hs hh hrest
        exact ⟨d2, by simp [run, step, e1, e2, modelRun, modelStep], w2, s2, h2⟩
      | cons a t =>
        obtain ⟨d1, e1, w1, h1, s1⟩ := PopFront_spec d a t hwf hh
        obtain ⟨d2, e2, w2, s2, h2⟩ := ih d1 t w1 (s1 hs) h1 hrest
        exact ⟨d2, by simp [run, step, e1, e2, modelRun, modelStep], w2, s2, h2⟩
    | popBack =>
      rcases List.eq_nil_or_concat l with hl | ⟨t, a, hl⟩
      · subst hl
        have e1 := PopBack_empty d (by simpa using hh.1)
        obtain ⟨d2, e2, w2, s2, h2⟩ := ih d [] hwf hs hh hrest
        exact ⟨d2, by simp [run, step, e1, e2, modelRun, modelStep], w2, s2, h2⟩
      · rw [List.concat_eq_append] at hl
        subst hl
        obtain ⟨d1, e1, w1, h1, s1⟩ := PopBack_spec d a t hwf hh
        obtain ⟨d2, e2, w2, s2, h2⟩ := ih d1 t w1 (s1 hs) h1 hrest
        have em : modelStep (t ++ [a]) (Op.popBack : Op α) = (t, some (a, true)) := by
          simp [modelStep]
        refine ⟨d2, ?_, w2, s2, ?_⟩
        · simp only [run, step, e1, e2, modelRun, em]
        · simp only [modelRun, em]
          exact h2

theorem pushBackAll_spec [Inhabited α] (vs : List α) :
    ∀ (d : Deque α) (l : List α), WF d → InSpan d → Holds d l →
      ∃ d1, pushBackAll d vs = some d1 ∧ WF d1 ∧ InSpan d1 ∧ Holds d1 (l ++ vs) := by
  induction vs with
  | nil => intro d l hwf hs hh; exact ⟨d, rfl, hwf, hs, by simpa using hh⟩
  | cons x xs ih =>
    intro d l hwf hs hh
    obtain ⟨d1, e1, w1, s1, h1⟩ := PushBack_spec d x l hwf hs hh
    obtain ⟨d2, e2, w2, s2, h2⟩ := ih d1 (l ++ [x]) w1 s1 h1
    exact ⟨d2, by simp [pushBackAll, e1, e2], w2, s2, by simpa using h2⟩

theorem modelRun_append [Inhabited α] (a b : List (Op α)) :
    ∀ l : List α, modelRun l (a ++ b) =
      ((modelRun (modelRun l a).1 b).1, (modelRun l a).2 ++ (modelRun (modelRun l a).1 b).2) := by
  induction a with
  | nil => intro l; simp [modelRun]
  | cons op ops ih => intro l; simp [modelRun, ih]

theorem modelRun_pushBacks [Inhabited α] (vs : List α) :
    ∀ l : List α, modelRun l (vs.map Op.pushBack) = (l ++ vs, []) := by
  induction vs with
  | nil => intro l; simp [modelRun]
  | cons x xs ih => intro l; simp [modelRun, modelStep, ih]

theorem modelRun_popFronts [Inhabited α] (l : List α) :
    modelRun l (List.replicate l.length (Op.popFront : Op α)) =
      ([], l.map fun v => (v, true)) := by
  induction l with
  | nil => simp [modelRun]
  | cons a t ih => simp [modelRun, modelStep, List.replicate_succ, ih]

theorem modelRun_popBacks [Inhabited α] (l : List α) :
    ∀ n, n = l.length → modelRun l (List.replicate n (Op.popBack : Op α)) =
      ([], l.reverse.map fun v => (v, true)) := by
  induction l using List.reverseRecOn with
  | nil => intro n hn; subst hn; simp [modelRun]
  | append_singleton t a ih =>
    intro n hn
    subst hn
    have em : modelStep (t ++ [a]) (Op.popBack : Op α) = (t, some (a, true)) := by
      simp [modelStep]
    simp only [List.length_append, List.length_singleton, List.replicate_succ, modelRun, em,
      ih t.length rfl]
    simp

/-! ## Pushes at the back, queue and stack runs -/

/-- C1: after `NewDeque` and `PushBack(v0) ... PushBack(v(n-1))`, for any list
of values (of any length, so across any number of map growths), nothing has
panicked, `Len() = n`, `At(i) = vi` for every `i < n`, and `ToSlice()` is the
list of values in insertion order. -/
theorem pushBack_reproduces_insertion_order [Inhabited α] (vs : List α) :
    ∃ d : Deque α, pushBackAll NewDeque vs = some d ∧ Len d = (vs.length : Int) ∧
      (∀ i : Nat, i < vs.length → At d (i : Int) = vs[i]?) ∧ ToSlice d = some vs := by
  obtain ⟨d, e, _, _, hh⟩ := pushBackAll_spec vs NewDeque [] WF_NewDeque InSpan_NewDeque
    Holds_NewDeque
  rw [List.nil_append] at hh
  exact ⟨d, e, hh.1, hh.2, ToSlice_of_Holds hh⟩

/-- C4: every interleaving of `PushBack` and `PopFront` on a new deque runs
without panic and agrees with the FIFO list model: the pops return what the
model returns (oldest element and true, or the zero value and false on empty),
`Len()` is the model's length and `At(i)` its `i`-th element (a prefix of such
a run is such a run, so this holds after every step); in particular `n` pushes
followed by `n` `PopFront` return the values in insertion order and leave the
deque empty. -/
theorem queue_ops_follow_fifo_model [Inhabited α] :
    (∀ ops : List (Op α), (∀ op ∈ ops, Op.isQueueOp op = true) →
      ∃ d : Deque α, run NewDeque ops = some (d, (modelRun [] ops).2) ∧
        Len d = ((modelRun [] ops).1.length : Int) ∧
        ∀ i : Nat, i < (modelRun [] ops).1.length →
          At d (i : Int) = (modelRun [] ops).1[i]?) ∧
    (∀ vs : List α, ∃ d : Deque α,
      run NewDeque (vs.map Op.pushBack ++ List.replicate vs.length Op.popFront) =
        some (d, vs.map fun v => (v, true)) ∧ Len d = 0) := by
  constructor
  · intro ops hq
    obtain ⟨d, e, _, _, hh⟩ := run_refines ops NewDeque [] WF_NewDeque InSpan_NewDeque
      Holds_NewDeque (fun op ho => by
        have := hq op ho
        cases op <;> simp_all [Op.isQueueOp, Op.isPushFront])
    exact ⟨d, e, hh.1, hh.2⟩
  · intro vs
    obtain ⟨d, e, _, _, hh⟩ := run_refines
      (vs.map Op.pushBack ++ List.replicate vs.length Op.popFront) NewDeque []
      WF_NewDeque InSpan_NewDeque Holds_NewDeque (fun op ho => by
        rcases List.mem_append.mp ho with h | h
        · obtain ⟨v, _, rfl⟩ := List.mem_map.mp h
          rfl
        · rw [List.eq_of_mem_replicate h]
          rfl)
    have em : modelRun ([] : List α)
        (vs.map Op.pushBack ++ List.replicate vs.length Op.popFront) =
        ([], vs.map fun v => (v, true)) := by
      rw [modelRun_append, modelRun_pushBacks]
      simp only [List.nil_append, modelRun_popFronts]
    rw [em] at e hh
    exact ⟨d, e, by simpa [Len] using hh.1⟩

/-- C4 witness: a concrete queue run `Push 1, Push 2, Pop, Pop, Pop`. -/
theorem queue_ops_follow_fifo_model_witness :
    ∃ d : Deque Nat,
      run NewDeque [Op.pushBack 1, Op.pushBack 2, Op.popFront, Op.popFront, Op.popFront] =
        some (d, [(1, true), (2, true), (0, false)]) ∧ Len d = 0 := by
  obtain ⟨d, e, hl, _⟩ := (@queue_ops_follow_fifo_model Nat inferInstance).1
    [Op.pushBack 1, Op.pushBack 2, Op.popFront, Op.popFront, Op.popFront] (by decide)
  exact ⟨d, e, hl⟩

/-- C5: every interleaving of `PushBack` and `PopBack` on a new deque runs
without panic and agrees with the LIFO list model: the pops return what the
model returns (most recently pushed element still present and true, or the zero
value and false on empty), `Len()` is the model's length and `At(i)` its `i`-th
element (a prefix of such a run is such a run, so this holds after every step);
in particular `n` pushes followed by `n` `PopBack` return the values in reverse
insertion order and leave the deque empty. -/
theorem stack_ops_follow_lifo_model [Inhabited α] :
    (∀ ops : List (Op α), (∀ op ∈ ops, Op.isStackOp op = true) →
      ∃ d : Deque α, run NewDeque ops = some (d, (modelRun [] ops).2) ∧
        Len d = ((modelRun [] ops).1.length : Int) ∧
        ∀ i : Nat, i < (modelRun [] ops).1.length →
          At d (i : Int) = (modelRun [] ops).1[i]?) ∧
    (∀ vs : List α, ∃ d : Deque α,
      run NewDeque (vs.map Op.pushBack ++ List.replicate vs.length Op.popBack) =
        some (d, vs.reverse.map fun v => (v, true)) ∧ Len d = 0) := by
  constructor
  · intro ops hq
    obtain ⟨d, e, _, _, hh⟩ := run_refines ops NewDeque [] WF_NewDeque InSpan_NewDeque
      Holds_NewDeque (fun op ho => by
        have := hq op ho
        cases op <;> simp_all [Op.isStackOp, Op.isPushFront])
    exact ⟨d, e, hh.1, hh.2⟩
  · intro vs
    obtain ⟨d, e, _, _, hh⟩ := run_refines
      (vs.map Op.pushBack ++ List.replicate vs.length Op.popBack) NewDeque []
      WF_NewDeque InSpan_NewDeque Holds_NewDeque (fun op ho => by
        rcases List.mem_append.mp ho with h | h
        · obtain ⟨v, _, rfl⟩ := List.mem_map.mp h
          rfl
        · rw [List.eq_of_mem_replicate h]
          rfl)
    have em : modelRun ([] : List α)
        (vs.map Op.pushBack ++ List.replicate vs.length Op.popBack) =
        ([], vs.reverse.map fun v => (v, true)) := by
      rw [modelRun_append, modelRun_pushBacks]
      simp only [List.nil_append, modelRun_popBacks vs vs.length rfl]
    rw [em] at e hh
    exact ⟨d, e, by simpa [Len] using hh.1⟩

/-- C5 witness: a concrete stack run `Push 1, Push 2, Pop, Pop, Pop`. -/
theorem stack_ops_follow_lifo_model_witness :
    ∃ d : Deque Nat,
      run NewDeque [Op.pushBack 1, Op.pushBack 2, Op.popBack, Op.popBack, Op.popBack] =
        some (d, [(2, true), (1, true), (0, false)]) ∧ Len d = 0 := by
  obtain ⟨d, e, hl, _⟩ := (@stack_ops_follow_lifo_model Nat inferInstance).1
    [Op.pushBack 1, Op.pushBack 2, Op.popBack, Op.popBack, Op.popBack] (by decide)
  exact ⟨d, e, hl⟩

/-! ## Pops and push-pop pairs on well-formed states -/

/-- `PushFront` on a well-formed deque succeeds, adds one to the size and leaves
the element in the head slot, unless it has to grow the map while `mapStart` is
the last map slot. -/
theorem PushFront_head [Inhabited α] (d : Deque α) (x : α) (h : WF d)
    (hroom : ¬ FrontStuck d) :
    ∃ d1, PushFront d x = some d1 ∧ d1.size = d.size + 1 ∧
      readSlot d1.mapData (d1.mapStart + d1.headBlock) d1.headOffset = some x := by
  have ho0 := h.headOffset_lo
  have ho1 := h.headOffset_hi
  unfold PushFront
  by_cases he : d.size = 0
  · have hemp : d.IsEmpty = true := by simp [IsEmpty, he]
    obtain ⟨m, hm⟩ := writeSlot_isSome x h.head_alloc ho0 ho1
    simp only [hemp, if_true, hm]
    exact ⟨_, rfl, rfl, readSlot_writeSlot_same hm⟩
  · have hemp : d.IsEmpty = false := by simp [IsEmpty, he]
    simp only [hemp, Bool.false_eq_true, if_false]
    by_cases hto : d.headOffset > 0
    · obtain ⟨m, hm⟩ := writeSlot_isSome x h.head_alloc (by omega : 0 ≤ d.headOffset - 1)
        (by omega : d.headOffset - 1 < blockSize)
      simp only [hto, if_true, hm]
      exact ⟨_, rfl, rfl, readSlot_writeSlot_same hm⟩
    · have hs := h.mapStart_lt
      have hme := h.mapEnd_le
      obtain ⟨d1, hg, hr, hb0, hb1⟩ := growFront d h (fun hlt => by
        by_contra hc
        exact hroom ⟨he, by omega, hlt, by omega⟩)
      obtain ⟨m2, hens, _, _, hal2, _, _⟩ := ensureBlock_spec hb0 hb1 hr.blocks
      obtain ⟨m3, hm3⟩ := writeSlot_isSome x hal2
        (by simp [blockSize] : (0 : Int) ≤ blockSize - 1) (by omega : blockSize - 1 < blockSize)
      have hnb : ¬ (d1.mapStart + (d1.headBlock - 1) < 0 ∨
          d1.mapStart + (d1.headBlock - 1) ≥ len d1.mapData) := by omega
      simp only [hto, if_false, hg, hnb, hens, hm3]
      exact ⟨_, rfl, by simp only; rw [hr.size], readSlot_writeSlot_same hm3⟩

/-- C8: on a well-formed non-empty deque with contents `a0 :: rest`, `PopFront`
returns `(a0, true)` and leaves a well-formed deque with contents `rest`; with
contents `init ++ [a]`, `PopBack` returns `(a, true)` and leaves a well-formed
deque with contents `init`. -/
theorem pops_on_wellformed [Inhabited α] (d : Deque α) (hwf : WF d) :
    (∀ (a : α) (l : List α), Holds d (a :: l) →
      ∃ d1, PopFront d = some (d1, a, true) ∧ WF d1 ∧ Holds d1 l) ∧
    (∀ (a : α) (l : List α), Holds d (l ++ [a]) →
      ∃ d1, PopBack d = some (d1, a, true) ∧ WF d1 ∧ Holds d1 l) := by
  constructor
  · intro a l hh
    obtain ⟨d1, e, w, h1, _⟩ := PopFront_spec d a l hwf hh
    exact ⟨d1, e, w, h1⟩
  · intro a l hh
    obtain ⟨d1, e, w, h1, _⟩ := PopBack_spec d a l hwf hh
    exact ⟨d1, e, w, h1⟩

/-- C8 witness: the deque holding `[7, 8, 9]`, built by three `PushBack`. -/
theorem pops_on_wellformed_witness :
    ∃ d : Deque Nat, pushBackAll NewDeque [7, 8, 9] = some d ∧ WF d ∧
      (∃ d1, PopFront d = some (d1, 7, true) ∧ WF d1 ∧ Holds d1 [8, 9]) ∧
      (∃ d1, PopBack d = some (d1, 9, true) ∧ WF d1 ∧ Holds d1 [7, 8]) := by
  obtain ⟨d, e, w, _, hh⟩ := pushBackAll_spec [7, 8, 9] (NewDeque : Deque Nat) []
    WF_NewDeque InSpan_NewDeque Holds_NewDeque
  exact ⟨d, e, w, (pops_on_wellformed d w).1 7 [8, 9] hh, (pops_on_wellformed d w).2 9 [7, 8] hh⟩

/-- C9: in every state with `size = 0`, `PopFront` and `PopBack` return the
zero value and false and hand back the state unchanged, and `Front` and `Back`
(which assign nothing) return the zero value and false; none of them panics. -/
theorem empty_pops_and_peeks [Inhabited α] (d : Deque α) (h : d.size = 0) :
    PopFront d = some (d, default, false) ∧ PopBack d = some (d, default, false) ∧
      Front d = some (default, false) ∧ Back d = some (default, false) :=
  ⟨PopFront_empty d h, PopBack_empty d h, by simp [Front, IsEmpty, h],
    by simp [Back, IsEmpty, h]⟩

/-- C9 witness: the new deque. -/
theorem empty_pops_and_peeks_witness :
    PopFront (NewDeque : Deque Nat) = some (NewDeque, 0, false) ∧
      PopBack (NewDeque : Deque Nat) = some (NewDeque, 0, false) ∧
      Front (NewDeque : Deque Nat) = some (0, false) ∧
      Back (NewDeque : Deque Nat) = some (0, false) :=
  empty_pops_and_peeks (NewDeque : Deque Nat) rfl

/-- In the state `FrontStuck` describes, `PushFront` panics: the re-centred
`mapStart` is the old one, so the block before the head would be at slot -1. -/
theorem PushFront_stuck [Inhabited α] (d : Deque α) (x : α) (h : WF d) (hst : FrontStuck d) :
    PushFront d x = none := by
  obtain ⟨hne, hho, hlt, hlast⟩ := hst
  obtain ⟨b, hb, _⟩ := h.head_alloc
  obtain ⟨ht0, _⟩ := idx_bounds hb
  have hs := h.mapStart_lt
  have hme := h.mapEnd_le
  obtain ⟨d1, e, hr, _, hms⟩ := expandMap_regrown d h
  have hemp : d.IsEmpty = false := by simp [IsEmpty, hne]
  have hto : ¬ d.headOffset > 0 := by omega
  have hbi : d1.mapStart + (d1.headBlock - 1) < 0 ∨
      d1.mapStart + (d1.headBlock - 1) ≥ len d1.mapData := by
    left
    rw [hr.headBlock, hms]
    omega
  unfold PushFront
  simp only [hemp, Bool.false_eq_true, if_false, hto, hlt, if_true, e, hbi]

/-- On every well-formed state, reachable or not, `PushBack(x)` followed by
`PopBack()` returns `(x, true)` and restores `Len()`; so does `PushFront(x)`
followed by `PopFront()`, except in the states where the push has to grow the
map while `mapStart` is the last map slot, where `PushFront` panics. -/
theorem push_then_pop_restores [Inhabited α] (d : Deque α) (x : α) (hwf : WF d) :
    (¬ FrontStuck d →
      ∃ d1 d2, PushFront d x = some d1 ∧ PopFront d1 = some (d2, x, true) ∧ Len d2 = Len d) ∧
    (FrontStuck d → PushFront d x = none) ∧
    (∃ d1 d2, PushBack d x = some d1 ∧ PopBack d1 = some (d2, x, true) ∧ Len d2 = Len d) := by
  have hs0 := hwf.size_nonneg
  refine ⟨?_, PushFront_stuck d x hwf, ?_⟩
  · intro hroom
    obtain ⟨d1, e1, hsz, hr⟩ := PushFront_head d x hwf hroom
    obtain ⟨d2, e2, hsz2⟩ := PopFront_of_read d1 x (by omega) hr
    exact ⟨d1, d2, e1, e2, by simp only [Len]; omega⟩
  · obtain ⟨d1, e1, c⟩ := PushBack_char d x hwf
    obtain ⟨d2, e2, hsz2⟩ := PopBack_of_read d1 x (by have := c.size; omega) c.tail_read
    exact ⟨d1, d2, e1, e2, by simp only [Len]; have := c.size; omega⟩

/-- The push-pop pairs on the new deque, which is empty, so that `PushFront`
does not have to grow the map. -/
theorem push_then_pop_restores_witness :
    (∃ d1 d2 : Deque Nat, PushFront NewDeque 5 = some d1 ∧ PopFront d1 = some (d2, 5, true) ∧
      Len d2 = 0) ∧
    (∃ d1 d2 : Deque Nat, PushBack NewDeque 5 = some d1 ∧ PopBack d1 = some (d2, 5, true) ∧
      Len d2 = 0) :=
  ⟨(push_then_pop_restores (NewDeque : Deque Nat) 5 WF_NewDeque).1 (fun h => h.1 rfl),
    (push_then_pop_restores (NewDeque : Deque Nat) 5 WF_NewDeque).2.2⟩

/-! ## Indexed access -/

theorem At_of_Holds {d : Deque α} {l : List α} (h : Holds d l) (i : Nat) (hi : i < l.length) :
    At d (i : Int) = some (l.get ⟨i, hi⟩) := by
  rw [h.2 i hi]
  exact List.getElem?_eq_getElem hi

theorem WF.slot_alloc {d : Deque α} (h : WF d) (i : Int) (h0 : 0 ≤ i) (h1 : i < d.size) :
    AllocAt d.mapData (d.mapStart + (d.headBlock + (d.headOffset + i) / blockSize)) := by
  have ho0 := h.headOffset_lo
  have ho1 := h.headOffset_hi
  have ht0 := h.tailOffset_lo
  have ht1 := h.tailOffset_hi
  have hc := h.cursors (by omega)
  apply h.live
  · simp only [blockSize] at *; omega
  · simp only [blockSize, headPos, tailPos] at *; omega

theorem WF.At_isSome {d : Deque α} (h : WF d) (i : Int) (h0 : 0 ≤ i) (h1 : i < d.size) :
    ∃ v, At d i = some v := by
  have ho0 := h.headOffset_lo
  have ha := h.slot_alloc i h0 h1
  unfold At
  simp only []
  rw [Int.tdiv_eq_ediv (by omega) (by simp [blockSize]),
    Int.tmod_eq_emod (by omega) (by simp [blockSize])]
  apply readSlot_isSome ha
  · simp only [blockSize]; omega
  · simp only [blockSize]; omega

theorem exists_list_of_isSome (f : Nat → Option α) :
    ∀ n : Nat, (∀ i, i < n → ∃ v, f i = some v) →
      ∃ l : List α, l.length = n ∧ ∀ i, i < n → f i = l[i]? := by
  intro n
  induction n with
  | zero => intro _; exact ⟨[], rfl, fun i hi => absurd hi (Nat.not_lt_zero _)⟩
  | succ n ih =>
    intro h
    obtain ⟨l, hl, hf⟩ := ih (fun i hi => h i (by omega))
    obtain ⟨v, hv⟩ := h n (by omega)
    refine ⟨l ++ [v], by simp [hl], fun i hi => ?_⟩
    by_cases hin : i < n
    · rw [List.getElem?_append_left (by omega)]
      exact hf i hin
    · have : i = n := by omega
      subst this
      rw [List.getElem?_append_right (by omega)]
      simp [hl, hv]

theorem WF.exists_Holds {d : Deque α} (h : WF d) : ∃ l, Holds d l := by
  have hs := h.size_nonneg
  obtain ⟨l, hl, hf⟩ := exists_list_of_isSome (fun i => At d (i : Int)) d.size.toNat
    (fun i hi => h.At_isSome (i : Int) (by omega) (by omega))
  exact ⟨l, by omega, fun i hi => hf i (by omega)⟩

/-- `Set` inside the bounds writes the slot that `At` reads for the same index
and changes nothing but the map. -/
theorem Set_spec (d : Deque α) (l : List α) (hwf : WF d) (hh : Holds d l) (i : Nat)
    (hi : i < l.length) (v : α) :
    ∃ d1, Set d (i : Int) v = some (d1, true) ∧ WF d1 ∧ Holds d1 (l.set i v) ∧
      (InSpan d → InSpan d1) ∧ d1 = { d with mapData := d1.mapData } := by
  have ho0 := hwf.headOffset_lo
  have ho1 := hwf.headOffset_hi
  have hsz := hh.1
  have ha := hwf.slot_alloc (i : Int) (by omega) (by omega)
  have hin : ¬ ((i : Int) < 0 ∨ (i : Int) ≥ d.size) := by omega
  have e1 : Int.tdiv (d.headOffset + (i : Int)) blockSize = (d.headOffset + (i : Int)) / blockSize :=
    Int.tdiv_eq_ediv (by omega) (by simp [blockSize])
  have e2 : Int.tmod (d.headOffset + (i : Int)) blockSize = (d.headOffset + (i : Int)) % blockSize :=
    Int.tmod_eq_emod (by omega) (by simp [blockSize])
  have hm0 : 0 ≤ (d.headOffset + (i : Int)) % blockSize := by simp only [blockSize]; omega
  have hm1 : (d.headOffset + (i : Int)) % blockSize < blockSize := by simp only [blockSize]; omega
  obtain ⟨m, hm⟩ := writeSlot_isSome v ha hm0 hm1
  have hpos : (d.headBlock + (d.headOffset + (i : Int)) / blockSize) * blockSize +
      (d.headOffset + (i : Int)) % blockSize = headPos d + (i : Int) := by
    simp only [blockSize, headPos]; omega
  have hsame := slotAt_writeSlot_same hm hm0 hm1
  rw [hpos] at hsame
  have hother : ∀ p, p ≠ headPos d + (i : Int) →
      slotAt m d.mapStart p = slotAt d.mapData d.mapStart p := by
    intro p hp
    exact slotAt_writeSlot_other hm (by rw [hpos]; exact hp)
  refine ⟨{ d with mapData := m }, ?_, ?_, ?_, fun hs => hs, rfl⟩
  · unfold Set
    simp only [hin, if_false, e1, e2, hm]
  · exact
      { mapLen := by rw [hwf.mapLen]; exact (len_writeSlot hm).symm
        mapStart_nonneg := hwf.mapStart_nonneg
        mapStart_lt := hwf.mapStart_lt
        mapEnd_le := hwf.mapEnd_le
        blocks := BlocksOK_writeSlot hm hwf.blocks
        headOffset_lo := ho0
        headOffset_hi := ho1
        tailOffset_lo := hwf.tailOffset_lo
        tailOffset_hi := hwf.tailOffset_hi
        size_nonneg := hwf.size_nonneg
        empty_canon := hwf.empty_canon
        cursors := hwf.cursors
        live := fun k hk0 hk1 => AllocAt_writeSlot hm (hwf.live k hk0 hk1)
        first := AllocAt_writeSlot hm hwf.first }
  · refine ⟨by simpa using hsz, fun j hj => ?_⟩
    rw [List.length_set] at hj
    rw [At_eq_slotAt _ (j : Int) (by exact ho0) (by omega)]
    show slotAt m d.mapStart (headPos d + (j : Int)) = (l.set i v)[j]?
    by_cases hji : j = i
    · subst hji
      rw [hsame]
      simp [hj]
    · rw [hother _ (by omega), Holds_slotAt ho0 hh j hj, List.getElem?_set_ne (Ne.symm hji)]

theorem Get_inside [Inhabited α] {d : Deque α} {l : List α} (hh : Holds d l) (i : Nat)
    (hi : i < l.length) : Get d (i : Int) = some (l.get ⟨i, hi⟩, true) := by
  have hsz := hh.1
  have hin : ¬ ((i : Int) < 0 ∨ (i : Int) ≥ d.size) := by omega
  unfold Get
  simp only [hin, if_false, At_of_Holds hh i hi]

theorem Get_outside [Inhabited α] (d : Deque α) (i : Int) (h : i < 0 ∨ d.size ≤ i) :
    Get d i = some (default, false) := by
  have hin : i < 0 ∨ i ≥ d.size := h
  unfold Get
  simp only [hin, if_true]

/-- C12: on a well-formed deque holding `l`, `Get(index)` returns `(l[index],
true)` for `0 ≤ index < len l` and the zero value with false for every other
integer; it returns in both cases (no panic) and, assigning nothing, has no
state to change. -/
theorem get_checks_bounds [Inhabited α] (d : Deque α) (l : List α) (hr : Rep d l)
    (index : Int) :
    (0 ≤ index → index < (l.length : Int) →
      ∃ a, l[index.toNat]? = some a ∧ Get d index = some (a, true)) ∧
    (index < 0 ∨ (l.length : Int) ≤ index → Get d index = some (default, false)) := by
  constructor
  · intro h0 h1
    have hi : index.toNat < l.length := by omega
    refine ⟨l.get ⟨index.toNat, hi⟩, List.getElem?_eq_getElem hi, ?_⟩
    have := Get_inside hr.2 index.toNat hi
    rwa [Int.toNat_of_nonneg h0] at this
  · intro h
    exact Get_outside d index (by rw [hr.2.1]; exact h)

/-- C12 witness: the deque holding `[7, 8, 9]`, read at 1, at -1 and at 3. -/
theorem get_checks_bounds_witness :
    ∃ d : Deque Nat, pushBackAll NewDeque [7, 8, 9] = some d ∧ Get d 1 = some (8, true) ∧
      Get d (-1) = some (0, false) ∧ Get d 3 = some (0, false) := by
  obtain ⟨d, e, w, _, hh⟩ := pushBackAll_spec [7, 8, 9] (NewDeque : Deque Nat) []
    WF_NewDeque InSpan_NewDeque Holds_NewDeque
  obtain ⟨a, ha, hg⟩ := (get_checks_bounds d [7, 8, 9] ⟨w, hh⟩ 1).1 (by decide) (by decide)
  have ha1 : a = 8 := by
    have : ([7, 8, 9] : List Nat)[(1 : Int).toNat]? = some 8 := by decide
    rw [this] at ha
    exact (Option.some.inj ha).symm
  subst ha1
  exact ⟨d, e, hg, (get_checks_bounds d [7, 8, 9] ⟨w, hh⟩ (-1)).2 (by decide),
    (get_checks_bounds d [7, 8, 9] ⟨w, hh⟩ 3).2 (by decide)⟩

/-- C13: on a well-formed deque of size `n`, `Set(i, v)` with `0 ≤ i < n`
returns true and leaves a well-formed deque in which `Get(i) = (v, true)` and
`Get(j)` is what it was for every other `j` in `[0, n)`. -/
theorem set_writes_the_slot_at_reads [Inhabited α] (d : Deque α) (i : Int) (v : α)
    (hwf : WF d) (h0 : 0 ≤ i) (h1 : i < d.size) :
    ∃ d1, Set d i v = some (d1, true) ∧ WF d1 ∧ Get d1 i = some (v, true) ∧
      ∀ j : Int, 0 ≤ j → j < d.size → j ≠ i → Get d1 j = Get d j := by
  obtain ⟨l, hh⟩ := hwf.exists_Holds
  have hsz := hh.1
  have hi : i.toNat < l.length := by omega
  obtain ⟨d1, e, w1, h1', _, _⟩ := Set_spec d l hwf hh i.toNat hi v
  rw [Int.toNat_of_nonneg h0] at e
  refine ⟨d1, e, w1, ?_, ?_⟩
  · have := Get_inside h1' i.toNat (by rw [List.length_set]; exact hi)
    rw [Int.toNat_of_nonneg h0] at this
    rw [this]
    simp
  · intro j hj0 hj1 hji
    have hj : j.toNat < l.length := by omega
    have g1 := Get_inside h1' j.toNat (by rw [List.length_set]; exact hj)
    have g0 := Get_inside hh j.toNat hj
    rw [Int.toNat_of_nonneg hj0] at g1 g0
    rw [g1, g0]
    have hne : i.toNat ≠ j.toNat := by omega
    simp [List.getElem_set_ne hne]

/-- C13 witness: `Set(1, 5)` on the deque holding `[7, 8, 9]`. -/
theorem set_writes_the_slot_at_reads_witness :
    ∃ d d1 : Deque Nat, pushBackAll NewDeque [7, 8, 9] = some d ∧
      Set d 1 5 = some (d1, true) ∧ Get d1 1 = some (5, true) ∧ Get d1 0 = Get d 0 ∧
      Get d1 2 = Get d 2 := by
  obtain ⟨d, e, w, _, hh⟩ := pushBackAll_spec [7, 8, 9] (NewDeque : Deque Nat) []
    WF_NewDeque InSpan_NewDeque Holds_NewDeque
  have hsz : d.size = 3 := hh.1
  obtain ⟨d1, e1, _, g, hj⟩ := set_writes_the_slot_at_reads d 1 5 w (by decide)
    (by rw [hsz]; decide)
  exact ⟨d, d1, e, e1, g, hj 0 (by decide) (by rw [hsz]; decide) (by decide),
    hj 2 (by decide) (by rw [hsz]; decide) (by decide)⟩

/-- C14: in every state, `Set` with an index outside `[0, size)`, `Insert`
with an index outside `[0, size]` and `Erase` with `start < 0`, `end > size` or
`start ≥ end` return false and hand back the state as it was; on an empty deque
every `Erase` does. -/
theorem out_of_range_calls_change_nothing [Inhabited α] (d : Deque α) :
    (∀ (i : Int) (v : α), i < 0 ∨ i ≥ d.size → Set d i v = some (d, false)) ∧
    (∀ (i : Int) (x : α), i < 0 ∨ i > d.size → Insert d i x = some (d, false)) ∧
    (∀ b e : Int, b < 0 ∨ e > d.size ∨ b ≥ e → Erase d b e = some (d, false)) ∧
    (d.size = 0 → ∀ b e : Int, Erase d b e = some (d, false)) := by
  have hE : ∀ b e : Int, b < 0 ∨ e > d.size ∨ b ≥ e → Erase d b e = some (d, false) := by
    intro b e h
    unfold Erase
    simp only [h, if_true]
  refine ⟨?_, ?_, hE, ?_⟩
  · intro i v h
    unfold Set
    simp only [h, if_true]
  · intro i x h
    unfold Insert
    simp only [h, if_true]
  · intro h0 b e
    apply hE
    omega

/-- C14 witness: rejected calls on the deque holding `[7, 8, 9]`. -/
theorem out_of_range_calls_change_nothing_witness :
    ∃ d : Deque Nat, pushBackAll NewDeque [7, 8, 9] = some d ∧
      Set d 3 1 = some (d, false) ∧ Insert d 4 1 = some (d, false) ∧
      Erase d 2 2 = some (d, false) ∧ Erase d 1 4 = some (d, false) := by
  obtain ⟨d, e, _, _, hh⟩ := pushBackAll_spec [7, 8, 9] (NewDeque : Deque Nat) []
    WF_NewDeque InSpan_NewDeque Holds_NewDeque
  have hsz : d.size = 3 := hh.1
  exact ⟨d, e, (out_of_range_calls_change_nothing d).1 3 1 (by rw [hsz]; decide),
    (out_of_range_calls_change_nothing d).2.1 4 1 (by rw [hsz]; decide),
    (out_of_range_calls_change_nothing d).2.2.1 2 2 (Or.inr (Or.inr (le_refl 2))),
    (out_of_range_calls_change_nothing d).2.2.1 1 4 (by rw [hsz]; decide)⟩

/-! ## The shifting loops -/

theorem ext_of_getElem?_lt {l1 l2 : List α} (hl : l1.length = l2.length)
    (h : ∀ j, j < l1.length → l1[j]? = l2[j]?) : l1 = l2 := by
  apply List.ext_getElem?
  intro j
  by_cases hj : j < l1.length
  · exact h j hj
  · rw [List.getElem?_eq_none (by omega), List.getElem?_eq_none (by omega)]

/-- One loop body `d.Set(i, d.At(j))` with both indices inside the deque. -/
theorem Rep.copy {d : Deque α} {L : List α} (h : Rep d L) (i j : Nat) (hi : i < L.length)
    (hj : j < L.length) :
    ∃ v d1, At d (j : Int) = some v ∧ L[j]? = some v ∧ Set d (i : Int) v = some (d1, true) ∧
      Rep d1 (L.set i v) ∧ (InSpan d → InSpan d1) ∧ d1.size = d.size := by
  obtain ⟨d1, e, w1, h1, s1, hd⟩ := Set_spec d L h.1 h.2 i hi (L.get ⟨j, hj⟩)
  exact ⟨L.get ⟨j, hj⟩, d1, At_of_Holds h.2 j hj, List.getElem?_eq_getElem hj, e, ⟨w1, h1⟩, s1,
    by rw [hd]⟩

theorem insertShiftFront_spec (L : List α) :
    ∀ (n k : Nat) (d : Deque α) (Lk : List α), Rep d Lk → Lk.length = L.length →
      (∀ j, j < L.length → Lk[j]? = if j < k then L[j + 1]? else L[j]?) →
      k + n < L.length →
      ∃ d1 L1, insertShiftFront d (k : Int) n = some d1 ∧ Rep d1 L1 ∧
        L1.length = L.length ∧
        ∀ j, j < L.length → L1[j]? = if j < k + n then L[j + 1]? else L[j]? := by
  intro n
  induction n with
  | zero => intro k d Lk hr hl hp _; exact ⟨d, Lk, rfl, hr, hl, by simpa using hp⟩
  | succ n ih =>
    intro k d Lk hr hl hp hk
    obtain ⟨v, d1, ha, hv, hs, hr1, _, _⟩ := hr.copy k (k + 1) (by omega) (by omega)
    have hp1 : ∀ j, j < L.length →
        (Lk.set k v)[j]? = if j < k + 1 then L[j + 1]? else L[j]? := by
      intro j hj
      rw [List.getElem?_set]
      by_cases hkj : k = j
      · subst hkj
        rw [if_pos rfl, if_pos (by omega), if_pos (by omega), ← hv, hp (k + 1) (by omega),
          if_neg (by omega)]
      · rw [if_neg hkj, hp j hj]
        by_cases hjk : j < k
        · rw [if_pos hjk, if_pos (by omega)]
        · rw [if_neg hjk, if_neg (by omega)]
    obtain ⟨d2, L2, e2, hr2, hl2, hp2⟩ := ih (k + 1) d1 (Lk.set k v) hr1
      (by rw [List.length_set]; exact hl) hp1 (by omega)
    refine ⟨d2, L2, ?_, hr2, hl2, fun j hj => ?_⟩
    · have hc : ((k : Int) + 1) = ((k + 1 : Nat) : Int) := by push_cast; rfl
      simp only [insertShiftFront, hc, ha, hs, e2]
    · rw [hp2 j hj]
      have : k + 1 + n = k + (n + 1) := by omega
      rw [this]

theorem insertShiftBack_spec (l : List α) :
    ∀ (n p : Nat) (d : Deque α) (Lp : List α), Rep d Lp → Lp.length = l.length + 1 →
      (∀ j, j < l.length + 1 → Lp[j]? = if p < j then l[j - 1]? else l[j]?) →
      n ≤ p → p ≤ l.length →
      ∃ d1 L1, insertShiftBack d (p : Int) n = some d1 ∧ Rep d1 L1 ∧
        L1.length = l.length + 1 ∧
        ∀ j, j < l.length + 1 → L1[j]? = if p - n < j then l[j - 1]? else l[j]? := by
  intro n
  induction n with
  | zero => intro p d Lp hr hl hp _ _; exact ⟨d, Lp, rfl, hr, hl, by simpa using hp⟩
  | succ n ih =>
    intro p d Lp hr hl hp hn hpl
    obtain ⟨v, d1, ha, hv, hs, hr1, _, _⟩ := hr.copy p (p - 1) (by omega) (by omega)
    have hp1 : ∀ j, j < l.length + 1 →
        (Lp.set p v)[j]? = if p - 1 < j then l[j - 1]? else l[j]? := by
      intro j hj
      rw [List.getElem?_set]
      by_cases hpj : p = j
      · subst hpj
        rw [if_pos rfl, if_pos (by omega), if_pos (by omega), ← hv, hp (p - 1) (by omega),
          if_neg (by omega)]
      · rw [if_neg hpj, hp j hj]
        by_cases hjp : p < j
        · rw [if_pos hjp, if_pos (by omega)]
        · rw [if_neg hjp, if_neg (by omega)]
    obtain ⟨d2, L2, e2, hr2, hl2, hp2⟩ := ih (p - 1) d1 (Lp.set p v) hr1
      (by rw [List.length_set]; exact hl) hp1 (by omega) (by omega)
    refine ⟨d2, L2, ?_, hr2, hl2, fun j hj => ?_⟩
    · have hc : ((p : Int) - 1) = ((p - 1 : Nat) : Int) := by omega
      simp only [insertShiftBack, hc, ha, hs, e2]
    · rw [hp2 j hj]
      have : p - 1 - n = p - (n + 1) := by omega
      rw [this]

theorem eraseShiftFront_spec (L : List α) (b c : Nat) (hbc : b + c ≤ L.length) :
    ∀ (n p : Nat) (d : Deque α) (Lp : List α), Rep d Lp → Lp.length = L.length →
      (∀ j, j < L.length → Lp[j]? = if p + c ≤ j ∧ j < b + c then L[j - c]? else L[j]?) →
      n ≤ p → p ≤ b →
      ∃ d1 L1, eraseShiftFront d (c : Int) ((p : Int) - 1) n = some d1 ∧ Rep d1 L1 ∧
        L1.length = L.length ∧
        ∀ j, j < L.length →
          L1[j]? = if p - n + c ≤ j ∧ j < b + c then L[j - c]? else L[j]? := by
  intro n
  induction n with
  | zero => intro p d Lp hr hl hp _ _; exact ⟨d, Lp, rfl, hr, hl, by simpa using hp⟩
  | succ n ih =>
    intro p d Lp hr hl hp hn hpb
    obtain ⟨v, d1, ha, hv, hs, hr1, _, _⟩ := hr.copy (p - 1 + c) (p - 1) (by omega) (by omega)
    have hp1 : ∀ j, j < L.length →
        (Lp.set (p - 1 + c) v)[j]? =
          if p - 1 + c ≤ j ∧ j < b + c then L[j - c]? else L[j]? := by
      intro j hj
      rw [List.getElem?_set]
      by_cases hpj : p - 1 + c = j
      · subst hpj
        rw [if_pos rfl, if_pos (by omega), if_pos (by omega), ← hv, hp (p - 1) (by omega),
          if_neg (by omega)]
        congr 1
        omega
      · rw [if_neg hpj, hp j hj]
        by_cases hjp : p + c ≤ j ∧ j < b + c
        · rw [if_pos hjp, if_pos (by omega)]
        · rw [if_neg hjp, if_neg (by omega)]
    obtain ⟨d2, L2, e2, hr2, hl2, hp2⟩ := ih (p - 1) d1 (Lp.set (p - 1 + c) v) hr1
      (by rw [List.length_set]; exact hl) hp1 (by omega) (by omega)
    refine ⟨d2, L2, ?_, hr2, hl2, fun j hj => ?_⟩
    · have hc : ((p : Int) - 1) = ((p - 1 : Nat) : Int) := by omega
      have hc2 : ((p - 1 : Nat) : Int) + (c : Int) = ((p - 1 + c : Nat) : Int) := by omega
      simp only [eraseShiftFront, hc, hc2, ha, hs, e2]
    · rw [hp2 j hj]
      have : p - 1 - n = p - (n + 1) := by omega
      rw [this]

theorem eraseShiftBack_spec (L : List α) (b c : Nat) :
    ∀ (n q : Nat) (d : Deque α) (Lq : List α), Rep d Lq → Lq.length = L.length →
      (∀ j, j < L.length → Lq[j]? = if b ≤ j ∧ j + c < q then L[j + c]? else L[j]?) →
      b + c ≤ q → q + n ≤ L.length →
      ∃ d1 L1, eraseShiftBack d (c : Int) (q : Int) n = some d1 ∧ Rep d1 L1 ∧
        L1.length = L.length ∧
        ∀ j, j < L.length →
          L1[j]? = if b ≤ j ∧ j + c < q + n then L[j + c]? else L[j]? := by
  intro n
  induction n with
  | zero => intro q d Lq hr hl hp _ _; exact ⟨d, Lq, rfl, hr, hl, by simpa using hp⟩
  | succ n ih =>
    intro q d Lq hr hl hp hq hqn
    obtain ⟨v, d1, ha, hv, hs, hr1, _, _⟩ := hr.copy (q - c) q (by omega) (by omega)
    have hp1 : ∀ j, j < L.length →
        (Lq.set (q - c) v)[j]? = if b ≤ j ∧ j + c < q + 1 then L[j + c]? else L[j]? := by
      intro j hj
      rw [List.getElem?_set]
      by_cases hqj : q - c = j
      · subst hqj
        rw [if_pos rfl, if_pos (by omega), if_pos (by omega), ← hv, hp q (by omega),
          if_neg (by omega)]
        congr 1
        omega
      · rw [if_neg hqj, hp j hj]
        by_cases hjq : b ≤ j ∧ j + c < q
        · rw [if_pos hjq, if_pos (by omega)]
        · rw [if_neg hjq, if_neg (by omega)]
    obtain ⟨d2, L2, e2, hr2, hl2, hp2⟩ := ih (q + 1) d1 (Lq.set (q - c) v) hr1
      (by rw [List.length_set]; exact hl) hp1 (by omega) (by omega)
    refine ⟨d2, L2, ?_, hr2, hl2, fun j hj => ?_⟩
    · have hc : ((q : Int) + 1) = ((q + 1 : Nat) : Int) := by omega
      have hc2 : (q : Int) - (c : Int) = ((q - c : Nat) : Int) := by omega
      simp only [eraseShiftBack, hc, hc2, ha, hs, e2]
    · rw [hp2 j hj]
      have : q + 1 + n = q + (n + 1) := by omega
      rw [this]

theorem popFrontTimes_spec [Inhabited α] :
    ∀ (n : Nat) (d : Deque α) (xs rest : List α), Rep d (xs ++ rest) → xs.length = n →
      ∃ d1, popFrontTimes d n = some d1 ∧ Rep d1 rest ∧ (InSpan d → InSpan d1) := by
  intro n
  induction n with
  | zero =>
    intro d xs rest hr hx
    have : xs = [] := List.eq_nil_of_length_eq_zero hx
    subst this
    exact ⟨d, rfl, hr, fun h => h⟩
  | succ n ih =>
    intro d xs rest hr hx
    cases xs with
    | nil => simp at hx
    | cons a t =>
      obtain ⟨d1, e1, w1, h1, s1⟩ := PopFront_spec d a (t ++ rest) hr.1 hr.2
      obtain ⟨d2, e2, hr2, s2⟩ := ih d1 t rest ⟨w1, h1⟩ (by simpa using hx)
      exact ⟨d2, by simp only [popFrontTimes, e1, e2], hr2, fun h => s2 (s1 h)⟩

theorem popBackTimes_spec [Inhabited α] :
    ∀ (n : Nat) (d : Deque α) (rest xs : List α), Rep d (rest ++ xs) → xs.length = n →
      ∃ d1, popBackTimes d n = some d1 ∧ Rep d1 rest ∧ (InSpan d → InSpan d1) := by
  intro n
  induction n with
  | zero =>
    intro d rest xs hr hx
    have : xs = [] := List.eq_nil_of_length_eq_zero hx
    subst this
    exact ⟨d, rfl, by simpa using hr, fun h => h⟩
  | succ n ih =>
    intro d rest xs hr hx
    rcases List.eq_nil_or_concat xs with hnil | ⟨t, a, ht⟩
    · subst hnil; simp at hx
    · rw [List.concat_eq_append] at ht
      subst ht
      rw [← List.append_assoc] at hr
      obtain ⟨d1, e1, w1, h1, s1⟩ := PopBack_spec d a (rest ++ t) hr.1 hr.2
      obtain ⟨d2, e2, hr2, s2⟩ := ih d1 rest t ⟨w1, h1⟩ (by simpa using hx)
      exact ⟨d2, by simp only [popBackTimes, e1, e2], hr2, fun h => s2 (s1 h)⟩

/-! ## `Erase` -/

theorem getElem?_eraseRange (l : List α) (b c : Nat) (hb : b ≤ l.length) (j : Nat) :
    (l.take b ++ l.drop (b + c))[j]? = if j < b then l[j]? else l[j + c]? := by
  rw [List.getElem?_append, List.length_take_of_le hb]
  by_cases hj : j < b
  · rw [if_pos hj, if_pos hj, List.getElem?_take_of_lt hj]
  · rw [if_neg hj, if_neg hj, List.getElem?_drop]
    congr 1
    omega

/-- `Erase` on a well-formed deque holding `l`, with `b < e ≤ len l`: both
shift directions leave a well-formed deque holding `l` without `l[b..e)`. -/
theorem Erase_spec [Inhabited α] (d : Deque α) (l : List α) (hr : Rep d l) (b e : Nat)
    (hbe : b < e) (he : e ≤ l.length) :
    ∃ d1, Erase d (b : Int) (e : Int) = some (d1, true) ∧ Rep d1 (l.take b ++ l.drop e) := by
  have hsz : d.size = (l.length : Int) := hr.2.1
  have hg : ¬ ((b : Int) < 0 ∨ (e : Int) > d.size ∨ (b : Int) ≥ (e : Int)) := by omega
  have hcnt : (e : Int) - (b : Int) = ((e - b : Nat) : Int) := by omega
  have hlen : (l.take b ++ l.drop e).length = l.length - (e - b) := by
    rw [List.length_append, List.length_take_of_le (by omega), List.length_drop]
    omega
  have hee : e = b + (e - b) := by omega
  unfold Erase
  simp only [hg, if_false, hcnt, Int.toNat_ofNat]
  by_cases hdir : (b : Int) < d.size - (e : Int)
  · -- shift the elements before the gap towards the back, then pop at the front
    rw [if_pos hdir]
    obtain ⟨d1, L1, e1, hr1, hl1, hp1⟩ := eraseShiftFront_spec l b (e - b) (by omega) b b d l hr
      rfl (fun j _ => by rw [if_neg (by omega)]) (le_refl _) (le_refl _)
    rw [e1]
    have hsplit : L1 = L1.take (e - b) ++ L1.drop (e - b) := (List.take_append_drop _ _).symm
    rw [hsplit] at hr1
    obtain ⟨d2, e2, hr2, _⟩ := popFrontTimes_spec (e - b) d1 (L1.take (e - b)) (L1.drop (e - b))
      hr1 (by rw [List.length_take_of_le (by omega)])
    simp only [e2]
    refine ⟨d2, rfl, ?_⟩
    have hL : L1.drop (e - b) = l.take b ++ l.drop e := by
      apply ext_of_getElem?_lt
      · rw [List.length_drop, hl1, hlen]
      · intro j hj
        rw [List.length_drop, hl1] at hj
        rw [List.getElem?_drop, hp1 _ (by omega), hee, getElem?_eraseRange l b (e - b) (by omega),
          ← hee]
        by_cases hjb : j < b
        · rw [if_pos (by omega), if_pos hjb]
          congr 1
          omega
        · rw [if_neg (by omega), if_neg hjb]
          congr 1
          omega
    rw [← hL]
    exact hr2
  · -- shift the elements after the gap towards the front, then pop at the back
    rw [if_neg hdir]
    have hn : (d.size - (e : Int)).toNat = l.length - e := by omega
    obtain ⟨d1, L1, e1, hr1, hl1, hp1⟩ := eraseShiftBack_spec l b (e - b) (l.length - e) e d l hr
      rfl (fun j _ => by rw [if_neg (by omega)]) (by omega) (by omega)
    rw [hn, e1]
    have hsplit : L1 = L1.take (l.length - (e - b)) ++ L1.drop (l.length - (e - b)) :=
      (List.take_append_drop _ _).symm
    rw [hsplit] at hr1
    obtain ⟨d2, e2, hr2, _⟩ := popBackTimes_spec (e - b) d1 (L1.take (l.length - (e - b)))
      (L1.drop (l.length - (e - b))) hr1 (by rw [List.length_drop, hl1]; omega)
    simp only [e2]
    refine ⟨d2, rfl, ?_⟩
    have hL : L1.take (l.length - (e - b)) = l.take b ++ l.drop e := by
      apply ext_of_getElem?_lt
      · rw [List.length_take_of_le (by omega), hlen]
      · intro j hj
        rw [List.length_take_of_le (by omega)] at hj
        rw [List.getElem?_take_of_lt hj, hp1 _ (by omega), hee,
          getElem?_eraseRange l b (e - b) (by omega), ← hee]
        by_cases hjb : j < b
        · rw [if_neg (by omega), if_pos hjb]
        · rw [if_pos (by omega), if_neg hjb]
    rw [← hL]
    exact hr2

/-! ## `Reverse` -/

theorem reverseLoop_spec (L : List α) :
    ∀ (n k : Nat) (d : Deque α) (Lk : List α), Rep d Lk → Lk.length = L.length →
      (∀ j, j < L.length →
        Lk[j]? = if j < k ∨ L.length - k ≤ j then L[L.length - 1 - j]? else L[j]?) →
      2 * (k + n) ≤ L.length →
      ∃ d1 L1, reverseLoop d (k : Int) n = some d1 ∧ Rep d1 L1 ∧ L1.length = L.length ∧
        ∀ j, j < L.length →
          L1[j]? = if j < k + n ∨ L.length - (k + n) ≤ j then L[L.length - 1 - j]? else L[j]? := by
  intro n
  induction n with
  | zero => intro k d Lk hr hl hp _; exact ⟨d, Lk, rfl, hr, hl, by simpa using hp⟩
  | succ n ih =>
    intro k d Lk hr hl hp hk
    have hsz : d.size = (L.length : Int) := by rw [hr.2.1, hl]
    have hkl : k < Lk.length := by omega
    have hat : At d (k : Int) = some (Lk.get ⟨k, hkl⟩) := At_of_Holds hr.2 k hkl
    have htl : Lk[k]? = some (Lk.get ⟨k, hkl⟩) := List.getElem?_eq_getElem hkl
    obtain ⟨v, d1, ha, hv, hs, hr1, _, hs1⟩ := hr.copy k (L.length - 1 - k) (by omega) (by omega)
    obtain ⟨d2, e2, w2, h2, _, _⟩ := Set_spec d1 (Lk.set k v) hr1.1 hr1.2 (L.length - 1 - k)
      (by rw [List.length_set]; omega) (Lk.get ⟨k, hkl⟩)
    have hp1 : ∀ j, j < L.length →
        ((Lk.set k v).set (L.length - 1 - k) (Lk.get ⟨k, hkl⟩))[j]? =
          if j < k + 1 ∨ L.length - (k + 1) ≤ j then L[L.length - 1 - j]? else L[j]? := by
      intro j hj
      rw [List.getElem?_set, List.length_set]
      by_cases hj1 : L.length - 1 - k = j
      · subst hj1
        rw [if_pos rfl, if_pos (by omega), if_pos (by omega), ← htl, hp k (by omega),
          if_neg (by omega)]
        congr 1
        omega
      · rw [if_neg hj1, List.getElem?_set]
        by_cases hj2 : k = j
        · subst hj2
          rw [if_pos rfl, if_pos (by omega), if_pos (by omega), ← hv,
            hp (L.length - 1 - k) (by omega), if_neg (by omega)]
        · rw [if_neg hj2, hp j hj]
          by_cases hc : j < k ∨ L.length - k ≤ j
          · rw [if_pos hc, if_pos (by omega)]
          · rw [if_neg hc, if_neg (by omega)]
    obtain ⟨d3, L3, e3, hr3, hl3, hp3⟩ := ih (k + 1) d2 _ ⟨w2, h2⟩
      (by rw [List.length_set, List.length_set]; exact hl) hp1 (by omega)
    refine ⟨d3, L3, ?_, hr3, hl3, fun j hj => ?_⟩
    · have hc : ((k : Int) + 1) = ((k + 1 : Nat) : Int) := by omega
      have hc2 : d.size - 1 - (k : Int) = ((L.length - 1 - k : Nat) : Int) := by omega
      simp only [reverseLoop, hc, hc2, hat, ha, hs, e2, e3]
    · rw [hp3 j hj]
      have : k + 1 + n = k + (n + 1) := by omega
      rw [this]

/-- `Reverse` on a well-formed deque holding `l` leaves a well-formed deque
holding the reversed list, and the state itself when `l` has at most one
element. -/
theorem Reverse_spec (d : Deque α) (l : List α) (hr : Rep d l) :
    ∃ d1, Reverse d = some d1 ∧ Rep d1 l.reverse ∧ (l.length ≤ 1 → d1 = d) := by
  have hsz : d.size = (l.length : Int) := hr.2.1
  unfold Reverse
  by_cases h1 : d.size ≤ 1
  · rw [if_pos h1]
    have hl : l.length ≤ 1 := by omega
    have hrev : l.reverse = l := by
      match l, hl with
      | [], _ => rfl
      | [_], _ => rfl
    exact ⟨d, rfl, by rw [hrev]; exact hr, fun _ => rfl⟩
  · rw [if_neg h1]
    have hn : (Int.tdiv d.size 2).toNat = l.length / 2 := by
      rw [Int.tdiv_eq_ediv (by omega) (by omega)]
      omega
    obtain ⟨d1, L1, e1, hr1, hl1, hp1⟩ := reverseLoop_spec l (l.length / 2) 0 d l hr rfl
      (fun j _ => by rw [if_neg (by omega)]) (by omega)
    have hc : ((0 : Nat) : Int) = 0 := rfl
    rw [hc] at e1
    rw [hn, e1]
    refine ⟨d1, rfl, ?_, fun h => by omega⟩
    have hL : L1 = l.reverse := by
      apply ext_of_getElem?_lt
      · rw [hl1, List.length_reverse]
      · intro j hj
        rw [hl1] at hj
        rw [hp1 j hj, List.getElem?_reverse hj]
        by_cases hc : j < 0 + l.length / 2 ∨ l.length - (0 + l.length / 2) ≤ j
        · rw [if_pos hc]
        · rw [if_neg hc]
          congr 1
          omega
    rw [← hL]
    exact hr1

/-! ## `Insert` -/

theorem PushBack_head [Inhabited α] {d d1 : Deque α} {x : α} (h : WF d)
    (e : PushBack d x = some d1) :
    d1.headBlock = d.headBlock ∧ d1.headOffset = d.headOffset := by
  obtain ⟨d2, e2, c⟩ := PushBack_char d x h
  rw [e] at e2
  cases e2
  exact ⟨c.headBlock, c.headOffset⟩

theorem pushBackAll_head [Inhabited α] (vs : List α) :
    ∀ (d : Deque α) (l : List α), WF d → InSpan d → Holds d l →
      ∃ d1, pushBackAll d vs = some d1 ∧ WF d1 ∧ InSpan d1 ∧ Holds d1 (l ++ vs) ∧
        d1.headBlock = d.headBlock ∧ d1.headOffset = d.headOffset := by
  induction vs with
  | nil => intro d l hwf hs hh; exact ⟨d, rfl, hwf, hs, by simpa using hh, rfl, rfl⟩
  | cons x xs ih =>
    intro d l hwf hs hh
    obtain ⟨d1, e1, w1, s1, h1⟩ := PushBack_spec d x l hwf hs hh
    obtain ⟨hb, ho⟩ := PushBack_head hwf e1
    obtain ⟨d2, e2, w2, s2, h2, hb2, ho2⟩ := ih d1 (l ++ [x]) w1 s1 h1
    exact ⟨d2, by simp [pushBackAll, e1, e2], w2, s2, by simpa using h2, by rw [hb2, hb],
      by rw [ho2, ho]⟩

/-- `PushFront` with room before the head inside the head block (or on an empty
deque) prepends the element. -/
theorem PushFront_spec_room [Inhabited α] (d : Deque α) (x : α) (l : List α) (h : WF d)
    (hh : Holds d l) (hroom : 0 < d.headOffset) :
    ∃ d1, PushFront d x = some d1 ∧ WF d1 ∧ Holds d1 (x :: l) ∧ (InSpan d → InSpan d1) := by
  have ho0 := h.headOffset_lo
  have ho1 := h.headOffset_hi
  have ht0 := h.tailOffset_lo
  have ht1 := h.tailOffset_hi
  have hs0 := h.size_nonneg
  have hsz := hh.1
  unfold PushFront
  by_cases he : d.size = 0
  · have hemp : d.IsEmpty = true := by simp [IsEmpty, he]
    obtain ⟨m, hm⟩ := writeSlot_isSome x h.head_alloc ho0 ho1
    obtain ⟨a1, a2, a3, a4⟩ := h.empty_canon he
    have hl : l = [] := by
      apply List.eq_nil_of_length_eq_zero
      omega
    subst hl
    simp only [hemp, if_true, hm]
    refine ⟨_, rfl, ?_, ?_, fun hs => hs⟩
    · exact
        { mapLen := by rw [h.mapLen]; exact (len_writeSlot hm).symm
          mapStart_nonneg := h.mapStart_nonneg
          mapStart_lt := h.mapStart_lt
          mapEnd_le := h.mapEnd_le
          blocks := BlocksOK_writeSlot hm h.blocks
          headOffset_lo := ho0
          headOffset_hi := ho1
          tailOffset_lo := ht0
          tailOffset_hi := ht1
          size_nonneg := by simp only; omega
          empty_canon := by simp only; intro h0; omega
          cursors := by
            intro _
            simp only [headPos, tailPos, a1, a2, a3, a4, he]
            omega
          live := fun k hk0 hk1 => AllocAt_writeSlot hm (h.live k hk0 hk1)
          first := AllocAt_writeSlot hm h.first }
    · refine ⟨by simp only [he]; rfl, fun i hi => ?_⟩
      have hi0 : i = 0 := by simpa using hi
      subst hi0
      rw [At_eq_slotAt _ ((0 : Nat) : Int) (by exact ho0) (by omega)]
      show slotAt m d.mapStart (headPos d + ((0 : Nat) : Int)) = [x][0]?
      simp only [headPos, Nat.cast_zero, add_zero]
      rw [slotAt_writeSlot_same hm ho0 ho1]
      rfl
  · have hemp : d.IsEmpty = false := by simp [IsEmpty, he]
    have hgt : d.headOffset > 0 := hroom
    obtain ⟨m, hm⟩ := writeSlot_isSome x h.head_alloc (by omega : 0 ≤ d.headOffset - 1)
      (by omega : d.headOffset - 1 < blockSize)
    have hc := h.cursors (by omega)
    simp only [hemp, Bool.false_eq_true, if_false, hgt, if_true, hm]
    refine ⟨_, rfl, ?_, ?_, fun hs => hs⟩
    · exact
        { mapLen := by rw [h.mapLen]; exact (len_writeSlot hm).symm
          mapStart_nonneg := h.mapStart_nonneg
          mapStart_lt := h.mapStart_lt
          mapEnd_le := h.mapEnd_le
          blocks := BlocksOK_writeSlot hm h.blocks
          headOffset_lo := by simp only; omega
          headOffset_hi := by simp only; omega
          tailOffset_lo := ht0
          tailOffset_hi := ht1
          size_nonneg := by simp only; omega
          empty_canon := by simp only; intro h0; omega
          cursors := by
            intro _
            simp only [headPos, tailPos] at hc ⊢
            omega
          live := fun k hk0 hk1 => AllocAt_writeSlot hm (h.live k hk0 hk1)
          first := AllocAt_writeSlot hm h.first }
    · refine ⟨by simp only [List.length_cons]; omega, fun i hi => ?_⟩
      rw [At_eq_slotAt _ (i : Int) (by simp only; omega) (by omega)]
      show slotAt m d.mapStart (d.headBlock * blockSize + (d.headOffset - 1) + (i : Int)) =
        (x :: l)[i]?
      cases i with
      | zero =>
        simp only [Nat.cast_zero, add_zero, List.getElem?_cons_zero]
        exact slotAt_writeSlot_same hm (by omega) (by omega)
      | succ i =>
        have hil : i < l.length := by simpa using hi
        have e : d.headBlock * blockSize + (d.headOffset - 1) + ((i + 1 : Nat) : Int) =
            headPos d + (i : Int) := by
          simp only [headPos]; push_cast; ring
        rw [e, slotAt_writeSlot_other hm (by simp only [headPos]; omega),
          Holds_slotAt ho0 hh i hil, List.getElem?_cons_succ]

theorem getElem?_insertAt (l : List α) (i : Nat) (x : α) (hi : i ≤ l.length) (j : Nat) :
    (l.take i ++ [x] ++ l.drop i)[j]? =
      if j < i then l[j]? else if j = i then some x else l[j - 1]? := by
  rw [List.append_assoc, List.getElem?_append, List.length_take_of_le hi]
  by_cases hj : j < i
  · rw [if_pos hj, if_pos hj, List.getElem?_take_of_lt hj]
  · rw [if_neg hj, if_neg hj]
    by_cases hji : j = i
    · subst hji
      rw [if_pos rfl, Nat.sub_self]
      simp
    · rw [if_neg hji]
      have : j - i = (j - i - 1) + 1 := by omega
      rw [this, List.singleton_append, List.getElem?_cons_succ, List.getElem?_drop]
      congr 1
      omega

theorem length_insertAt (l : List α) (i : Nat) (x : α) (hi : i ≤ l.length) :
    (l.take i ++ [x] ++ l.drop i).length = l.length + 1 := by
  rw [List.length_append, List.length_append, List.length_take_of_le hi, List.length_drop,
    List.length_singleton]
  omega

/-- `Insert` with a valid index on a well-formed deque holding `l`, whose live
blocks lie in the valid map range and whose head is not at the start of a
block: all four paths leave a well-formed deque holding `l` with `x` inserted
at `i`. -/
theorem Insert_spec [Inhabited α] (d : Deque α) (l : List α) (x : α) (i : Nat) (hr : Rep d l)
    (hs : InSpan d) (hroom : 0 < d.headOffset) (hi : i ≤ l.length) :
    ∃ d1, Insert d (i : Int) x = some (d1, true) ∧ Rep d1 (l.take i ++ [x] ++ l.drop i) := by
  have hsz : d.size = (l.length : Int) := hr.2.1
  have hg : ¬ ((i : Int) < 0 ∨ (i : Int) > d.size) := by omega
  unfold Insert
  simp only [hg, if_false]
  by_cases h0 : (i : Int) = 0
  · have hi0 : i = 0 := by omega
    subst hi0
    obtain ⟨d1, e1, w1, h1, _⟩ := PushFront_spec_room d x l hr.1 hr.2 hroom
    simp only [h0, if_true, e1]
    exact ⟨d1, rfl, w1, by simpa using h1⟩
  · rw [if_neg h0]
    by_cases hn : (i : Int) = d.size
    · have hin : i = l.length := by omega
      subst hin
      obtain ⟨d1, e1, w1, _, h1⟩ := PushBack_spec d x l hr.1 hs hr.2
      simp only [hn, if_true, e1]
      exact ⟨d1, rfl, w1, by simpa using h1⟩
    · rw [if_neg hn]
      have hpos : 0 < l.length := by omega
      by_cases hhalf : (i : Int) < Int.tdiv d.size 2
      · -- front half: duplicate the first element, shift `[0, i)` forward
        rw [if_pos hhalf]
        have ha0 : At d 0 = some (l.get ⟨0, hpos⟩) := At_of_Holds hr.2 0 hpos
        obtain ⟨d1, e1, w1, h1, _⟩ := PushFront_spec_room d (l.get ⟨0, hpos⟩) l hr.1 hr.2 hroom
        obtain ⟨d2, L2, e2, hr2, hl2, hp2⟩ := insertShiftFront_spec (l.get ⟨0, hpos⟩ :: l) i 0 d1
          _ ⟨w1, h1⟩ rfl (fun j _ => by rw [if_neg (by omega)])
          (by rw [List.length_cons]; omega)
        obtain ⟨d3, e3, w3, h3, _, _⟩ := Set_spec d2 L2 hr2.1 hr2.2 i
          (by rw [hl2, List.length_cons]; omega) x
        have hc : ((0 : Nat) : Int) = 0 := rfl
        rw [hc] at e2
        simp only [ha0, e1, Int.toNat_ofNat, e2, e3]
        refine ⟨d3, rfl, w3, ?_⟩
        have hL : L2.set i x = l.take i ++ [x] ++ l.drop i := by
          apply ext_of_getElem?_lt
          · rw [List.length_set, hl2, length_insertAt l i x hi, List.length_cons]
          · intro j hj
            rw [List.length_set, hl2] at hj
            rw [List.getElem?_set, getElem?_insertAt l i x hi, hl2]
            by_cases hij : i = j
            · subst hij
              rw [if_pos rfl, if_pos (by rw [List.length_cons]; omega), if_neg (by omega),
                if_pos rfl]
            · rw [if_neg hij, hp2 j hj, zero_add]
              by_cases hji : j < i
              · rw [if_pos hji, if_pos hji, List.getElem?_cons_succ]
              · rw [if_neg hji, if_neg hji, if_neg (by omega)]
                have : j = (j - 1) + 1 := by omega
                rw [this, List.getElem?_cons_succ]
                rfl
        rw [← hL]
        exact h3
      · -- back half: duplicate the last element, shift `(i, size-1)` backward
        rw [if_neg hhalf]
        have hlast : l.length - 1 < l.length := by omega
        have hal : At d (d.size - 1) = some (l.get ⟨l.length - 1, hlast⟩) := by
          have := At_of_Holds hr.2 (l.length - 1) hlast
          have hc : ((l.length - 1 : Nat) : Int) = d.size - 1 := by omega
          rwa [hc] at this
        obtain ⟨d1, e1, w1, _, h1⟩ := PushBack_spec d (l.get ⟨l.length - 1, hlast⟩) l hr.1 hs
          hr.2
        have hsz1 : d1.size = (l.length : Int) + 1 := by rw [h1.1]; simp
        have hctr : d1.size - 2 = ((l.length - 1 : Nat) : Int) := by omega
        have hcnt : (((l.length - 1 : Nat) : Int) - (i : Int)).toNat = l.length - 1 - i := by
          omega
        obtain ⟨d2, L2, e2, hr2, hl2, hp2⟩ := insertShiftBack_spec l (l.length - 1 - i)
          (l.length - 1) d1 _ ⟨w1, h1⟩ (by simp)
          (fun j hj => by
            by_cases hjl : l.length - 1 < j
            · have hje : j = l.length := by omega
              rw [if_pos hjl, hje, List.getElem?_append_right (le_refl _), Nat.sub_self]
              exact (List.getElem?_eq_getElem hlast).symm
            · rw [if_neg hjl, List.getElem?_append_left (by omega)])
          (by omega) (by omega)
        obtain ⟨d3, e3, w3, h3, _, _⟩ := Set_spec d2 L2 hr2.1 hr2.2 i (by rw [hl2]; omega) x
        simp only [hal, e1, hctr, hcnt, e2, e3]
        refine ⟨d3, rfl, w3, ?_⟩
        have hL : L2.set i x = l.take i ++ [x] ++ l.drop i := by
          apply ext_of_getElem?_lt
          · rw [List.length_set, hl2, length_insertAt l i x hi]
          · intro j hj
            rw [List.length_set, hl2] at hj
            rw [List.getElem?_set, getElem?_insertAt l i x hi, hl2]
            have hpi : l.length - 1 - (l.length - 1 - i) = i := by omega
            by_cases hij : i = j
            · subst hij
              rw [if_pos rfl, if_pos (by omega), if_neg (by omega), if_pos rfl]
            · rw [if_neg hij, hp2 j hj, hpi]
              by_cases hji : j < i
              · rw [if_neg (by omega), if_pos hji]
              · rw [if_pos (by omega), if_neg hji, if_neg (by omega)]
        rw [← hL]
        exact h3

/-! ## What every run keeps -/

theorem WF.sound {d : Deque α} (h : WF d) : Sound d :=
  { mapLen := h.mapLen
    mapStart_nonneg := h.mapStart_nonneg
    mapStart_lt := h.mapStart_lt
    mapEnd_le := h.mapEnd_le
    blocks := h.blocks
    first := h.first
    size_nonneg := h.size_nonneg
    empty_canon := h.empty_canon }

/-- A state that differs from a sound one by a slot write and by cursors and
size is sound, provided the new size and cursors fit together. -/
theorem Sound.of_write {d d1 : Deque α} {i j : Int} {v : α} (h : Sound d)
    (hm : writeSlot d.mapData i j v = some d1.mapData) (h2 : d1.mapSize = d.mapSize)
    (h3 : d1.mapStart = d.mapStart) (h4 : d1.mapEnd = d.mapEnd) (h5 : 0 ≤ d1.size)
    (h6 : d1.size = 0 →
      d1.headBlock = 0 ∧ d1.tailBlock = 0 ∧ d1.headOffset = blockSize / 2 ∧
        d1.tailOffset = blockSize / 2) : Sound d1 :=
  { mapLen := by rw [h2, h.mapLen]; exact (len_writeSlot hm).symm
    mapStart_nonneg := by rw [h3]; exact h.mapStart_nonneg
    mapStart_lt := by rw [h3, h4]; exact h.mapStart_lt
    mapEnd_le := by rw [h4, h2]; exact h.mapEnd_le
    blocks := BlocksOK_writeSlot hm h.blocks
    first := by rw [h3]; exact AllocAt_writeSlot hm h.first
    size_nonneg := h5
    empty_canon := h6 }

theorem Sound.regrown {d : Deque α} (h : Sound d) :
    ∃ d1, expandMap d = some d1 ∧ Regrown d d1 := by
  obtain ⟨d1, e, h1, h2, h3, h4, h5, h6, h7, h8, h9, hin, hout⟩ :=
    expandMap_spec d h.mapLen h.mapStart_nonneg (le_of_lt h.mapStart_lt) h.mapEnd_le
  have hs := h.mapStart_lt
  have he := h.mapEnd_le
  have h0 := h.mapStart_nonneg
  refine ⟨d1, e, ?_⟩
  exact
    { mapLen := by rw [h1, h2]
      mapStart_nonneg := by omega
      mapEnd_le := by omega
      span := by omega
      blocks := by
        intro i b hb
        obtain ⟨hi0, hi1⟩ := idx_bounds hb
        rw [h2] at hi1
        by_cases hi : i < d1.mapStart ∨ d1.mapEnd ≤ i
        · rw [hout i hi0 hi1 hi] at hb
          cases hb
        · have e2 : i = d1.mapStart + (i - d1.mapStart) := by omega
          rw [e2, hin (i - d1.mapStart) (by omega) (by omega)] at hb
          exact h.blocks _ b hb
      headBlock := h5
      headOffset := h6
      tailBlock := h7
      tailOffset := h8
      size := h9
      kept := hin }

theorem ensureBlock_bounds [Inhabited α] {m m1 : List (Option (List α))} {i : Int}
    (e : ensureBlock m i = some m1) : 0 ≤ i ∧ i < len m := by
  unfold ensureBlock at e
  cases hi : idx m i with
  | none => rw [hi] at e; cases e
  | some ob => exact idx_bounds hi

/-- The second half of a push that moves to an adjacent block: after the
optional growth, the lazy allocation and the write leave a sound state. -/
theorem Sound.of_regrown [Inhabited α] {d d0 d1 : Deque α} {bi j : Int} {x : α}
    {m2 : List (Option (List α))} (h : Sound d) (hr : Regrown d d0)
    (hens : ensureBlock d0.mapData bi = some m2) (hw : writeSlot m2 bi j x = some d1.mapData)
    (h2 : d1.mapSize = d0.mapSize) (h3 : d1.mapStart = d0.mapStart)
    (h4 : d1.mapEnd = d0.mapEnd ∨ (d0.mapEnd < d1.mapEnd ∧ d1.mapEnd = bi + 1))
    (h5 : 0 < d1.size) : Sound d1 := by
  obtain ⟨hb0, hb1⟩ := ensureBlock_bounds hens
  obtain ⟨m2', e2, hlen2, hblk2, _, hall2, _⟩ := ensureBlock_spec hb0 hb1 hr.blocks
  rw [hens] at e2
  cases e2
  have hs := h.mapStart_lt
  have hsp := hr.span
  have hme := hr.mapEnd_le
  have hml := hr.mapLen
  have hm0 := hr.mapStart_nonneg
  have hfirst : AllocAt d0.mapData d0.mapStart := by
    have := hr.alloc 0 (le_refl _) (by omega) (by simpa using h.first)
    simpa using this
  exact
    { mapLen := by rw [h2, hr.mapLen, len_writeSlot hw, hlen2]
      mapStart_nonneg := by rw [h3]; exact hr.mapStart_nonneg
      mapStart_lt := by rcases h4 with h4 | h4 <;> omega
      mapEnd_le := by rcases h4 with h4 | h4 <;> omega
      blocks := BlocksOK_writeSlot hw hblk2
      first := by rw [h3]; exact AllocAt_writeSlot hw (hall2 _ hfirst)
      size_nonneg := le_of_lt h5
      empty_canon := fun h0 => by omega }

theorem Sound.pushBack [Inhabited α] {d d1 : Deque α} {x : α} (h : Sound d)
    (e : PushBack d x = some d1) : Sound d1 := by
  have hs0 := h.size_nonneg
  unfold PushBack at e
  by_cases he : d.size = 0
  · have hemp : d.IsEmpty = true := by simp [IsEmpty, he]
    simp only [hemp, if_true] at e
    split at e
    · cases e
    · rename_i m hm
      cases e
      exact h.of_write hm rfl rfl rfl (by simp only; omega) (fun h0 => by simp only at h0; omega)
  · have hemp : d.IsEmpty = false := by simp [IsEmpty, he]
    simp only [hemp, Bool.false_eq_true, if_false] at e
    by_cases hto : d.tailOffset < blockSize - 1
    · simp only [hto, if_true] at e
      split at e
      · cases e
      · rename_i m hm
        cases e
        exact h.of_write hm rfl rfl rfl (by simp only; omega)
          (fun h0 => by simp only at h0; omega)
    · simp only [hto, if_false] at e
      split at e
      · cases e
      · rename_i d0 hg
        have hr : Regrown d d0 := by
          by_cases hgr : d.mapStart + d.tailBlock + 1 ≥ len d.mapData
          · rw [if_pos hgr] at hg
            obtain ⟨d0', e0, hr⟩ := h.regrown
            rw [hg] at e0
            cases e0
            exact hr
          · rw [if_neg hgr] at hg
            cases hg
            exact
              { mapLen := h.mapLen
                mapStart_nonneg := h.mapStart_nonneg
                mapEnd_le := h.mapEnd_le
                span := rfl
                blocks := h.blocks
                headBlock := rfl
                headOffset := rfl
                tailBlock := rfl
                tailOffset := rfl
                size := rfl
                kept := fun _ _ _ => rfl }
        split at e
        · cases e
        · split at e
          · cases e
          · rename_i hnb m2 hens
            split at e
            · cases e
            · rename_i m3 hw
              cases e
              refine h.of_regrown hr hens hw rfl rfl ?_ (by simp only; rw [hr.size]; omega)
              simp only
              by_cases hc : d0.mapStart + (d0.tailBlock + 1) + 1 > d0.mapEnd
              · rw [if_pos hc]
                exact Or.inr ⟨by omega, rfl⟩
              · rw [if_neg hc]
                exact Or.inl rfl

theorem Sound.pushFront [Inhabited α] {d d1 : Deque α} {x : α} (h : Sound d)
    (e : PushFront d x = some d1) : Sound d1 := by
  have hs0 := h.size_nonneg
  unfold PushFront at e
  by_cases he : d.size = 0
  · have hemp : d.IsEmpty = true := by simp [IsEmpty, he]
    simp only [hemp, if_true] at e
    split at e
    · cases e
    · rename_i m hm
      cases e
      exact h.of_write hm rfl rfl rfl (by simp only; omega) (fun h0 => by simp only at h0; omega)
  · have hemp : d.IsEmpty = false := by simp [IsEmpty, he]
    simp only [hemp, Bool.false_eq_true, if_false] at e
    by_cases hto : d.headOffset > 0
    · simp only [hto, if_true] at e
      split at e
      · cases e
      · rename_i m hm
        cases e
        exact h.of_write hm rfl rfl rfl (by simp only; omega)
          (fun h0 => by simp only at h0; omega)
    · simp only [hto, if_false] at e
      split at e
      · cases e
      · rename_i d0 hg
        have hr : Regrown d d0 := by
          by_cases hgr : d.mapStart + d.headBlock - 1 < 0
          · rw [if_pos hgr] at hg
            obtain ⟨d0', e0, hr⟩ := h.regrown
            rw [hg] at e0
            cases e0
            exact hr
          · rw [if_neg hgr] at hg
            cases hg
            exact
              { mapLen := h.mapLen
                mapStart_nonneg := h.mapStart_nonneg
                mapEnd_le := h.mapEnd_le
                span := rfl
                blocks := h.blocks
                headBlock := rfl
                headOffset := rfl
                tailBlock := rfl
                tailOffset := rfl
                size := rfl
                kept := fun _ _ _ => rfl }
        split at e
        · cases e
        · split at e
          · cases e
          · rename_i hnb m2 hens
            split at e
            · cases e
            · rename_i m3 hw
              cases e
              exact h.of_regrown hr hens hw rfl rfl (Or.inl rfl)
                (by simp only; rw [hr.size]; omega)

theorem Sound.popFront [Inhabited α] {d d1 : Deque α} {r : α × Bool} (h : Sound d)
    (e : PopFront d = some (d1, r)) : Sound d1 := by
  have hs0 := h.size_nonneg
  unfold PopFront at e
  by_cases he : d.size = 0
  · have hemp : d.IsEmpty = true := by simp [IsEmpty, he]
    simp only [hemp, if_true] at e
    cases e
    exact h
  · have hemp : d.IsEmpty = false := by simp [IsEmpty, he]
    simp only [hemp, Bool.false_eq_true, if_false] at e
    split at e
    · cases e
    · split at e
      · cases e
      · rename_i m hm
        by_cases h1 : d.size = 1
        · rw [if_pos h1] at e
          cases e
          exact h.of_write hm rfl rfl rfl (le_refl _) (fun _ => ⟨rfl, rfl, rfl, rfl⟩)
        · rw [if_neg h1] at e
          split at e <;> cases e <;>
            exact h.of_write hm rfl rfl rfl (by simp only; omega)
              (fun h0 => by simp only at h0; omega)

theorem Sound.popBack [Inhabited α] {d d1 : Deque α} {r : α × Bool} (h : Sound d)
    (e : PopBack d = some (d1, r)) : Sound d1 := by
  have hs0 := h.size_nonneg
  unfold PopBack at e
  by_cases he : d.size = 0
  · have hemp : d.IsEmpty = true := by simp [IsEmpty, he]
    simp only [hemp, if_true] at e
    cases e
    exact h
  · have hemp : d.IsEmpty = false := by simp [IsEmpty, he]
    simp only [hemp, Bool.false_eq_true, if_false] at e
    split at e
    · cases e
    · split at e
      · cases e
      · rename_i m hm
        by_cases h1 : d.size = 1
        · rw [if_pos h1] at e
          cases e
          exact h.of_write hm rfl rfl rfl (le_refl _) (fun _ => ⟨rfl, rfl, rfl, rfl⟩)
        · rw [if_neg h1] at e
          split at e <;> cases e <;>
            exact h.of_write hm rfl rfl rfl (by simp only; omega)
              (fun h0 => by simp only at h0; omega)

theorem Sound.step [Inhabited α] {d d1 : Deque α} {op : Op α} {r : Option (α × Bool)}
    (h : Sound d) (e : step d op = some (d1, r)) : Sound d1 := by
  cases op with
  | pushBack x =>
    simp only [Deque.step] at e
    split at e
    · cases e
    · rename_i d2 h2
      cases e
      exact h.pushBack h2
  | pushFront x =>
    simp only [Deque.step] at e
    split at e
    · cases e
    · rename_i d2 h2
      cases e
      exact h.pushFront h2
  | popBack =>
    simp only [Deque.step] at e
    split at e
    · cases e
    · rename_i d2 a ok h2
      cases e
      exact h.popBack h2
  | popFront =>
    simp only [Deque.step] at e
    split at e
    · cases e
    · rename_i d2 a ok h2
      cases e
      exact h.popFront h2

/-- Every state a run of pushes and pops reaches from a sound state is sound. -/
theorem Sound.run [Inhabited α] (ops : List (Op α)) :
    ∀ (d d1 : Deque α) (outs : List (α × Bool)), Sound d → run d ops = some (d1, outs) →
      Sound d1 := by
  induction ops with
  | nil =>
    intro d d1 outs h e
    simp only [Deque.run, Option.some.injEq, Prod.mk.injEq] at e
    rw [← e.1]
    exact h
  | cons op ops ih =>
    intro d d1 outs h e
    unfold Deque.run at e
    split at e
    · cases e
    · rename_i d2 r h2
      split at e
      · cases e
      · rename_i d3 rs h3
        cases e
        exact ih d2 _ rs (h.step h2) h3

/-- `PushBack` on a sound empty state leaves one element that both `Front` and
`Back` return. -/
theorem Sound.pushBack_empty [Inhabited α] {d : Deque α} (h : Sound d) (he : d.size = 0)
    (x : α) :
    ∃ d1, PushBack d x = some d1 ∧ Front d1 = some (x, true) ∧ Back d1 = some (x, true) ∧
      Len d1 = 1 := by
  obtain ⟨a1, a2, a3, a4⟩ := h.empty_canon he
  have hf : AllocAt d.mapData (d.mapStart + d.tailBlock) := by
    rw [a2, add_zero]; exact h.first
  obtain ⟨m, hm⟩ := writeSlot_isSome x hf (by rw [a4]; simp [blockSize] : 0 ≤ d.tailOffset)
    (by rw [a4]; simp [blockSize] : d.tailOffset < blockSize)
  have hemp : d.IsEmpty = true := by simp [IsEmpty, he]
  have hrd := readSlot_writeSlot_same hm
  refine ⟨{ d with mapData := m, size := d.size + 1 }, ?_, ?_, ?_, ?_⟩
  · unfold PushBack
    simp only [hemp, if_true, hm]
  · unfold Front
    have hne : IsEmpty { d with mapData := m, size := d.size + 1 } = false := by
      simp [IsEmpty, he]
    simp only [hne, Bool.false_eq_true, if_false]
    rw [a1, a3, ← a2, ← a4, hrd]
  · unfold Back
    have hne : IsEmpty { d with mapData := m, size := d.size + 1 } = false := by
      simp [IsEmpty, he]
    simp only [hne, Bool.false_eq_true, if_false]
    rw [hrd]
  · simp [Len, he]

/-! ## `Resize` and `Equals` -/

theorem pushBackTimes_spec [Inhabited α] (v : α) :
    ∀ (n : Nat) (d : Deque α) (l : List α), WF d → InSpan d → Holds d l →
      ∃ d1, pushBackTimes d v n = some d1 ∧ WF d1 ∧ InSpan d1 ∧
        Holds d1 (l ++ List.replicate n v) := by
  intro n
  induction n with
  | zero => intro d l hwf hs hh; exact ⟨d, rfl, hwf, hs, by simpa using hh⟩
  | succ n ih =>
    intro d l hwf hs hh
    obtain ⟨d1, e1, w1, s1, h1⟩ := PushBack_spec d v l hwf hs hh
    obtain ⟨d2, e2, w2, s2, h2⟩ := ih d1 (l ++ [v]) w1 s1 h1
    refine ⟨d2, by simp only [pushBackTimes, e1, e2], w2, s2, ?_⟩
    rw [List.replicate_succ]
    simpa using h2

/-- `Resize` on a well-formed deque holding `l` whose live blocks lie in the
valid map range: growing appends copies of the fill value (the zero value when
none is passed), shrinking keeps a prefix, a negative size changes nothing. -/
theorem Resize_spec [Inhabited α] (d : Deque α) (l : List α) (hr : Rep d l) (hs : InSpan d)
    (fill : List α) :
    (∀ n : Nat, l.length ≤ n → ∃ d1, Resize d (n : Int) fill = some d1 ∧
      Rep d1 (l ++ List.replicate (n - l.length) (fill.headD default))) ∧
    (∀ n : Nat, n < l.length → ∃ d1, Resize d (n : Int) fill = some d1 ∧ Rep d1 (l.take n)) ∧
    (∀ n : Int, n < 0 → Resize d n fill = some d) := by
  have hsz : d.size = (l.length : Int) := hr.2.1
  refine ⟨?_, ?_, ?_⟩
  · intro n hn
    have h0 : ¬ ((n : Int) < 0) := by omega
    unfold Resize
    rw [if_neg h0]
    by_cases hgt : (n : Int) > d.size
    · rw [if_pos hgt]
      have hcnt : ((n : Int) - d.size).toNat = n - l.length := by omega
      simp only [hcnt]
      cases fill with
      | nil =>
        obtain ⟨d1, e1, w1, _, h1⟩ := pushBackTimes_spec (default : α) (n - l.length) d l
          hr.1 hs hr.2
        exact ⟨d1, e1, w1, h1⟩
      | cons v t =>
        obtain ⟨d1, e1, w1, _, h1⟩ := pushBackTimes_spec v (n - l.length) d l hr.1 hs hr.2
        exact ⟨d1, e1, w1, h1⟩
    · rw [if_neg hgt, if_neg (by omega)]
      have : n - l.length = 0 := by omega
      rw [this]
      exact ⟨d, rfl, by simpa using hr⟩
  · intro n hn
    have h0 : ¬ ((n : Int) < 0) := by omega
    unfold Resize
    rw [if_neg h0, if_neg (by omega), if_pos (by omega)]
    have hcnt : (d.size - (n : Int)).toNat = l.length - n := by omega
    have hsplit : l = l.take n ++ l.drop n := (List.take_append_drop _ _).symm
    have hr' : Rep d (l.take n ++ l.drop n) := by rw [← hsplit]; exact hr
    obtain ⟨d1, e1, hr1, _⟩ := popBackTimes_spec (l.length - n) d (l.take n) (l.drop n) hr'
      (by rw [List.length_drop])
    rw [hcnt]
    exact ⟨d1, e1, hr1⟩
  · intro n hn
    unfold Resize
    rw [if_pos hn]

/-- The comparison loop of `Equals` on two deques that hold `l1` and `l2`, when
`==` returns on every pair: it returns, and it returns true exactly when `==`
is true on every pair of elements at the same index of the range. -/
theorem equalsLoop_spec (eq : α → α → Option Bool) {d1 d2 : Deque α} {l1 l2 : List α}
    (h1 : Holds d1 l1) (h2 : Holds d2 l2) (htot : ∀ a c, ∃ r, eq a c = some r) :
    ∀ (n i : Nat), i + n ≤ l1.length → i + n ≤ l2.length →
      ∃ b, equalsLoop eq d1 d2 (i : Int) n = some b ∧
        (b = true ↔ ∀ j, i ≤ j → j < i + n →
          ∃ a c, l1[j]? = some a ∧ l2[j]? = some c ∧ eq a c = some true) := by
  intro n
  induction n with
  | zero =>
    intro i _ _
    exact ⟨true, rfl, by simp; intro j h1 h2; omega⟩
  | succ n ih =>
    intro i hi1 hi2
    have hil1 : i < l1.length := by omega
    have hil2 : i < l2.length := by omega
    have hc : ((i : Int) + 1) = ((i + 1 : Nat) : Int) := by omega
    obtain ⟨r, hr⟩ := htot (l1.get ⟨i, hil1⟩) (l2.get ⟨i, hil2⟩)
    simp only [equalsLoop, At_of_Holds h1 i hil1, At_of_Holds h2 i hil2, hc, hr]
    cases r with
    | true =>
      rw [if_neg (by simp)]
      obtain ⟨b, eb, hb⟩ := ih (i + 1) (by omega) (by omega)
      refine ⟨b, eb, hb.trans ⟨fun hj j hj1 hj2 => ?_,
        fun hj j hj1 hj2 => hj j (by omega) (by omega)⟩⟩
      by_cases hji : j = i
      · subst hji
        exact ⟨_, _, List.getElem?_eq_getElem hil1, List.getElem?_eq_getElem hil2, hr⟩
      · exact hj j (by omega) (by omega)
    | false =>
      rw [if_pos rfl]
      refine ⟨false, rfl, fun hf => (by cases hf), fun hj => ?_⟩
      obtain ⟨a, c, ea, ec, e⟩ := hj i (le_refl _) (by omega)
      rw [List.getElem?_eq_getElem hil1] at ea
      rw [List.getElem?_eq_getElem hil2] at ec
      cases ea
      cases ec
      have e2 : some false = some true := hr.symm.trans e
      cases e2

/-- `Equals` on two deques that hold `l1` and `l2`, when `==` returns on every
pair: it returns, and it returns true exactly when the lists have the same
length and `==` is true on every pair of elements at the same index. -/
theorem Equals_spec (eq : α → α → Option Bool) {d1 d2 : Deque α} {l1 l2 : List α}
    (h1 : Holds d1 l1) (h2 : Holds d2 l2) (htot : ∀ a c, ∃ r, eq a c = some r) :
    ∃ b, Equals eq d1 d2 = some b ∧
      (b = true ↔ l1.length = l2.length ∧ ∀ j, j < l1.length →
        ∃ a c, l1[j]? = some a ∧ l2[j]? = some c ∧ eq a c = some true) := by
  unfold Equals
  by_cases hs : d1.size = d2.size
  · rw [if_neg (by simpa using hs)]
    have hl : l1.length = l2.length := by
      have := h1.1; have := h2.1; omega
    have hn : d1.size.toNat = l1.length := by rw [h1.1]; simp
    rw [hn]
    obtain ⟨b, eb, hb⟩ := equalsLoop_spec eq h1 h2 htot l1.length 0 (by omega) (by omega)
    simp only [Nat.cast_zero] at eb
    refine ⟨b, eb, hb.trans ⟨fun h => ⟨hl, fun j hj => h j (by omega) (by omega)⟩,
      fun h j _ hj => h.2 j (by omega)⟩⟩
  · rw [if_pos (by simpa using hs)]
    refine ⟨false, rfl, fun hf => (by cases hf), fun h => ?_⟩
    exfalso
    apply hs
    rw [h1.1, h2.1, h.1]

/-- The comparison loop on two deques that hold the same list, when `==` is
true of every element of the list with itself. -/
theorem equalsLoop_same (eq : α → α → Option Bool) {d1 d2 : Deque α} {l : List α}
    (h1 : Holds d1 l) (h2 : Holds d2 l) (hrefl : ∀ a ∈ l, eq a a = some true) :
    ∀ (n i : Nat), i + n ≤ l.length → equalsLoop eq d1 d2 (i : Int) n = some true := by
  intro n
  induction n with
  | zero => intro i _; rfl
  | succ n ih =>
    intro i hi
    have hil : i < l.length := by omega
    have hc : ((i : Int) + 1) = ((i + 1 : Nat) : Int) := by omega
    have hr := hrefl (l.get ⟨i, hil⟩) (List.get_mem l i hil)
    simp only [equalsLoop, At_of_Holds h1 i hil, At_of_Holds h2 i hil, hc, hr]
    rw [if_neg (by simp)]
    exact ih (i + 1) (by omega)

/-- Two deques that hold the same list are `Equals` when `==` is true of every
element of the list with itself. -/
theorem Equals_of_Holds (eq : α → α → Option Bool) {d1 d2 : Deque α} {l : List α}
    (h1 : Holds d1 l) (h2 : Holds d2 l) (hrefl : ∀ a ∈ l, eq a a = some true) :
    Equals eq d1 d2 = some true := by
  have hs : ¬ d1.size ≠ d2.size := by rw [h1.1, h2.1]; simp
  have hn : d1.size.toNat = l.length := by rw [h1.1]; simp
  unfold Equals
  rw [if_neg hs, hn]
  have := equalsLoop_same eq h1 h2 hrefl l.length 0 (by omega)
  simpa using this

/-- The deque built by pushing one NaN is well-formed, holds the NaN, and is
not `Equals` to a deque that holds the same list: `NaN == NaN` is false. -/
theorem Equals_nan {d1 d2 : Deque GoFloat} (h1 : Holds d1 [GoFloat.nan])
    (h2 : Holds d2 [GoFloat.nan]) : Equals GoFloat.goEq d1 d2 = some false := by
  have a1 := h1.2 0 (by simp)
  have a2 := h2.2 0 (by simp)
  have s1 : d1.size = 1 := h1.1
  have s2 : d2.size = 1 := h2.1
  simp only [Nat.cast_zero, List.getElem?_cons_zero] at a1 a2
  unfold Equals
  rw [if_neg (by rw [s1, s2]; simp), s1]
  simp only [Int.toNat_one, equalsLoop, a1, a2, GoFloat.goEq, if_true]

/-! ## Structural operations on deques -/

/-- The deque built by pushing a list to the back of a new deque is well-formed,
holds the list, keeps its live blocks in the valid map range and still has its
head in the middle of the first block. -/
theorem pushBackAll_NewDeque [Inhabited α] (l : List α) :
    ∃ d : Deque α, pushBackAll NewDeque l = some d ∧ Rep d l ∧ InSpan d ∧ 0 < d.headOffset := by
  obtain ⟨d, e, w, s, hh, _, ho⟩ := pushBackAll_head l (NewDeque : Deque α) [] WF_NewDeque
    InSpan_NewDeque Holds_NewDeque
  rw [List.nil_append] at hh
  refine ⟨d, e, ⟨w, hh⟩, s, ?_⟩
  rw [ho]
  simp only [NewDeque, blockSize]
  omega

/-- C11: in every empty state that a run of pushes and pops reaches from
`NewDeque`, `PushBack(x)` succeeds and is followed by `Front() = (x, true)`,
`Back() = (x, true)` and `Len() = 1`. -/
theorem pushBack_after_drain [Inhabited α] (ops : List (Op α)) (d : Deque α)
    (outs : List (α × Bool)) (x : α) (hrun : run NewDeque ops = some (d, outs))
    (hemp : d.size = 0) :
    ∃ d1, PushBack d x = some d1 ∧ Front d1 = some (x, true) ∧ Back d1 = some (x, true) ∧
      Len d1 = 1 :=
  (Sound.run ops NewDeque d outs WF_NewDeque.sound hrun).pushBack_empty hemp x

/-- C11 witness: the deque drained by `PushBack 1, PushBack 2, PopBack,
PopFront`. -/
theorem pushBack_after_drain_witness :
    ∃ d d1 : Deque Nat,
      run NewDeque [Op.pushBack 1, Op.pushBack 2, Op.popBack, Op.popFront] =
        some (d, [(2, true), (1, true)]) ∧
      d.size = 0 ∧ PushBack d 7 = some d1 ∧ Front d1 = some (7, true) ∧
      Back d1 = some (7, true) ∧ Len d1 = 1 := by
  obtain ⟨d, e, _, _, hh⟩ := run_refines
    [Op.pushBack 1, Op.pushBack 2, Op.popBack, Op.popFront] (NewDeque : Deque Nat) []
    WF_NewDeque InSpan_NewDeque Holds_NewDeque (by decide)
  obtain ⟨d1, e1, hf, hb, hl⟩ := pushBack_after_drain
    [Op.pushBack 1, Op.pushBack 2, Op.popBack, Op.popFront] d _ 7 e hh.1
  exact ⟨d, d1, e, hh.1, e1, hf, hb, hl⟩

/-- C15: on the deque built by pushing `l` to the back of a new deque,
`Insert(i, x)` with `0 ≤ i ≤ len l` returns true and leaves `Len() = len l + 1`
and `ToSlice() = l[0..i) ++ [x] ++ l[i..]`, by whichever of its four paths. -/
theorem insert_on_pushed_deque [Inhabited α] (l : List α) (i : Int) (x : α) (h0 : 0 ≤ i)
    (h1 : i ≤ (l.length : Int)) :
    ∃ d d1 : Deque α, pushBackAll NewDeque l = some d ∧ Insert d i x = some (d1, true) ∧
      Len d1 = (l.length : Int) + 1 ∧
      ToSlice d1 = some (l.take i.toNat ++ [x] ++ l.drop i.toNat) := by
  obtain ⟨d, e, hr, hs, hroom⟩ := pushBackAll_NewDeque l
  obtain ⟨d1, e1, hr1⟩ := Insert_spec d l x i.toNat hr hs hroom (by omega)
  rw [Int.toNat_of_nonneg h0] at e1
  refine ⟨d, d1, e, e1, ?_, ToSlice_of_Holds hr1.2⟩
  rw [Len, hr1.2.1, length_insertAt l i.toNat x (by omega)]
  simp

/-- C15 witness: `Insert(5, 99)` into `[0, ..., 9]`. -/
theorem insert_on_pushed_deque_witness :
    ∃ d d1 : Deque Nat, pushBackAll NewDeque [0, 1, 2, 3, 4, 5, 6, 7, 8, 9] = some d ∧
      Insert d 5 99 = some (d1, true) ∧ Len d1 = 11 ∧
      ToSlice d1 = some [0, 1, 2, 3, 4, 99, 5, 6, 7, 8, 9] := by
  obtain ⟨d, d1, e, e1, hl, ht⟩ := insert_on_pushed_deque [0, 1, 2, 3, 4, 5, 6, 7, 8, 9] 5 99
    (by decide) (by decide)
  exact ⟨d, d1, e, e1, hl, ht⟩

/-- C16: on a well-formed deque holding `l`, `Erase(b, e)` with
`0 ≤ b < e ≤ len l` returns true and leaves a well-formed deque with
`Len() = len l - (e - b)` that holds `l[0..b) ++ l[e..]`, by either shift
direction, also when the whole deque is erased. -/
theorem erase_removes_range [Inhabited α] (d : Deque α) (l : List α) (hr : Rep d l) (b e : Int)
    (h0 : 0 ≤ b) (h1 : b < e) (h2 : e ≤ (l.length : Int)) :
    ∃ d1, Erase d b e = some (d1, true) ∧ Len d1 = (l.length : Int) - (e - b) ∧
      Rep d1 (l.take b.toNat ++ l.drop e.toNat) ∧
      ToSlice d1 = some (l.take b.toNat ++ l.drop e.toNat) := by
  obtain ⟨d1, e1, hr1⟩ := Erase_spec d l hr b.toNat e.toNat (by omega) (by omega)
  rw [Int.toNat_of_nonneg h0, Int.toNat_of_nonneg (by omega)] at e1
  refine ⟨d1, e1, ?_, hr1, ToSlice_of_Holds hr1.2⟩
  rw [Len, hr1.2.1, List.length_append, List.length_take_of_le (by omega), List.length_drop]
  omega

/-- C16 witness: `Erase(2, 4)` on `[0, ..., 9]`, and erasing all of it. -/
theorem erase_removes_range_witness :
    ∃ d d1 d2 : Deque Nat, pushBackAll NewDeque [0, 1, 2, 3, 4, 5, 6, 7, 8, 9] = some d ∧
      Erase d 2 4 = some (d1, true) ∧ ToSlice d1 = some [0, 1, 4, 5, 6, 7, 8, 9] ∧
      Erase d 0 10 = some (d2, true) ∧ Len d2 = 0 := by
  obtain ⟨d, e, hr, _, _⟩ := pushBackAll_NewDeque ([0, 1, 2, 3, 4, 5, 6, 7, 8, 9] : List Nat)
  obtain ⟨d1, e1, _, _, ht⟩ := erase_removes_range d _ hr 2 4 (by decide) (by decide)
    (by decide)
  obtain ⟨d2, e2, hl, _, _⟩ := erase_removes_range d _ hr 0 10 (by decide) (by decide)
    (by decide)
  exact ⟨d, d1, d2, e, e1, ht, e2, hl⟩

/-- C17: on the deque built by pushing `l` to the back of a new deque,
`Resize(n, v)` with `n ≥ len l` gives `ToSlice() = l` followed by `n - len l`
copies of `v`, of the zero value when no fill value is passed; `Resize(n)` with
`0 ≤ n < len l` gives the first `n` elements of `l`; `Resize(n)` with `n < 0`
returns the state unchanged. -/
theorem resize_on_pushed_deque [Inhabited α] (l : List α) :
    ∃ d : Deque α, pushBackAll NewDeque l = some d ∧
      (∀ (n : Int) (v : α), (l.length : Int) ≤ n → ∃ d1, Resize d n [v] = some d1 ∧
        ToSlice d1 = some (l ++ List.replicate (n - (l.length : Int)).toNat v)) ∧
      (∀ n : Int, (l.length : Int) ≤ n → ∃ d1, Resize d n [] = some d1 ∧
        ToSlice d1 = some (l ++ List.replicate (n - (l.length : Int)).toNat default)) ∧
      (∀ (n : Int) (fill : List α), 0 ≤ n → n < (l.length : Int) →
        ∃ d1, Resize d n fill = some d1 ∧ ToSlice d1 = some (l.take n.toNat)) ∧
      (∀ (n : Int) (fill : List α), n < 0 → Resize d n fill = some d) := by
  obtain ⟨d, e, hr, hs, _⟩ := pushBackAll_NewDeque l
  refine ⟨d, e, ?_, ?_, ?_, ?_⟩
  · intro n v hn
    obtain ⟨d1, e1, hr1⟩ := (Resize_spec d l hr hs [v]).1 n.toNat (by omega)
    rw [Int.toNat_of_nonneg (by omega)] at e1
    have hc : (n - (l.length : Int)).toNat = n.toNat - l.length := by omega
    rw [hc]
    exact ⟨d1, e1, ToSlice_of_Holds hr1.2⟩
  · intro n hn
    obtain ⟨d1, e1, hr1⟩ := (Resize_spec d l hr hs []).1 n.toNat (by omega)
    rw [Int.toNat_of_nonneg (by omega)] at e1
    have hc : (n - (l.length : Int)).toNat = n.toNat - l.length := by omega
    rw [hc]
    exact ⟨d1, e1, ToSlice_of_Holds hr1.2⟩
  · intro n fill hn0 hn
    obtain ⟨d1, e1, hr1⟩ := (Resize_spec d l hr hs fill).2.1 n.toNat (by omega)
    rw [Int.toNat_of_nonneg hn0] at e1
    exact ⟨d1, e1, ToSlice_of_Holds hr1.2⟩
  · intro n fill hn
    exact (Resize_spec d l hr hs fill).2.2 n hn

theorem valueEq_iff [DecidableEq α] (a c : α) : valueEq a c = some true ↔ a = c := by
  simp [valueEq]

/-- C18 (counterexample): the deque holding one `float64` NaN is well-formed,
its `ToSlice` is `[NaN]`, and the deque rebuilt by pushing that slice is not
`Equals` to it, because `NaN == NaN` is false. -/
theorem rebuilt_nan_not_equals :
    ∃ (d d1 : Deque GoFloat), pushBackAll NewDeque [GoFloat.nan] = some d ∧ WF d ∧
      ToSlice d = some [GoFloat.nan] ∧ pushBackAll NewDeque [GoFloat.nan] = some d1 ∧
      Equals GoFloat.goEq d d1 = some false := by
  obtain ⟨d, e, r, _, _⟩ := pushBackAll_NewDeque [GoFloat.nan]
  exact ⟨d, d, e, r.1, ToSlice_of_Holds r.2, e, Equals_nan r.2 r.2⟩

/-- C18 (amended): for every well-formed deque `d` over a comparable element
type whose `==` is true of every element of `d` with itself, `ToSlice` succeeds
and the deque rebuilt by pushing that slice to the back of a new deque is
`Equals` to `d`. -/
theorem rebuilt_from_slice_equals [Inhabited α] (eq : α → α → Option Bool) (d : Deque α)
    (hwf : WF d)
    (hrefl : ∀ (i : Int) (a : α), 0 ≤ i → i < Len d → At d i = some a → eq a a = some true) :
    ∃ (l : List α) (d1 : Deque α), ToSlice d = some l ∧ pushBackAll NewDeque l = some d1 ∧
      Equals eq d d1 = some true := by
  obtain ⟨l, hh⟩ := hwf.exists_Holds
  obtain ⟨d1, e1, hr1, _, _⟩ := pushBackAll_NewDeque l
  refine ⟨l, d1, ToSlice_of_Holds hh, e1, Equals_of_Holds eq hh hr1.2 ?_⟩
  intro a ha
  obtain ⟨i, hi, hia⟩ := List.getElem_of_mem ha
  have hat := At_of_Holds hh i hi
  rw [List.get_eq_getElem, hia] at hat
  exact hrefl (i : Int) a (by omega) (by unfold Len; rw [hh.1]; omega) hat

/-- C18 witness: the deque of integers after `PushBack 1, PushBack 2, PopFront,
PushBack 3`, whose head is not where a rebuilt deque has it. -/
theorem rebuilt_from_slice_equals_witness :
    ∃ (d d1 : Deque Nat) (l : List Nat),
      run NewDeque [Op.pushBack 1, Op.pushBack 2, Op.popFront, Op.pushBack 3] =
        some (d, [(1, true)]) ∧
      ToSlice d = some l ∧ pushBackAll NewDeque l = some d1 ∧
      Equals valueEq d d1 = some true := by
  obtain ⟨d, e, w, _, _⟩ := run_refines
    [Op.pushBack 1, Op.pushBack 2, Op.popFront, Op.pushBack (3 : Nat)] NewDeque []
    WF_NewDeque InSpan_NewDeque Holds_NewDeque (by decide)
  obtain ⟨l, d1, e1, e2, e3⟩ := rebuilt_from_slice_equals valueEq d w
    (fun _ a _ _ _ => (valueEq_iff a a).mpr rfl)
  exact ⟨d, d1, l, e, e1, e2, e3⟩

/-- C19: on a well-formed deque holding `[a0, ..., a(n-1)]`, `Reverse` leaves
a well-formed deque of the same size with `At(i) = a(n-1-i)` for every `i < n`
(the middle element of an odd-sized deque included), and the state itself when
`n ≤ 1`. -/
theorem reverse_reverses (d : Deque α) (l : List α) (hr : Rep d l) :
    ∃ d1, Reverse d = some d1 ∧ WF d1 ∧ d1.size = (l.length : Int) ∧
      (∀ i : Nat, i < l.length → At d1 (i : Int) = l[l.length - 1 - i]?) ∧
      (l.length ≤ 1 → d1 = d) := by
  obtain ⟨d1, e1, hr1, hsame⟩ := Reverse_spec d l hr
  refine ⟨d1, e1, hr1.1, by rw [hr1.2.1, List.length_reverse], fun i hi => ?_, hsame⟩
  rw [hr1.2.2 i (by rw [List.length_reverse]; exact hi), List.getElem?_reverse hi]

/-- C19 witness: reversing the deque that holds `[7, 8, 9]`. -/
theorem reverse_reverses_witness :
    ∃ d d1 : Deque Nat, pushBackAll NewDeque [7, 8, 9] = some d ∧ Reverse d = some d1 ∧
      At d1 0 = some 9 ∧ At d1 1 = some 8 ∧ At d1 2 = some 7 := by
  obtain ⟨d, e, hr, _, _⟩ := pushBackAll_NewDeque ([7, 8, 9] : List Nat)
  obtain ⟨d1, e1, _, _, ha, _⟩ := reverse_reverses d _ hr
  exact ⟨d, d1, e, e1, ha 0 (by decide), ha 1 (by decide), ha 2 (by decide)⟩

/-- C20: on a well-formed deque holding `l`, two `Reverse` calls in a row
succeed and leave a well-formed deque that again holds `l`. -/
theorem reverse_twice_restores (d : Deque α) (l : List α) (hr : Rep d l) :
    ∃ d1 d2, Reverse d = some d1 ∧ Reverse d1 = some d2 ∧ Rep d2 l := by
  obtain ⟨d1, e1, hr1, _⟩ := Reverse_spec d l hr
  obtain ⟨d2, e2, hr2, _⟩ := Reverse_spec d1 l.reverse hr1
  rw [List.reverse_reverse] at hr2
  exact ⟨d1, d2, e1, e2, hr2⟩

/-- C20 witness: reversing twice the deque that holds `[7, 8, 9, 10]`. -/
theorem reverse_twice_restores_witness :
    ∃ d d1 d2 : Deque Nat, pushBackAll NewDeque [7, 8, 9, 10] = some d ∧
      Reverse d = some d1 ∧ Reverse d1 = some d2 ∧ ToSlice d2 = some [7, 8, 9, 10] := by
  obtain ⟨d, e, hr, _, _⟩ := pushBackAll_NewDeque ([7, 8, 9, 10] : List Nat)
  obtain ⟨d1, d2, e1, e2, hr2⟩ := reverse_twice_restores d _ hr
  exact ⟨d, d1, d2, e, e1, e2, ToSlice_of_Holds hr2.2⟩

/-! ## `Clone`, `Equals`, `IndexOf`, `Contains`, `Swap`, `Clear`, `NewDeque` -/

/-- The loop of `Clone` pushes the elements `l[i], ..., l[i+n-1]` of the held
list to the back of the clone. -/
theorem cloneLoop_eq [Inhabited α] {d : Deque α} {l : List α} (h : Holds d l) :
    ∀ (n i : Nat) (c : Deque α), i + n ≤ l.length →
      cloneLoop d c (i : Int) n = pushBackAll c ((l.drop i).take n) := by
  intro n
  induction n with
  | zero => intro i c _; simp [cloneLoop, pushBackAll]
  | succ n ih =>
    intro i c hi
    have hil : i < l.length := by omega
    have hc : ((i : Int) + 1) = ((i + 1 : Nat) : Int) := by omega
    have hd : l.drop i = l.get ⟨i, hil⟩ :: l.drop (i + 1) := by
      simp
    rw [hd, List.take_succ_cons]
    simp only [cloneLoop, At_of_Holds h i hil, pushBackAll, hc]
    cases PushBack c (l.get ⟨i, hil⟩) with
    | none => rfl
    | some c1 => exact ih (i + 1) c1 (by omega)

/-- `Clone` of a deque holding `l` is `pushBackAll NewDeque l`. -/
theorem Clone_eq [Inhabited α] {d : Deque α} {l : List α} (h : Holds d l) :
    Clone d = pushBackAll NewDeque l := by
  have hn : d.size.toNat = l.length := by rw [h.1]; simp
  unfold Clone
  rw [hn]
  have := cloneLoop_eq h l.length 0 NewDeque (by omega)
  simpa using this

theorem Holds_ext {d1 d2 : Deque α} {l1 l2 : List α} (h1 : Holds d1 l1) (h2 : Holds d2 l2) :
    l1 = l2 ↔ (Len d1 = Len d2 ∧ ∀ i : Int, 0 ≤ i → i < Len d1 → At d1 i = At d2 i) := by
  unfold Len
  constructor
  · intro hll
    subst hll
    refine ⟨by rw [h1.1, h2.1], fun i h0 hi => ?_⟩
    have hi2 : i.toNat < l1.length := by have := h1.1; omega
    have e1 := h1.2 i.toNat hi2
    have e2 := h2.2 i.toNat hi2
    rw [Int.toNat_of_nonneg h0] at e1 e2
    rw [e1, e2]
  · rintro ⟨hs, ha⟩
    have hl : l1.length = l2.length := by
      have := h1.1; have := h2.1; omega
    apply ext_of_getElem?_lt hl
    intro j hj
    rw [← h1.2 j hj, ← h2.2 j (by omega)]
    exact ha j (by omega) (by have := h1.1; omega)

/-- The scans of `IndexOf` and `Contains` on a deque that holds `l`, when `==`
returns on every pair. -/
theorem indexOfLoop_spec (eq : α → α → Option Bool) {d : Deque α} {l : List α} (h : Holds d l)
    (e : α) (htot : ∀ a c, ∃ r, eq a c = some r) :
    ∀ (n i : Nat), i + n ≤ l.length →
      ∃ r : Int, indexOfLoop eq d e (i : Int) n = some r ∧
        containsLoop eq d e (i : Int) n = some (decide (r ≠ -1)) ∧
        ((r = -1 ∧ ∀ j, i ≤ j → j < i + n → ∃ a, l[j]? = some a ∧ eq a e = some false) ∨
          (∃ k : Nat, r = (k : Int) ∧ i ≤ k ∧ k < i + n ∧
            (∃ a, l[k]? = some a ∧ eq a e = some true) ∧
            ∀ j, i ≤ j → j < k → ∃ a, l[j]? = some a ∧ eq a e = some false)) := by
  intro n
  induction n with
  | zero =>
    intro i _
    exact ⟨-1, rfl, rfl, Or.inl ⟨rfl, fun j h1 h2 => by omega⟩⟩
  | succ n ih =>
    intro i hi
    have hil : i < l.length := by omega
    have hc : ((i : Int) + 1) = ((i + 1 : Nat) : Int) := by omega
    obtain ⟨b, hb⟩ := htot (l.get ⟨i, hil⟩) e
    simp only [indexOfLoop, containsLoop, At_of_Holds h i hil, hc, hb]
    cases b with
    | true =>
      rw [if_pos rfl, if_pos rfl]
      have hne : (i : Int) ≠ -1 := by omega
      refine ⟨(i : Int), rfl, by rw [decide_eq_true hne], Or.inr ⟨i, rfl, le_refl _, by omega,
        ⟨_, List.getElem?_eq_getElem hil, hb⟩, fun j h1 h2 => by omega⟩⟩
    | false =>
      rw [if_neg (by simp), if_neg (by simp)]
      obtain ⟨r, e1, e2, hr⟩ := ih (i + 1) (by omega)
      refine ⟨r, e1, e2, ?_⟩
      have hi0 : ∃ a, l[i]? = some a ∧ eq a e = some false :=
        ⟨_, List.getElem?_eq_getElem hil, hb⟩
      rcases hr with ⟨hr1, hr2⟩ | ⟨k, hk1, hk2, hk3, hk4, hk5⟩
      · refine Or.inl ⟨hr1, fun j h1 h2 => ?_⟩
        by_cases hji : j = i
        · subst hji; exact hi0
        · exact hr2 j (by omega) (by omega)
      · refine Or.inr ⟨k, hk1, by omega, by omega, hk4, fun j h1 h2 => ?_⟩
        by_cases hji : j = i
        · subst hji; exact hi0
        · exact hk5 j (by omega) h2

/-- C22 (counterexample): two well-formed deques that both hold the one-element
list `[NaN]` have the same length, the same `At(i)` at every index and the same
contents, and `Equals` returns false on them, because `NaN == NaN` is false. -/
theorem equals_false_on_same_list :
    ∃ d1 d2 : Deque GoFloat, pushBackAll NewDeque [GoFloat.nan] = some d1 ∧
      pushBackAll NewDeque [GoFloat.nan] = some d2 ∧ WF d1 ∧ WF d2 ∧
      Holds d1 [GoFloat.nan] ∧ Holds d2 [GoFloat.nan] ∧ Len d1 = Len d2 ∧
      (∀ i : Int, 0 ≤ i → i < Len d1 → At d1 i = At d2 i) ∧
      Equals GoFloat.goEq d1 d2 = some false := by
  obtain ⟨d, e, r, _, _⟩ := pushBackAll_NewDeque [GoFloat.nan]
  exact ⟨d, d, e, e, r.1, r.1, r.2, r.2, rfl, fun _ _ _ => rfl, Equals_nan r.2 r.2⟩

/-- C22 (amended): for well-formed deques `d1`, `d2` over a comparable element
type whose `==` returns on every pair, `Equals` returns, and it returns true
exactly when `Len(d1) = Len(d2)` and `At(d1, i) == At(d2, i)` for every
`0 ≤ i < Len(d1)`, whatever the internal layouts; when `==` is equality of
values, that is exactly when every `At(d1, i)` is `At(d2, i)`, and exactly when
the two deques hold the same list. -/
theorem equals_iff_same_contents (eq : α → α → Option Bool) (d1 d2 : Deque α) (h1 : WF d1)
    (h2 : WF d2) (htot : ∀ a c, ∃ r, eq a c = some r) :
    ∃ b, Equals eq d1 d2 = some b ∧
      (b = true ↔ (Len d1 = Len d2 ∧ ∀ i : Int, 0 ≤ i → i < Len d1 →
        ∃ a c, At d1 i = some a ∧ At d2 i = some c ∧ eq a c = some true)) ∧
      ((∀ a c, eq a c = some true ↔ a = c) →
        (b = true ↔ (Len d1 = Len d2 ∧ ∀ i : Int, 0 ≤ i → i < Len d1 → At d1 i = At d2 i)) ∧
        ∀ l1 l2, Holds d1 l1 → Holds d2 l2 → (b = true ↔ l1 = l2)) := by
  obtain ⟨l1, hh1⟩ := h1.exists_Holds
  obtain ⟨l2, hh2⟩ := h2.exists_Holds
  obtain ⟨b, eb, hb⟩ := Equals_spec eq hh1 hh2 htot
  have hs1 := hh1.1
  have hs2 := hh2.1
  have hat1 : ∀ i : Int, 0 ≤ i → i < d1.size → At d1 i = l1[i.toNat]? := by
    intro i h0 hi
    have := hh1.2 i.toNat (by omega)
    rwa [Int.toNat_of_nonneg h0] at this
  have hat2 : ∀ i : Int, 0 ≤ i → i < d2.size → At d2 i = l2[i.toNat]? := by
    intro i h0 hi
    have := hh2.2 i.toNat (by omega)
    rwa [Int.toNat_of_nonneg h0] at this
  have hel : b = true ↔ (Len d1 = Len d2 ∧ ∀ i : Int, 0 ≤ i → i < Len d1 →
      ∃ a c, At d1 i = some a ∧ At d2 i = some c ∧ eq a c = some true) := by
    unfold Len
    refine hb.trans ⟨fun h => ⟨by omega, fun i h0 hi => ?_⟩, fun h => ⟨by omega, fun j hj => ?_⟩⟩
    · rw [hat1 i h0 hi, hat2 i h0 (by omega)]
      exact h.2 i.toNat (by omega)
    · have := h.2 (j : Int) (by omega) (by omega)
      rw [hh1.2 j hj, hh2.2 j (by omega)] at this
      exact this
  have hlist : (∀ a c, eq a c = some true ↔ a = c) → (b = true ↔ l1 = l2) := by
    intro hlaw
    refine hb.trans ⟨fun h => ?_, fun h => ?_⟩
    · apply ext_of_getElem?_lt h.1
      intro j hj
      obtain ⟨a, c, ea, ec, e⟩ := h.2 j hj
      rw [ea, ec, (hlaw a c).mp e]
    · subst h
      refine ⟨rfl, fun j hj => ⟨_, _, List.getElem?_eq_getElem hj, List.getElem?_eq_getElem hj,
        (hlaw _ _).mpr rfl⟩⟩
  refine ⟨b, eb, hel, fun hlaw => ⟨(hlist hlaw).trans (Holds_ext hh1 hh2), ?_⟩⟩
  intro k1 k2 hk1 hk2
  have e1 : k1 = l1 := (Holds_ext hk1 hh1).mpr ⟨rfl, fun _ _ _ => rfl⟩
  have e2 : k2 = l2 := (Holds_ext hk2 hh2).mpr ⟨rfl, fun _ _ _ => rfl⟩
  rw [e1, e2]
  exact hlist hlaw

/-- C22 witness: the deque of integers after `PushBack 1, PushBack 2, PopFront,
PushBack 3` and the deque built by pushing `2, 3`, which hold the same list at
different head positions; `==` on integers is equality of values. -/
theorem equals_iff_same_contents_witness :
    ∃ (d1 d2 : Deque Nat),
      run NewDeque [Op.pushBack 1, Op.pushBack 2, Op.popFront, Op.pushBack 3] =
        some (d1, [(1, true)]) ∧
      pushBackAll NewDeque [2, 3] = some d2 ∧ WF d1 ∧ WF d2 ∧
      (∀ a c : Nat, valueEq a c = some true ↔ a = c) ∧
      ∃ b, Equals valueEq d1 d2 = some b ∧
        (b = true ↔ (Len d1 = Len d2 ∧ ∀ i : Int, 0 ≤ i → i < Len d1 →
          ∃ a c, At d1 i = some a ∧ At d2 i = some c ∧ valueEq a c = some true)) ∧
        ((∀ a c : Nat, valueEq a c = some true ↔ a = c) →
          (b = true ↔ (Len d1 = Len d2 ∧ ∀ i : Int, 0 ≤ i → i < Len d1 → At d1 i = At d2 i)) ∧
          ∀ l1 l2, Holds d1 l1 → Holds d2 l2 → (b = true ↔ l1 = l2)) := by
  obtain ⟨d1, e1, w1, _, _⟩ := run_refines
    [Op.pushBack 1, Op.pushBack 2, Op.popFront, Op.pushBack (3 : Nat)] NewDeque []
    WF_NewDeque InSpan_NewDeque Holds_NewDeque (by decide)
  obtain ⟨d2, e2, r2, _, _⟩ := pushBackAll_NewDeque [2, (3 : Nat)]
  exact ⟨d1, d2, e1, e2, w1, r2.1, valueEq_iff,
    equals_iff_same_contents valueEq d1 d2 w1 r2.1 (fun _ _ => ⟨_, rfl⟩)⟩

/-- C23 (counterexample): on the well-formed deque holding the one `float64`
NaN, `At(0)` is the NaN, yet `IndexOf(d, NaN)` returns `-1` and
`Contains(d, NaN)` returns false, because `NaN == NaN` is false. -/
theorem indexOf_misses_nan :
    ∃ d : Deque GoFloat, pushBackAll NewDeque [GoFloat.nan] = some d ∧ WF d ∧ Len d = 1 ∧
      At d 0 = some GoFloat.nan ∧ IndexOf GoFloat.goEq d GoFloat.nan = some (-1) ∧
      Contains GoFloat.goEq d GoFloat.nan = some false := by
  obtain ⟨d, e, r, _, _⟩ := pushBackAll_NewDeque [GoFloat.nan]
  have a1 := r.2.2 0 (by simp)
  have s1 : d.size = 1 := r.2.1
  simp only [Nat.cast_zero, List.getElem?_cons_zero] at a1
  refine ⟨d, e, r.1, s1, a1, ?_, ?_⟩
  · unfold IndexOf
    rw [s1]
    simp only [Int.toNat_one, indexOfLoop, a1, GoFloat.goEq, Bool.false_eq_true, if_false]
  · unfold Contains
    rw [s1]
    simp only [Int.toNat_one, containsLoop, a1, GoFloat.goEq, Bool.false_eq_true, if_false]

/-- C23 (amended): on a well-formed deque over a comparable element type whose
`==` returns on every pair, `IndexOf(d, e)` returns the least index `i` in
`0 ≤ i < Len()` with `At(i) == e`, and `-1` when there is none;
`Contains(d, e)` returns true exactly when `IndexOf(d, e)` is not `-1`, so
false on the empty deque; when `==` is equality of values, the index returned
is the least one with `At(i) = e`. -/
theorem indexOf_is_least_index (eq : α → α → Option Bool) (d : Deque α) (e : α) (hwf : WF d)
    (htot : ∀ a c, ∃ r, eq a c = some r) :
    ∃ r : Int, IndexOf eq d e = some r ∧ Contains eq d e = some (decide (r ≠ -1)) ∧
      ((r = -1 ∧ ∀ i : Int, 0 ≤ i → i < Len d → ∃ a, At d i = some a ∧ eq a e = some false) ∨
        (0 ≤ r ∧ r < Len d ∧ (∃ a, At d r = some a ∧ eq a e = some true) ∧
          ∀ i : Int, 0 ≤ i → i < r → ∃ a, At d i = some a ∧ eq a e = some false)) ∧
      (Len d = 0 → r = -1 ∧ Contains eq d e = some false) ∧
      ((∀ a c, eq a c = some true ↔ a = c) →
        (r = -1 ∧ ∀ i : Int, 0 ≤ i → i < Len d → At d i ≠ some e) ∨
        (0 ≤ r ∧ r < Len d ∧ At d r = some e ∧
          ∀ i : Int, 0 ≤ i → i < r → At d i ≠ some e)) := by
  obtain ⟨l, hh⟩ := hwf.exists_Holds
  have hn : d.size.toNat = l.length := by rw [hh.1]; simp
  have hsz := hh.1
  obtain ⟨r, e1, e2, hr⟩ := indexOfLoop_spec eq hh e htot l.length 0 (by omega)
  simp only [Nat.cast_zero] at e1 e2
  have hat : ∀ i : Int, 0 ≤ i → i < d.size → At d i = l[i.toNat]? := by
    intro i h0 h1
    have := hh.2 i.toNat (by omega)
    rwa [Int.toNat_of_nonneg h0] at this
  have hcases : (r = -1 ∧ ∀ i : Int, 0 ≤ i → i < Len d →
        ∃ a, At d i = some a ∧ eq a e = some false) ∨
      (0 ≤ r ∧ r < Len d ∧ (∃ a, At d r = some a ∧ eq a e = some true) ∧
        ∀ i : Int, 0 ≤ i → i < r → ∃ a, At d i = some a ∧ eq a e = some false) := by
    unfold Len
    rcases hr with ⟨hr1, hr2⟩ | ⟨k, hk1, hk2, hk3, hk4, hk5⟩
    · refine Or.inl ⟨hr1, fun i h0 h1 => ?_⟩
      rw [hat i h0 h1]
      exact hr2 i.toNat (by omega) (by omega)
    · refine Or.inr ⟨by omega, by omega, ?_, fun i h0 h1 => ?_⟩
      · rw [hk1, hh.2 k (by omega)]
        exact hk4
      · rw [hat i h0 (by omega)]
        exact hk5 i.toNat (by omega) (by omega)
  have hfalse : ∀ a, eq a e = some false → (∀ a c, eq a c = some true ↔ a = c) → a ≠ e := by
    intro a ha hlaw hae
    have := (hlaw a e).mpr hae
    rw [ha] at this
    cases this
  refine ⟨r, by unfold IndexOf; rw [hn]; exact e1, by unfold Contains; rw [hn]; exact e2,
    hcases, fun h0 => ?_, fun hlaw => ?_⟩
  · unfold Len at h0
    have hr1 : r = -1 := by
      rcases hcases with ⟨a, _⟩ | ⟨a, b, _⟩
      · exact a
      · unfold Len at b; omega
    refine ⟨hr1, ?_⟩
    unfold Contains
    rw [hn, e2, hr1]
    rfl
  · rcases hcases with ⟨c1, c2⟩ | ⟨c1, c2, ⟨a, c3, c4⟩, c5⟩
    · refine Or.inl ⟨c1, fun i h0 h1 hi => ?_⟩
      obtain ⟨a, ha, hae⟩ := c2 i h0 h1
      rw [ha] at hi
      exact hfalse a hae hlaw (Option.some.inj hi)
    · refine Or.inr ⟨c1, c2, ?_, fun i h0 h1 hi => ?_⟩
      · rw [c3, (hlaw a e).mp c4]
      · obtain ⟨a1, ha, hae⟩ := c5 i h0 h1
        rw [ha] at hi
        exact hfalse a1 hae hlaw (Option.some.inj hi)

/-- C23 witness: the deque of integers built by pushing `5, 7, 5`, searched for
`5`; `==` on integers is equality of values. -/
theorem indexOf_is_least_index_witness :
    ∃ d : Deque Nat, pushBackAll NewDeque [5, 7, 5] = some d ∧ WF d ∧
      (∀ a c : Nat, valueEq a c = some true ↔ a = c) ∧
      ∃ r : Int, IndexOf valueEq d 5 = some r ∧ Contains valueEq d 5 = some (decide (r ≠ -1)) ∧
        ((r = -1 ∧ ∀ i : Int, 0 ≤ i → i < Len d →
            ∃ a, At d i = some a ∧ valueEq a 5 = some false) ∨
          (0 ≤ r ∧ r < Len d ∧ (∃ a, At d r = some a ∧ valueEq a 5 = some true) ∧
            ∀ i : Int, 0 ≤ i → i < r → ∃ a, At d i = some a ∧ valueEq a 5 = some false)) ∧
        (Len d = 0 → r = -1 ∧ Contains valueEq d 5 = some false) ∧
        ((∀ a c : Nat, valueEq a c = some true ↔ a = c) →
          (r = -1 ∧ ∀ i : Int, 0 ≤ i → i < Len d → At d i ≠ some 5) ∨
          (0 ≤ r ∧ r < Len d ∧ At d r = some 5 ∧
            ∀ i : Int, 0 ≤ i → i < r → At d i ≠ some 5)) := by
  obtain ⟨d, e, r, _, _⟩ := pushBackAll_NewDeque [5, 7, (5 : Nat)]
  exact ⟨d, e, r.1, valueEq_iff, indexOf_is_least_index valueEq d 5 r.1 (fun _ _ => ⟨_, rfl⟩)⟩

/-- C24: `Swap` on deques holding the states `s1` and `s2` leaves the first
holding exactly `s2` and the second exactly `s1` (map, map bounds, cursors and
size), so `Len` and every `At(i)` are exchanged, and a second `Swap` restores
both. -/
theorem swap_exchanges_states (s1 s2 : Deque α) :
    (Swap s1 s2).1 = s2 ∧ (Swap s1 s2).2 = s1 ∧
      Len (Swap s1 s2).1 = Len s2 ∧ Len (Swap s1 s2).2 = Len s1 ∧
      (∀ i, At (Swap s1 s2).1 i = At s2 i) ∧ (∀ i, At (Swap s1 s2).2 i = At s1 i) ∧
      Swap (Swap s1 s2).1 (Swap s1 s2).2 = (s1, s2) :=
  ⟨rfl, rfl, rfl, rfl, fun _ => rfl, fun _ => rfl, rfl⟩

/-- C26: `NewDeque()` has `Len() = 0`, `IsEmpty() = true`, a map of 8 slots
with `mapStart = 4` and `mapEnd = 5`, one block of 128 zero values at map slot
4 and nil in every other slot, and both cursors at (block 0, offset 64). -/
theorem newDeque_layout [Inhabited α] :
    Len (NewDeque : Deque α) = 0 ∧ IsEmpty (NewDeque : Deque α) = true ∧
      (NewDeque : Deque α).mapSize = 8 ∧ len (NewDeque : Deque α).mapData = 8 ∧
      (NewDeque : Deque α).mapStart = 4 ∧ (NewDeque : Deque α).mapEnd = 5 ∧
      idx (NewDeque : Deque α).mapData 4 = some (some (List.replicate 128 default)) ∧
      (∀ i : Int, 0 ≤ i → i < 8 → i ≠ 4 → idx (NewDeque : Deque α).mapData i = some none) ∧
      (NewDeque : Deque α).headBlock = 0 ∧ (NewDeque : Deque α).headOffset = 64 ∧
      (NewDeque : Deque α).tailBlock = 0 ∧ (NewDeque : Deque α).tailOffset = 64 := by
  refine ⟨rfl, rfl, rfl, rfl, rfl, rfl, rfl, ?_, rfl, rfl, rfl, rfl⟩
  intro i h0 h1 h4
  have hi : i = 0 ∨ i = 1 ∨ i = 2 ∨ i = 3 ∨ i = 5 ∨ i = 6 ∨ i = 7 := by omega
  rcases hi with h | h | h | h | h | h | h <;> subst h <;> rfl

/-- C25: `Clear()` on any state leaves exactly the state `NewDeque()` returns
(size 0, canonical cursors, a map of 8 slots with one block at slot 4), so
`Len() = 0`, `IsEmpty()` is true, and a following `PushBack(x)` returns a state
with `Len() = 1` and `Front() = Back() = (x, true)`. -/
theorem clear_resets_to_new [Inhabited α] (d : Deque α) (x : α) :
    Clear d = NewDeque ∧ Len (Clear d) = 0 ∧ IsEmpty (Clear d) = true ∧
      (Clear d).headBlock = 0 ∧ (Clear d).headOffset = 64 ∧ (Clear d).tailBlock = 0 ∧
      (Clear d).tailOffset = 64 ∧ len (Clear d).mapData = 8 ∧ (Clear d).mapStart = 4 ∧
      (Clear d).mapEnd = 5 ∧
      idx (Clear d).mapData 4 = some (some (List.replicate 128 default)) ∧
      ∃ d1, PushBack (Clear d) x = some d1 ∧ Len d1 = 1 ∧ Front d1 = some (x, true) ∧
        Back d1 = some (x, true) := by
  refine ⟨rfl, rfl, rfl, rfl, rfl, rfl, rfl, rfl, rfl, rfl, rfl, ?_⟩
  obtain ⟨d1, e, f, b, n⟩ := (WF_NewDeque : WF (NewDeque : Deque α)).sound.pushBack_empty rfl x
  exact ⟨d1, e, n, f, b⟩

/-! ## Cursors in reachable states -/

theorem expandMap_cursors {d d1 : Deque α} (e : expandMap d = some d1) :
    d1.headBlock = d.headBlock ∧ d1.headOffset = d.headOffset ∧ d1.tailBlock = d.tailBlock ∧
      d1.tailOffset = d.tailOffset ∧ d1.size = d.size := by
  unfold expandMap at e
  simp only [] at e
  split at e
  · cases e
  · split at e
    · cases e
    · split at e
      · cases e
      · cases e
        exact ⟨rfl, rfl, rfl, rfl, rfl⟩

theorem grow_cursors {c : Prop} [Decidable c] {d d1 : Deque α}
    (e : (if c then expandMap d else some d) = some d1) :
    d1.headBlock = d.headBlock ∧ d1.headOffset = d.headOffset ∧ d1.tailBlock = d.tailBlock ∧
      d1.tailOffset = d.tailOffset ∧ d1.size = d.size := by
  by_cases hc : c
  · rw [if_pos hc] at e
    exact expandMap_cursors e
  · rw [if_neg hc] at e
    cases e
    exact ⟨rfl, rfl, rfl, rfl, rfl⟩

theorem Cursors.initial [Inhabited α] : Cursors (NewDeque : Deque α) :=
  { headOffset_lo := WF_NewDeque.headOffset_lo
    headOffset_hi := WF_NewDeque.headOffset_hi
    tailOffset_lo := WF_NewDeque.tailOffset_lo
    tailOffset_hi := WF_NewDeque.tailOffset_hi
    size_nonneg := WF_NewDeque.size_nonneg
    empty_canon := WF_NewDeque.empty_canon
    cursors := WF_NewDeque.cursors }

/-- A state with the cursors and size of a state that satisfies `Cursors`. -/
theorem Cursors.of_eq {d d1 : Deque α} (h : Cursors d) (e1 : d1.headBlock = d.headBlock)
    (e2 : d1.headOffset = d.headOffset) (e3 : d1.tailBlock = d.tailBlock)
    (e4 : d1.tailOffset = d.tailOffset) (e5 : d1.size = d.size) : Cursors d1 := by
  obtain ⟨a1, a2, a3, a4, a5, a6, a7⟩ := h
  refine ⟨by omega, by omega, by omega, by omega, by omega, ?_, ?_⟩
  · intro h0
    rw [e1, e2, e3, e4]
    exact a6 (by omega)
  · intro h0
    simp only [tailPos, headPos] at a7 ⊢
    rw [e1, e2, e3, e4, e5]
    exact a7 (by omega)

theorem Cursors.keep_pushBack [Inhabited α] {d d1 : Deque α} {x : α} (h : Cursors d)
    (e : PushBack d x = some d1) : Cursors d1 := by
  obtain ⟨a1, a2, a3, a4, a5, a6, a7⟩ := h
  simp only [tailPos, headPos, blockSize] at *
  unfold PushBack at e
  by_cases he : d.size = 0
  · have hemp : d.IsEmpty = true := by simp [IsEmpty, he]
    obtain ⟨b1, b2, b3, b4⟩ := a6 he
    simp only [hemp, if_true] at e
    split at e
    · cases e
    · cases e
      refine ⟨a1, a2, a3, a4, ?_, ?_, ?_⟩ <;> simp only [tailPos, headPos, blockSize] <;>
        intros <;> omega
  · have hemp : d.IsEmpty = false := by simp [IsEmpty, he]
    have a8 := a7 (by omega)
    simp only [hemp, Bool.false_eq_true, if_false, blockSize] at e
    by_cases ho : d.tailOffset < 128 - 1
    · rw [if_pos ho] at e
      split at e
      · cases e
      · cases e
        refine ⟨a1, a2, ?_, ?_, ?_, ?_, ?_⟩ <;> simp only [tailPos, headPos, blockSize] <;>
          intros <;> omega
    · rw [if_neg ho] at e
      split at e
      · cases e
      · rename_i d0 hd0
        obtain ⟨c1, c2, c3, c4, c5⟩ := grow_cursors hd0
        split at e
        · cases e
        · split at e
          · cases e
          · split at e
            · cases e
            · cases e
              refine ⟨?_, ?_, ?_, ?_, ?_, ?_, ?_⟩ <;> simp only [tailPos, headPos, blockSize] <;>
                intros <;> omega

theorem Cursors.keep_pushFront [Inhabited α] {d d1 : Deque α} {x : α} (h : Cursors d)
    (e : PushFront d x = some d1) : Cursors d1 := by
  obtain ⟨a1, a2, a3, a4, a5, a6, a7⟩ := h
  simp only [tailPos, headPos, blockSize] at *
  unfold PushFront at e
  by_cases he : d.size = 0
  · have hemp : d.IsEmpty = true := by simp [IsEmpty, he]
    obtain ⟨b1, b2, b3, b4⟩ := a6 he
    simp only [hemp, if_true] at e
    split at e
    · cases e
    · cases e
      refine ⟨a1, a2, a3, a4, ?_, ?_, ?_⟩ <;> simp only [tailPos, headPos, blockSize] <;>
        intros <;> omega
  · have hemp : d.IsEmpty = false := by simp [IsEmpty, he]
    have a8 := a7 (by omega)
    simp only [hemp, Bool.false_eq_true, if_false, blockSize] at e
    by_cases ho : d.headOffset > 0
    · rw [if_pos ho] at e
      split at e
      · cases e
      · cases e
        refine ⟨?_, ?_, a3, a4, ?_, ?_, ?_⟩ <;> simp only [tailPos, headPos, blockSize] <;>
          intros <;> omega
    · rw [if_neg ho] at e
      split at e
      · cases e
      · rename_i d0 hd0
        obtain ⟨c1, c2, c3, c4, c5⟩ := grow_cursors hd0
        split at e
        · cases e
        · split at e
          · cases e
          · split at e
            · cases e
            · cases e
              refine ⟨?_, ?_, ?_, ?_, ?_, ?_, ?_⟩ <;> simp only [tailPos, headPos, blockSize] <;>
                intros <;> omega

theorem Cursors.keep_popBack [Inhabited α] {d d1 : Deque α} {r : α × Bool} (h : Cursors d)
    (e : PopBack d = some (d1, r)) : Cursors d1 := by
  have h' := h
  obtain ⟨a1, a2, a3, a4, a5, a6, a7⟩ := h
  simp only [tailPos, headPos, blockSize] at *
  unfold PopBack at e
  by_cases he : d.size = 0
  · have hemp : d.IsEmpty = true := by simp [IsEmpty, he]
    simp only [hemp, if_true] at e
    cases e
    exact h'
  · have hemp : d.IsEmpty = false := by simp [IsEmpty, he]
    have a8 := a7 (by omega)
    simp only [hemp, Bool.false_eq_true, if_false, blockSize] at e
    split at e
    · cases e
    · split at e
      · cases e
      · by_cases h1 : d.size = 1
        · rw [if_pos h1] at e
          cases e
          refine ⟨?_, ?_, ?_, ?_, ?_, fun _ => ⟨rfl, rfl, rfl, rfl⟩, ?_⟩ <;>
            simp only [tailPos, headPos, blockSize] <;> intros <;> omega
        · rw [if_neg h1] at e
          split at e <;> cases e <;>
            refine ⟨?_, ?_, ?_, ?_, ?_, ?_, ?_⟩ <;> simp only [tailPos, headPos, blockSize] <;>
              intros <;> omega

theorem Cursors.keep_popFront [Inhabited α] {d d1 : Deque α} {r : α × Bool} (h : Cursors d)
    (e : PopFront d = some (d1, r)) : Cursors d1 := by
  have h' := h
  obtain ⟨a1, a2, a3, a4, a5, a6, a7⟩ := h
  simp only [tailPos, headPos, blockSize] at *
  unfold PopFront at e
  by_cases he : d.size = 0
  · have hemp : d.IsEmpty = true := by simp [IsEmpty, he]
    simp only [hemp, if_true] at e
    cases e
    exact h'
  · have hemp : d.IsEmpty = false := by simp [IsEmpty, he]
    have a8 := a7 (by omega)
    simp only [hemp, Bool.false_eq_true, if_false, blockSize] at e
    split at e
    · cases e
    · split at e
      · cases e
      · by_cases h1 : d.size = 1
        · rw [if_pos h1] at e
          cases e
          refine ⟨?_, ?_, ?_, ?_, ?_, fun _ => ⟨rfl, rfl, rfl, rfl⟩, ?_⟩ <;>
            simp only [tailPos, headPos, blockSize] <;> intros <;> omega
        · rw [if_neg h1] at e
          split at e <;> cases e <;>
            refine ⟨?_, ?_, ?_, ?_, ?_, ?_, ?_⟩ <;> simp only [tailPos, headPos, blockSize] <;>
              intros <;> omega

theorem Cursors.keep_set {d d1 : Deque α} {i : Int} {v : α} {ok : Bool} (h : Cursors d)
    (e : Set d i v = some (d1, ok)) : Cursors d1 := by
  unfold Set at e
  split at e
  · cases e; exact h
  · simp only [] at e
    split at e
    · cases e
    · cases e
      exact h.of_eq rfl rfl rfl rfl rfl

theorem Cursors.stable [Inhabited α] : Stable (Cursors : Deque α → Prop) :=
  { new := Cursors.initial
    pushBack := fun _ _ _ h e => h.keep_pushBack e
    pushFront := fun _ _ _ h e => h.keep_pushFront e
    popBack := fun _ _ _ h e => h.keep_popBack e
    popFront := fun _ _ _ h e => h.keep_popFront e
    set := fun _ _ _ _ _ h e => h.keep_set e }

/-! ## Properties kept by every public operation -/

section StableOps

variable [Inhabited α] {P : Deque α → Prop}

theorem Stable.insertShiftFront (hP : Stable P) :
    ∀ (n : Nat) (d d1 : Deque α) (i : Int), P d → insertShiftFront d i n = some d1 → P d1 := by
  intro n
  induction n with
  | zero => intro d d1 i h e; cases e; exact h
  | succ n ih =>
    intro d d1 i h e
    simp only [Deque.insertShiftFront] at e
    split at e
    · cases e
    · split at e
      · cases e
      · rename_i d2 ok hs
        exact ih d2 d1 _ (hP.set _ _ _ _ _ h hs) e

theorem Stable.insertShiftBack (hP : Stable P) :
    ∀ (n : Nat) (d d1 : Deque α) (i : Int), P d → insertShiftBack d i n = some d1 → P d1 := by
  intro n
  induction n with
  | zero => intro d d1 i h e; cases e; exact h
  | succ n ih =>
    intro d d1 i h e
    simp only [Deque.insertShiftBack] at e
    split at e
    · cases e
    · split at e
      · cases e
      · rename_i d2 ok hs
        exact ih d2 d1 _ (hP.set _ _ _ _ _ h hs) e

theorem Stable.eraseShiftFront (hP : Stable P) (c : Int) :
    ∀ (n : Nat) (d d1 : Deque α) (i : Int), P d → eraseShiftFront d c i n = some d1 → P d1 := by
  intro n
  induction n with
  | zero => intro d d1 i h e; cases e; exact h
  | succ n ih =>
    intro d d1 i h e
    simp only [Deque.eraseShiftFront] at e
    split at e
    · cases e
    · split at e
      · cases e
      · rename_i d2 ok hs
        exact ih d2 d1 _ (hP.set _ _ _ _ _ h hs) e

theorem Stable.eraseShiftBack (hP : Stable P) (c : Int) :
    ∀ (n : Nat) (d d1 : Deque α) (i : Int), P d → eraseShiftBack d c i n = some d1 → P d1 := by
  intro n
  induction n with
  | zero => intro d d1 i h e; cases e; exact h
  | succ n ih =>
    intro d d1 i h e
    simp only [Deque.eraseShiftBack] at e
    split at e
    · cases e
    · split at e
      · cases e
      · rename_i d2 ok hs
        exact ih d2 d1 _ (hP.set _ _ _ _ _ h hs) e

theorem Stable.popFrontTimes (hP : Stable P) :
    ∀ (n : Nat) (d d1 : Deque α), P d → popFrontTimes d n = some d1 → P d1 := by
  intro n
  induction n with
  | zero => intro d d1 h e; cases e; exact h
  | succ n ih =>
    intro d d1 h e
    simp only [Deque.popFrontTimes] at e
    split at e
    · cases e
    · rename_i d2 v ok hs
      exact ih d2 d1 (hP.popFront _ _ _ h hs) e

theorem Stable.popBackTimes (hP : Stable P) :
    ∀ (n : Nat) (d d1 : Deque α), P d → popBackTimes d n = some d1 → P d1 := by
  intro n
  induction n with
  | zero => intro d d1 h e; cases e; exact h
  | succ n ih =>
    intro d d1 h e
    simp only [Deque.popBackTimes] at e
    split at e
    · cases e
    · rename_i d2 v ok hs
      exact ih d2 d1 (hP.popBack _ _ _ h hs) e

theorem Stable.pushBackTimes (hP : Stable P) (v : α) :
    ∀ (n : Nat) (d d1 : Deque α), P d → pushBackTimes d v n = some d1 → P d1 := by
  intro n
  induction n with
  | zero => intro d d1 h e; cases e; exact h
  | succ n ih =>
    intro d d1 h e
    simp only [Deque.pushBackTimes] at e
    split at e
    · cases e
    · rename_i d2 hs
      exact ih d2 d1 (hP.pushBack _ _ _ h hs) e

theorem Stable.reverseLoop (hP : Stable P) :
    ∀ (n : Nat) (d d1 : Deque α) (i : Int), P d → reverseLoop d i n = some d1 → P d1 := by
  intro n
  induction n with
  | zero => intro d d1 i h e; cases e; exact h
  | succ n ih =>
    intro d d1 i h e
    simp only [Deque.reverseLoop] at e
    split at e
    · cases e
    · split at e
      · cases e
      · split at e
        · cases e
        · rename_i d2 ok hs
          split at e
          · cases e
          · rename_i d3 ok3 hs3
            exact ih d3 d1 _ (hP.set _ _ _ _ _ (hP.set _ _ _ _ _ h hs) hs3) e

theorem Stable.cloneLoop (hP : Stable P) (d : Deque α) :
    ∀ (n : Nat) (c c1 : Deque α) (i : Int), P c → cloneLoop d c i n = some c1 → P c1 := by
  intro n
  induction n with
  | zero => intro c c1 i h e; cases e; exact h
  | succ n ih =>
    intro c c1 i h e
    simp only [Deque.cloneLoop] at e
    split at e
    · cases e
    · split at e
      · cases e
      · rename_i c2 hs
        exact ih c2 c1 _ (hP.pushBack _ _ _ h hs) e

theorem Stable.insert (hP : Stable P) {d d1 : Deque α} {i : Int} {x : α} {ok : Bool}
    (h : P d) (e : Insert d i x = some (d1, ok)) : P d1 := by
  unfold Insert at e
  split at e
  · cases e; exact h
  · split at e
    · split at e
      · cases e
      · rename_i d2 hs
        cases e
        exact hP.pushFront _ _ _ h hs
    · split at e
      · split at e
        · cases e
        · rename_i d2 hs
          cases e
          exact hP.pushBack _ _ _ h hs
      · split at e
        · split at e
          · cases e
          · split at e
            · cases e
            · rename_i d2 hs
              split at e
              · cases e
              · rename_i d3 hs3
                split at e
                · cases e
                · rename_i d4 ok4 hs4
                  cases e
                  exact hP.set _ _ _ _ _
                    (hP.insertShiftFront _ _ _ _ (hP.pushFront _ _ _ h hs) hs3) hs4
        · split at e
          · cases e
          · split at e
            · cases e
            · rename_i d2 hs
              split at e
              · cases e
              · rename_i d3 hs3
                split at e
                · cases e
                · rename_i d4 ok4 hs4
                  cases e
                  exact hP.set _ _ _ _ _
                    (hP.insertShiftBack _ _ _ _ (hP.pushBack _ _ _ h hs) hs3) hs4

theorem Stable.erase (hP : Stable P) {d d1 : Deque α} {b e : Int} {ok : Bool}
    (h : P d) (he : Erase d b e = some (d1, ok)) : P d1 := by
  unfold Erase at he
  split at he
  · cases he; exact h
  · simp only [] at he
    split at he
    · split at he
      · cases he
      · rename_i d2 hs
        split at he
        · cases he
        · rename_i d3 hs3
          cases he
          exact hP.popFrontTimes _ _ _ (hP.eraseShiftFront _ _ _ _ _ h hs) hs3
    · split at he
      · cases he
      · rename_i d2 hs
        split at he
        · cases he
        · rename_i d3 hs3
          cases he
          exact hP.popBackTimes _ _ _ (hP.eraseShiftBack _ _ _ _ _ h hs) hs3

theorem Stable.resize (hP : Stable P) {d d1 : Deque α} {n : Int} {fill : List α}
    (h : P d) (e : Resize d n fill = some d1) : P d1 := by
  unfold Resize at e
  split at e
  · cases e; exact h
  · split at e
    · exact hP.pushBackTimes _ _ _ _ h e
    · split at e
      · exact hP.popBackTimes _ _ _ h e
      · cases e; exact h

theorem Stable.reverse (hP : Stable P) {d d1 : Deque α} (h : P d)
    (e : Reverse d = some d1) : P d1 := by
  unfold Reverse at e
  split at e
  · cases e; exact h
  · exact hP.reverseLoop _ _ _ _ h e

theorem Stable.clone (hP : Stable P) {d c : Deque α} (e : Clone d = some c) : P c :=
  hP.cloneLoop d _ _ _ _ hP.new e

/-- A property that `NewDeque` has and that the pushes, the pops and `Set` keep
holds in every reachable state. -/
theorem Stable.reach (hP : Stable P) {d : Deque α} (hr : Reach d) : P d := by
  induction hr with
  | new => exact hP.new
  | pushBack x _ e ih => exact hP.pushBack _ _ _ ih e
  | pushFront x _ e ih => exact hP.pushFront _ _ _ ih e
  | popBack r _ e ih => exact hP.popBack _ _ _ ih e
  | popFront r _ e ih => exact hP.popFront _ _ _ ih e
  | set i v ok _ e ih => exact hP.set _ _ _ _ _ ih e
  | insert i x ok _ e ih => exact hP.insert ih e
  | erase b e ok _ he ih => exact hP.erase ih he
  | resize n fill _ e ih => exact hP.resize ih e
  | reverse _ e ih => exact hP.reverse ih e
  | clear _ _ => exact hP.new
  | clone _ e _ => exact hP.clone e
  | swapFst _ _ _ ih2 => exact ih2
  | swapSnd _ _ ih1 _ => exact ih1

theorem Reach.of_pushBackAll (l : List α) :
    ∀ d d1 : Deque α, Reach d → pushBackAll d l = some d1 → Reach d1 := by
  induction l with
  | nil => intro d d1 h e; cases e; exact h
  | cons x xs ih =>
    intro d d1 h e
    simp only [Deque.pushBackAll] at e
    split at e
    · cases e
    · rename_i d2 hs
      exact ih d2 d1 (Reach.pushBack x h hs) e

theorem Reach.of_pushFrontAll (l : List α) :
    ∀ d d1 : Deque α, Reach d → pushFrontAll d l = some d1 → Reach d1 := by
  induction l with
  | nil => intro d d1 h e; cases e; exact h
  | cons x xs ih =>
    intro d d1 h e
    simp only [Deque.pushFrontAll] at e
    split at e
    · cases e
    · rename_i d2 hs
      exact ih d2 d1 (Reach.pushFront x h hs) e

theorem Reach.of_step {d d1 : Deque α} {op : Op α} {r : Option (α × Bool)}
    (h : Reach d) (e : step d op = some (d1, r)) : Reach d1 := by
  cases op with
  | pushBack x =>
    simp only [Deque.step] at e
    split at e
    · cases e
    · rename_i d2 h2
      cases e
      exact Reach.pushBack x h h2
  | pushFront x =>
    simp only [Deque.step] at e
    split at e
    · cases e
    · rename_i d2 h2
      cases e
      exact Reach.pushFront x h h2
  | popBack =>
    simp only [Deque.step] at e
    split at e
    · cases e
    · rename_i d2 a ok h2
      cases e
      exact Reach.popBack _ h h2
  | popFront =>
    simp only [Deque.step] at e
    split at e
    · cases e
    · rename_i d2 a ok h2
      cases e
      exact Reach.popFront _ h h2

theorem Reach.of_run (ops : List (Op α)) :
    ∀ (d d1 : Deque α) (outs : List (α × Bool)), Reach d → run d ops = some (d1, outs) →
      Reach d1 := by
  induction ops with
  | nil =>
    intro d d1 outs h e
    simp only [Deque.run, Option.some.injEq, Prod.mk.injEq] at e
    rw [← e.1]
    exact h
  | cons op ops ih =>
    intro d d1 outs h e
    unfold Deque.run at e
    split at e
    · cases e
    · rename_i d2 r h2
      split at e
      · cases e
      · rename_i d3 rs h3
        cases e
        exact ih d2 _ rs (h.of_step h2) h3

end StableOps

/-- With the offsets inside a block, `At(0)` reads the head slot. -/
theorem At_zero (d : Deque α) (h0 : 0 ≤ d.headOffset) (h1 : d.headOffset < blockSize) :
    At d 0 = readSlot d.mapData (d.mapStart + d.headBlock) d.headOffset := by
  simp only [blockSize] at *
  unfold At
  simp only [blockSize, add_zero]
  rw [Int.tdiv_eq_ediv (by omega) (by omega), Int.tmod_eq_emod (by omega) (by omega)]
  have e1 : d.headOffset / 128 = 0 := by omega
  have e2 : d.headOffset % 128 = d.headOffset := by omega
  rw [e1, e2, add_zero]

/-- With consistent cursors, `At(size - 1)` reads the tail slot. -/
theorem At_last (d : Deque α) (h : Cursors d) (hs : 0 < d.size) :
    At d (d.size - 1) = readSlot d.mapData (d.mapStart + d.tailBlock) d.tailOffset := by
  obtain ⟨a1, a2, a3, a4, a5, a6, a7⟩ := h
  have a8 := a7 hs
  simp only [tailPos, headPos, blockSize] at *
  unfold At
  simp only [blockSize]
  rw [Int.tdiv_eq_ediv (by omega) (by omega), Int.tmod_eq_emod (by omega) (by omega)]
  have e1 : (d.headOffset + (d.size - 1)) / 128 = d.tailBlock - d.headBlock := by omega
  have e2 : (d.headOffset + (d.size - 1)) % 128 = d.tailOffset := by omega
  rw [e1, e2]
  congr 1
  omega

/-- In every state that returning calls of the public operations reach from
`NewDeque`, `headOffset` and `tailOffset` lie in `[0, 128)`, and when
`size > 0` the tail cursor is `size - 1` cells after the head cursor, so that
`At(0)` reads the head slot and `At(size - 1)` reads the tail slot. -/
theorem reachable_cursors_consistent [Inhabited α] (d : Deque α) (hr : Reach d) :
    0 ≤ d.headOffset ∧ d.headOffset < 128 ∧ 0 ≤ d.tailOffset ∧ d.tailOffset < 128 ∧
      (0 < d.size →
        (d.tailBlock * 128 + d.tailOffset) - (d.headBlock * 128 + d.headOffset) = d.size - 1 ∧
        At d 0 = readSlot d.mapData (d.mapStart + d.headBlock) d.headOffset ∧
        At d (d.size - 1) = readSlot d.mapData (d.mapStart + d.tailBlock) d.tailOffset) := by
  have h := Cursors.stable.reach hr
  exact ⟨h.headOffset_lo, h.headOffset_hi, h.tailOffset_lo, h.tailOffset_hi, fun hs =>
    ⟨h.cursors hs, At_zero d h.headOffset_lo h.headOffset_hi, At_last d h hs⟩⟩

/-- The cursors of the state after `PushBack 1, PushBack 2, PopFront,
PushBack 3` on a new deque, which holds two elements. -/
theorem reachable_cursors_consistent_witness :
    ∃ d : Deque Nat,
      run NewDeque [Op.pushBack 1, Op.pushBack 2, Op.popFront, Op.pushBack 3] =
        some (d, [(1, true)]) ∧ Reach d ∧ d.size = 2 ∧
      0 ≤ d.headOffset ∧ d.headOffset < 128 ∧ 0 ≤ d.tailOffset ∧ d.tailOffset < 128 ∧
      (0 < d.size →
        (d.tailBlock * 128 + d.tailOffset) - (d.headBlock * 128 + d.headOffset) = d.size - 1 ∧
        At d 0 = readSlot d.mapData (d.mapStart + d.headBlock) d.headOffset ∧
        At d (d.size - 1) = readSlot d.mapData (d.mapStart + d.tailBlock) d.tailOffset) := by
  obtain ⟨d, e, _, _, hh⟩ := run_refines
    [Op.pushBack 1, Op.pushBack 2, Op.popFront, Op.pushBack (3 : Nat)] NewDeque []
    WF_NewDeque InSpan_NewDeque Holds_NewDeque (by decide)
  have hr : Reach d := Reach.of_run _ NewDeque d _ Reach.new e
  exact ⟨d, e, hr, hh.1, reachable_cursors_consistent d hr⟩

end Deque

/-! ## The clone shares no block -/

namespace RefDeque

open Deque (blockSize initialMapSize len idx setIdx makeSlice copySlice)

variable {α : Type}

theorem idx_map {β γ : Type} (f : β → γ) (l : List β) (i : Int) :
    idx (l.map f) i = (idx l i).map f := by
  unfold idx
  by_cases h : i < 0
  · simp [h]
  · simp [h]

theorem len_blocksOf (h : List (List α)) (m : List (Option Nat)) :
    len (blocksOf h m) = len m := by
  simp [len, blocksOf]

theorem mem_of_idx {m : List (Option Nat)} {i : Int} {a : Nat} (e : idx m i = some (some a)) :
    some a ∈ m :=
  List.getElem?_mem (Deque.idx_eq_some.mp e).2

theorem idx_blocksOf (h : List (List α)) (m : List (Option Nat)) (i : Int) :
    idx (blocksOf h m) i = (idx m i).map fun o => o.bind fun a => h[a]? :=
  idx_map _ m i

/-- Reading through the references is reading the denoted blocks. -/
theorem readSlot_toDeque (h : List (List α)) (m : List (Option Nat)) (i j : Int) :
    RefDeque.readSlot h m i j = Deque.readSlot (blocksOf h m) i j := by
  unfold RefDeque.readSlot Deque.readSlot
  rw [idx_blocksOf]
  cases idx m i with
  | none => rfl
  | some o =>
    cases o with
    | none => rfl
    | some a =>
      simp only [Option.map_some', Option.some_bind]
      cases h[a]? with
      | none => rfl
      | some b => rfl

theorem At_toDeque (h : List (List α)) (d : RefDeque) (i : Int) :
    RefDeque.At h d i = Deque.At (toDeque h d) i := by
  unfold RefDeque.At Deque.At
  exact readSlot_toDeque h d.mapData _ _

/-- A state whose references lie below `n` denotes the same blocks in two
stores that agree below `n`. -/
theorem blocksOf_agree {n : Nat} {h h1 : List (List α)} {m : List (Option Nat)}
    (hb : Below n m) (ha : Agree n h h1) : blocksOf h1 m = blocksOf h m := by
  unfold blocksOf
  apply List.map_congr_left
  intro o ho
  cases o with
  | none => rfl
  | some a => exact ha a (hb a ho)

theorem toDeque_agree {n : Nat} {h h1 : List (List α)} {d : RefDeque}
    (hb : Below n d.mapData) (ha : Agree n h h1) : toDeque h1 d = toDeque h d := by
  unfold toDeque
  rw [blocksOf_agree hb ha]

theorem Agree.chain {n : Nat} {h h1 h2 : List (List α)} (a : Agree n h h1)
    (b : Agree n h1 h2) : Agree n h h2 :=
  fun k hk => (b k hk).trans (a k hk)

theorem Agree.same (n : Nat) (h : List (List α)) : Agree n h h := fun _ _ => rfl

theorem Agree.of_append (n : Nat) (h : List (List α)) (b : List α) (hn : n ≤ h.length) :
    Agree n h (h ++ [b]) :=
  fun a ha => List.getElem?_append_left (by omega)

/-- Two slots of a map without repeated references that hold the same reference
are the same slot. -/
theorem slot_unique : ∀ (m : List (Option Nat)) (i k a : Nat), m.reduceOption.Nodup →
    m[i]? = some (some a) → m[k]? = some (some a) → i = k := by
  intro m
  induction m with
  | nil => intro i k a _ h1; simp at h1
  | cons x m ih =>
    intro i k a hn h1 h2
    have hsub : m.reduceOption.Nodup := by
      cases x with
      | none => simpa [List.reduceOption_cons_of_none] using hn
      | some b =>
        rw [List.reduceOption_cons_of_some] at hn
        exact (List.nodup_cons.mp hn).2
    cases i with
    | zero =>
      cases k with
      | zero => rfl
      | succ k =>
        simp only [List.getElem?_cons_zero, Option.some.injEq] at h1
        simp only [List.getElem?_cons_succ] at h2
        subst h1
        rw [List.reduceOption_cons_of_some] at hn
        exact absurd (List.reduceOption_mem_iff.mpr (List.getElem?_mem h2))
          (List.nodup_cons.mp hn).1
    | succ i =>
      cases k with
      | zero =>
        simp only [List.getElem?_cons_zero, Option.some.injEq] at h2
        simp only [List.getElem?_cons_succ] at h1
        subst h2
        rw [List.reduceOption_cons_of_some] at hn
        exact absurd (List.reduceOption_mem_iff.mpr (List.getElem?_mem h1))
          (List.nodup_cons.mp hn).1
      | succ k =>
        simp only [List.getElem?_cons_succ] at h1 h2
        rw [ih i k a hsub h1 h2]

/-- Storing a reference that the map does not hold yet keeps the references
distinct. -/
theorem nodup_set : ∀ (m : List (Option Nat)) (i n : Nat), m.reduceOption.Nodup →
    some n ∉ m → (m.set i (some n)).reduceOption.Nodup := by
  intro m
  induction m with
  | nil => intro i n h _; simp
  | cons x m ih =>
    intro i n hn hm
    have hm1 : some n ∉ m := fun h => hm (List.mem_cons_of_mem _ h)
    have hsub : m.reduceOption.Nodup := by
      cases x with
      | none => simpa [List.reduceOption_cons_of_none] using hn
      | some b =>
        rw [List.reduceOption_cons_of_some] at hn
        exact (List.nodup_cons.mp hn).2
    cases i with
    | zero =>
      simp only [List.set_cons_zero, List.reduceOption_cons_of_some]
      exact List.nodup_cons.mpr ⟨fun h => hm1 (List.reduceOption_mem_iff.mp h), hsub⟩
    | succ i =>
      simp only [List.set_cons_succ]
      cases x with
      | none =>
        rw [List.reduceOption_cons_of_none]
        exact ih i n hsub hm1
      | some b =>
        rw [List.reduceOption_cons_of_some] at hn ⊢
        refine List.nodup_cons.mpr ⟨fun h => ?_, ih i n hsub hm1⟩
        have h1 := List.reduceOption_mem_iff.mp h
        rcases List.mem_or_eq_of_mem_set h1 with h2 | h2
        · exact (List.nodup_cons.mp hn).1 (List.reduceOption_mem_iff.mpr h2)
        · cases h2
          exact hm (List.mem_cons_self _ _)


/-- A write through a reference is the write to the denoted block: it succeeds
when the write to the block does, changes the block of that one slot, and leaves
every block allocated before the map's own blocks as it was. -/
theorem writeSlot_sim {h : List (List α)} {m : List (Option Nat)} {i j : Int} {v : α}
    {mv : List (Option (List α))} (hd : Distinct h m)
    (e : Deque.writeSlot (blocksOf h m) i j v = some mv) :
    ∃ h1, RefDeque.writeSlot h m i j v = some h1 ∧ blocksOf h1 m = mv ∧
      h1.length = h.length ∧ ∀ n, Fresh n m → Agree n h h1 := by
  obtain ⟨b, b1, e1, e2, e3⟩ := Deque.writeSlot_eq_some.mp e
  rw [idx_blocksOf] at e1
  cases hm : idx m i with
  | none => rw [hm] at e1; cases e1
  | some o =>
    cases o with
    | none => rw [hm] at e1; cases e1
    | some a =>
      rw [hm] at e1
      simp only [Option.map_some', Option.some_bind, Option.some.injEq] at e1
      obtain ⟨hi0, hma⟩ := Deque.idx_eq_some.mp hm
      have hal : a < h.length := hd.2 a (mem_of_idx hm)
      refine ⟨h.set a b1, ?_, ?_, by simp, ?_⟩
      · unfold RefDeque.writeSlot
        simp only [hm, e1, e2]
      · obtain ⟨_, e4⟩ := Deque.setIdx_eq_some.mp e3
        rw [e4]
        apply List.ext_getElem?
        intro k
        unfold blocksOf
        rw [List.getElem?_set, List.getElem?_map, List.getElem?_map]
        by_cases hk : i.toNat = k
        · subst hk
          rw [if_pos rfl, hma]
          have hlt : i.toNat < m.length := (List.getElem?_eq_some.mp hma).1
          simp [hlt, hal]
        · rw [if_neg hk]
          cases hmk : m[k]? with
          | none => rfl
          | some o =>
            cases o with
            | none => rfl
            | some a1 =>
              have hne : a ≠ a1 := by
                intro haa
                subst haa
                exact hk (slot_unique m _ _ _ hd.1 hma hmk)
              simp only [Option.map_some', Option.some_bind]
              rw [List.getElem?_set, if_neg hne]
      · intro n hf a1 ha1
        have hna : n ≤ a := hf a (mem_of_idx hm)
        rw [List.getElem?_set, if_neg (by omega)]

/-- The lazy allocation through references is the lazy allocation of the
denoted blocks: a new block gets a new address, and no existing block
changes. -/
theorem ensureBlock_sim [Inhabited α] {h : List (List α)} {m : List (Option Nat)} {i : Int}
    {mv : List (Option (List α))} (hd : Distinct h m)
    (e : Deque.ensureBlock (blocksOf h m) i = some mv) :
    ∃ h1 m1, RefDeque.ensureBlock h m i = some (h1, m1) ∧ blocksOf h1 m1 = mv ∧
      Distinct h1 m1 ∧ h.length ≤ h1.length ∧ Agree h.length h h1 ∧
      ∀ n, n ≤ h.length → Fresh n m → Fresh n m1 := by
  unfold Deque.ensureBlock at e
  rw [idx_blocksOf] at e
  cases hm : idx m i with
  | none => rw [hm] at e; cases e
  | some o =>
    obtain ⟨hi0, hma⟩ := Deque.idx_eq_some.mp hm
    obtain ⟨hilt, _⟩ := List.getElem?_eq_some.mp hma
    cases o with
    | none =>
      rw [hm] at e
      simp only [Option.map_some', Option.none_bind] at e
      obtain ⟨_, e4⟩ := Deque.setIdx_eq_some.mp e
      have hs : setIdx m i (some h.length) = some (m.set i.toNat (some h.length)) :=
        Deque.setIdx_eq_some.mpr ⟨by unfold len; omega, rfl⟩
      have hnot : some h.length ∉ m := fun hin => by
        have := hd.2 _ hin
        omega
      refine ⟨h ++ [List.replicate blockSize.toNat default], m.set i.toNat (some h.length),
        ?_, ?_, ⟨nodup_set m _ _ hd.1 hnot, ?_⟩, by simp, Agree.of_append _ _ _ (le_refl _), ?_⟩
      · unfold RefDeque.ensureBlock
        simp only [hm, hs]
      · rw [e4]
        apply List.ext_getElem?
        intro k
        unfold blocksOf
        rw [List.getElem?_set, List.getElem?_map, List.getElem?_map, List.getElem?_set]
        by_cases hk : i.toNat = k
        · subst hk
          simp [hilt]
        · rw [if_neg hk, if_neg hk]
          cases hmk : m[k]? with
          | none => rfl
          | some o =>
            cases o with
            | none => rfl
            | some a1 =>
              have : a1 < h.length := hd.2 a1 (List.getElem?_mem hmk)
              simp only [Option.map_some', Option.some_bind]
              rw [List.getElem?_append_left this]
      · intro a ha
        rcases List.mem_or_eq_of_mem_set ha with h2 | h2
        · have := hd.2 a h2
          simp
          omega
        · cases h2
          simp
      · intro n hn hf a ha
        rcases List.mem_or_eq_of_mem_set ha with h2 | h2
        · exact hf a h2
        · cases h2
          exact hn
    | some a =>
      rw [hm] at e
      have hal : a < h.length := hd.2 a (mem_of_idx hm)
      simp only [Option.map_some', Option.some_bind, List.getElem?_eq_getElem hal] at e
      cases e
      refine ⟨h, m, ?_, rfl, hd, le_refl _, Agree.same _ _, fun n _ hf => hf⟩
      unfold RefDeque.ensureBlock
      simp only [hm]

theorem reduceOption_replicate {β : Type} (n : Nat) :
    (List.replicate n (none : Option β)).reduceOption = [] := by
  induction n with
  | zero => rfl
  | succ n ih => rw [List.replicate_succ, List.reduceOption_cons_of_none, ih]

/-- The map that `expandMap` builds holds a sublist of the references of the old
map. -/
theorem expandMap_sublist {d d1 : RefDeque} (e : RefDeque.expandMap d = some d1) :
    d1.mapData.reduceOption.Sublist d.mapData.reduceOption := by
  unfold RefDeque.expandMap at e
  simp only [makeSlice] at e
  split at e
  · cases e
  · rename_i nm hnm
    split at hnm
    · cases hnm
    · cases hnm
      split at e
      · cases e
      · split at e
        · cases e
        · cases e
          simp only [copySlice, List.take_replicate, List.drop_replicate, List.reduceOption_append,
            reduceOption_replicate, List.nil_append, List.append_nil]
          exact ((List.take_sublist _ _).trans
            ((List.drop_sublist _ _).trans (List.take_sublist _ _))).filterMap id

/-- `expandMap` on references is `expandMap` on the denoted state. -/
theorem expandMap_toDeque (h : List (List α)) (d : RefDeque) :
    (RefDeque.expandMap d).map (toDeque h) = Deque.expandMap (toDeque h d) := by
  unfold RefDeque.expandMap Deque.expandMap
  simp only [makeSlice, toDeque, len_blocksOf]
  by_cases c1 : d.mapSize * 2 < 0
  · simp only [if_pos c1, Option.map_none']
  · simp only [if_neg c1, len, List.length_replicate]
    split
    · rfl
    · split
      · rfl
      · simp [toDeque, blocksOf, copySlice, List.map_take, List.map_drop]


theorem Distinct.of_length {h h1 : List (List α)} {m : List (Option Nat)} (hd : Distinct h m)
    (hl : h.length ≤ h1.length) : Distinct h1 m :=
  ⟨hd.1, fun a ha => lt_of_lt_of_le (hd.2 a ha) hl⟩

/-- The optional map growth of a push, on references and on the denoted
state. -/
theorem grow_sim {cond : Prop} [Decidable cond] {h : List (List α)} {c : RefDeque}
    {dv : Deque α} (hd : Distinct h c.mapData)
    (e : (if cond then Deque.expandMap (toDeque h c) else some (toDeque h c)) = some dv) :
    ∃ c1, (if cond then RefDeque.expandMap c else some c) = some c1 ∧ toDeque h c1 = dv ∧
      Distinct h c1.mapData ∧ ∀ n, Fresh n c.mapData → Fresh n c1.mapData := by
  by_cases hc : cond
  · rw [if_pos hc] at e
    rw [if_pos hc]
    rw [← expandMap_toDeque] at e
    cases hx : RefDeque.expandMap c with
    | none => rw [hx] at e; cases e
    | some c1 =>
      rw [hx] at e
      have hsub := expandMap_sublist hx
      have hmem : ∀ a, some a ∈ c1.mapData → some a ∈ c.mapData := fun a ha =>
        List.reduceOption_mem_iff.mp (hsub.subset (List.reduceOption_mem_iff.mpr ha))
      exact ⟨c1, rfl, Option.some.inj e, ⟨hd.1.sublist hsub, fun a ha => hd.2 a (hmem a ha)⟩,
        fun n hf a ha => hf a (hmem a ha)⟩
  · rw [if_neg hc] at e
    rw [if_neg hc]
    exact ⟨c, rfl, Option.some.inj e, hd, fun n hf => hf⟩

/-- `PushBack` through references is `PushBack` on the denoted state: it
returns when that one does, and it writes only blocks of its own map or new
blocks. -/
theorem PushBack_sim [Inhabited α] {h : List (List α)} {c : RefDeque} {x : α} {cv : Deque α}
    (hd : Distinct h c.mapData) (e : Deque.PushBack (toDeque h c) x = some cv) :
    ∃ h1 c1, RefDeque.PushBack h c x = some (h1, c1) ∧ toDeque h1 c1 = cv ∧
      Distinct h1 c1.mapData ∧ h.length ≤ h1.length ∧
      ∀ n, n ≤ h.length → Fresh n c.mapData → Fresh n c1.mapData ∧ Agree n h h1 := by
  unfold Deque.PushBack at e
  unfold RefDeque.PushBack
  have hie : Deque.IsEmpty (toDeque h c) = RefDeque.IsEmpty c := rfl
  rw [hie] at e
  simp only [toDeque, len_blocksOf] at e
  by_cases hemp : c.IsEmpty = true
  · simp only [hemp, if_true] at e ⊢
    split at e
    · cases e
    · rename_i mv hmv
      cases e
      obtain ⟨h1, e1, eb, hl, hag⟩ := writeSlot_sim hd hmv
      rw [e1]
      refine ⟨h1, _, rfl, ?_, hd.of_length (le_of_eq hl.symm), le_of_eq hl.symm,
        fun n _ hf => ⟨hf, hag n hf⟩⟩
      simp only [toDeque, eb]
  · simp only [hemp, Bool.false_eq_true, if_false] at e ⊢
    by_cases ho : c.tailOffset < blockSize - 1
    · simp only [ho, if_true] at e ⊢
      split at e
      · cases e
      · rename_i mv hmv
        cases e
        obtain ⟨h1, e1, eb, hl, hag⟩ := writeSlot_sim hd hmv
        rw [e1]
        refine ⟨h1, _, rfl, ?_, hd.of_length (le_of_eq hl.symm), le_of_eq hl.symm,
          fun n _ hf => ⟨hf, hag n hf⟩⟩
        simp only [toDeque, eb]
    · simp only [ho, if_false] at e ⊢
      split at e
      · cases e
      · rename_i dv hdv
        obtain ⟨c1, ec1, et, hd1, hf1⟩ := grow_sim hd hdv
        subst et
        rw [ec1]
        simp only [toDeque, len_blocksOf] at e ⊢
        split at e
        · cases e
        · rename_i hbi
          rw [if_neg hbi]
          split at e
          · cases e
          · rename_i m2v hm2
            obtain ⟨h2, m2, e2, eb2, hd2, hl2, hag2, hf2⟩ := ensureBlock_sim hd1 hm2
            rw [e2]
            simp only []
            split at e
            · cases e
            · rename_i m3v hm3
              cases e
              rw [← eb2] at hm3
              obtain ⟨h3, e3, eb3, hl3, hag3⟩ := writeSlot_sim hd2 hm3
              rw [e3]
              refine ⟨h3, _, rfl, ?_, hd2.of_length (le_of_eq hl3.symm), by omega,
                fun n hn hf => ?_⟩
              · simp only [toDeque, eb3]
              · have f2 := hf2 n hn (hf1 n hf)
                exact ⟨f2, (fun a ha => (hag3 n f2 a ha).trans (hag2 a (by omega)))⟩

/-- `PushFront` through references is `PushFront` on the denoted state. -/
theorem PushFront_sim [Inhabited α] {h : List (List α)} {c : RefDeque} {x : α} {cv : Deque α}
    (hd : Distinct h c.mapData) (e : Deque.PushFront (toDeque h c) x = some cv) :
    ∃ h1 c1, RefDeque.PushFront h c x = some (h1, c1) ∧ toDeque h1 c1 = cv ∧
      Distinct h1 c1.mapData ∧ h.length ≤ h1.length ∧
      ∀ n, n ≤ h.length → Fresh n c.mapData → Fresh n c1.mapData ∧ Agree n h h1 := by
  unfold Deque.PushFront at e
  unfold RefDeque.PushFront
  have hie : Deque.IsEmpty (toDeque h c) = RefDeque.IsEmpty c := rfl
  rw [hie] at e
  simp only [toDeque, len_blocksOf] at e
  by_cases hemp : c.IsEmpty = true
  · simp only [hemp, if_true] at e ⊢
    split at e
    · cases e
    · rename_i mv hmv
      cases e
      obtain ⟨h1, e1, eb, hl, hag⟩ := writeSlot_sim hd hmv
      rw [e1]
      refine ⟨h1, _, rfl, ?_, hd.of_length (le_of_eq hl.symm), le_of_eq hl.symm,
        fun n _ hf => ⟨hf, hag n hf⟩⟩
      simp only [toDeque, eb]
  · simp only [hemp, Bool.false_eq_true, if_false] at e ⊢
    by_cases ho : c.headOffset > 0
    · simp only [ho, if_true] at e ⊢
      split at e
      · cases e
      · rename_i mv hmv
        cases e
        obtain ⟨h1, e1, eb, hl, hag⟩ := writeSlot_sim hd hmv
        rw [e1]
        refine ⟨h1, _, rfl, ?_, hd.of_length (le_of_eq hl.symm), le_of_eq hl.symm,
          fun n _ hf => ⟨hf, hag n hf⟩⟩
        simp only [toDeque, eb]
    · simp only [ho, if_false] at e ⊢
      split at e
      · cases e
      · rename_i dv hdv
        obtain ⟨c1, ec1, et, hd1, hf1⟩ := grow_sim hd hdv
        subst et
        rw [ec1]
        simp only [toDeque, len_blocksOf] at e ⊢
        split at e
        · cases e
        · rename_i hbi
          rw [if_neg hbi]
          split at e
          · cases e
          · rename_i m2v hm2
            obtain ⟨h2, m2, e2, eb2, hd2, hl2, hag2, hf2⟩ := ensureBlock_sim hd1 hm2
            rw [e2]
            simp only []
            split at e
            · cases e
            · rename_i m3v hm3
              cases e
              rw [← eb2] at hm3
              obtain ⟨h3, e3, eb3, hl3, hag3⟩ := writeSlot_sim hd2 hm3
              rw [e3]
              refine ⟨h3, _, rfl, ?_, hd2.of_length (le_of_eq hl3.symm), by omega,
                fun n hn hf => ?_⟩
              · simp only [toDeque, eb3]
              · have f2 := hf2 n hn (hf1 n hf)
                exact ⟨f2, (fun a ha => (hag3 n f2 a ha).trans (hag2 a (by omega)))⟩

/-- `Set` through references is `Set` on the denoted state. -/
theorem Set_sim {h : List (List α)} {c : RefDeque} {i : Int} {v : α} {cv : Deque α} {ok : Bool}
    (hd : Distinct h c.mapData) (e : Deque.Set (toDeque h c) i v = some (cv, ok)) :
    ∃ h1, RefDeque.Set h c i v = some (h1, c, ok) ∧ toDeque h1 c = cv ∧
      h1.length = h.length ∧ ∀ n, Fresh n c.mapData → Agree n h h1 := by
  unfold Deque.Set at e
  unfold RefDeque.Set
  simp only [toDeque] at e
  by_cases hi : i < 0 ∨ i ≥ c.size
  · simp only [hi, if_true] at e ⊢
    cases e
    exact ⟨h, rfl, rfl, rfl, fun n _ => Agree.same _ _⟩
  · simp only [hi, if_false] at e ⊢
    split at e
    · cases e
    · rename_i mv hmv
      cases e
      obtain ⟨h1, e1, eb, hl, hag⟩ := writeSlot_sim hd hmv
      refine ⟨h1, by rw [e1], ?_, hl, hag⟩
      simp only [toDeque, eb]

/-- `NewDeque` in a store: the denoted state is the new deque, its one block is
new, and the store is otherwise as before. -/
theorem NewDeque_sim [Inhabited α] (h : List (List α)) :
    toDeque (RefDeque.NewDeque h).1 (RefDeque.NewDeque h).2 = (Deque.NewDeque : Deque α) ∧
      Distinct (RefDeque.NewDeque h).1 (RefDeque.NewDeque h).2.mapData ∧
      Fresh h.length (RefDeque.NewDeque h).2.mapData ∧
      Agree h.length h (RefDeque.NewDeque h).1 ∧
      h.length ≤ (RefDeque.NewDeque h).1.length := by
  have hmem : ∀ a, some a ∈ (RefDeque.NewDeque h).2.mapData → a = h.length := by
    intro a ha
    simp only [RefDeque.NewDeque, initialMapSize] at ha
    rcases List.mem_or_eq_of_mem_set ha with h2 | h2
    · simp at h2
    · exact Option.some.inj h2
  refine ⟨?_, ⟨?_, ?_⟩, ?_, Agree.of_append _ _ _ (le_refl _), by simp [RefDeque.NewDeque]⟩
  · simp only [toDeque, RefDeque.NewDeque, Deque.NewDeque, blocksOf, initialMapSize]
    simp [List.map_set]
  · simp only [RefDeque.NewDeque, initialMapSize]
    apply nodup_set
    · rw [reduceOption_replicate]
      exact List.nodup_nil
    · simp
  · intro a ha
    rw [hmem a ha]
    simp [RefDeque.NewDeque]
  · intro a ha
    rw [hmem a ha]


/-- The loop of `Clone` through references follows the loop on the denoted
states, and it writes no block allocated before the clone. -/
theorem cloneLoop_sim [Inhabited α] {h0 : List (List α)} {d : RefDeque}
    (hb : Below h0.length d.mapData) :
    ∀ (n : Nat) (i : Int) (h : List (List α)) (c : RefDeque) (cv : Deque α),
      Distinct h c.mapData → Fresh h0.length c.mapData → Agree h0.length h0 h →
      h0.length ≤ h.length →
      Deque.cloneLoop (toDeque h0 d) (toDeque h c) i n = some cv →
      ∃ h1 c1, RefDeque.cloneLoop h d c i n = some (h1, c1) ∧ toDeque h1 c1 = cv ∧
        Distinct h1 c1.mapData ∧ Fresh h0.length c1.mapData ∧ Agree h0.length h0 h1 ∧
        h0.length ≤ h1.length := by
  intro n
  induction n with
  | zero =>
    intro i h c cv hd hf hag hl e
    simp only [Deque.cloneLoop, Option.some.injEq] at e
    exact ⟨h, c, rfl, e, hd, hf, hag, hl⟩
  | succ n ih =>
    intro i h c cv hd hf hag hl e
    have hat : RefDeque.At h d i = Deque.At (toDeque h0 d) i := by
      rw [At_toDeque, toDeque_agree hb hag]
    simp only [Deque.cloneLoop] at e
    simp only [RefDeque.cloneLoop, hat]
    split at e
    · cases e
    · rename_i v hv
      split at e
      · cases e
      · rename_i cv1 hp
        obtain ⟨h1, c1, e1, et, hd1, hl1, hk⟩ := PushBack_sim hd hp
        obtain ⟨hf1, hag1⟩ := hk h0.length hl hf
        subst et
        simp only [e1]
        exact ih (i + 1) h1 c1 cv hd1 hf1 (hag.chain hag1) (by omega) e

/-- `Clone` through references: it returns the clone of the denoted state,
built in blocks that are all new, and leaves every older block as it was. -/
theorem Clone_sim [Inhabited α] {h : List (List α)} {d : RefDeque} {cv : Deque α}
    (hb : Below h.length d.mapData) (e : Deque.Clone (toDeque h d) = some cv) :
    ∃ h1 c, RefDeque.Clone h d = some (h1, c) ∧ toDeque h1 c = cv ∧
      Distinct h1 c.mapData ∧ Fresh h.length c.mapData ∧ Agree h.length h h1 ∧
      h.length ≤ h1.length := by
  obtain ⟨e0, hd0, hf0, hag0, hl0⟩ := @NewDeque_sim α _ h
  unfold Deque.Clone at e
  rw [← e0] at e
  exact cloneLoop_sim hb _ _ _ _ _ hd0 hf0 hag0 hl0 e


/-- C21: `Clone` of a well-formed deque returns a deque that holds the same
list (same length, same element at every index, same `ToSlice`), equal to a new
deque filled by back-pushes; the call leaves `d` and all its blocks unchanged;
the clone refers to no block of `d`; and a later `PushBack`, `PushFront` or
`Set` on the clone returns and changes no element of `d`. -/
theorem clone_is_independent_copy [Inhabited α] (h : List (List α)) (d : RefDeque)
    (hb : Below h.length d.mapData) (hwf : Deque.WF (toDeque h d)) :
    ∃ h1 c l,
      RefDeque.Clone h d = some (h1, c) ∧
      Deque.Clone (toDeque h d) = some (toDeque h1 c) ∧
      Deque.pushBackAll Deque.NewDeque l = some (toDeque h1 c) ∧
      Deque.Rep (toDeque h d) l ∧ Deque.Rep (toDeque h1 c) l ∧
      Deque.Len (toDeque h1 c) = Deque.Len (toDeque h d) ∧
      (∀ i : Int, 0 ≤ i → i < Deque.Len (toDeque h d) →
        RefDeque.At h1 c i = RefDeque.At h d i) ∧
      Deque.ToSlice (toDeque h1 c) = Deque.ToSlice (toDeque h d) ∧
      toDeque h1 d = toDeque h d ∧
      (∀ a, some a ∈ c.mapData → some a ∉ d.mapData) ∧
      (∀ x, ∃ h2 c2, RefDeque.PushBack h1 c x = some (h2, c2) ∧
        ∀ j, RefDeque.At h2 d j = RefDeque.At h d j) ∧
      (∀ x, ∃ h2 c2, RefDeque.PushFront h1 c x = some (h2, c2) ∧
        ∀ j, RefDeque.At h2 d j = RefDeque.At h d j) ∧
      (∀ i v, ∃ h2 ok, RefDeque.Set h1 c i v = some (h2, c, ok) ∧
        ∀ j, RefDeque.At h2 d j = RefDeque.At h d j) := by
  obtain ⟨l, hh⟩ := hwf.exists_Holds
  obtain ⟨cv, ecv, hrep, hspan, hroom⟩ := Deque.pushBackAll_NewDeque l
  have hclone : Deque.Clone (toDeque h d) = some cv := by rw [Deque.Clone_eq hh, ecv]
  obtain ⟨h1, c, e1, et, hd1, hf1, hag1, hl1⟩ := Clone_sim hb hclone
  subst et
  have hsame : ∀ h2, Agree h.length h1 h2 → ∀ j, RefDeque.At h2 d j = RefDeque.At h d j := by
    intro h2 hag j
    rw [At_toDeque, At_toDeque, toDeque_agree hb (hag1.chain hag)]
  refine ⟨h1, c, l, e1, hclone, ecv, ⟨hwf, hh⟩, hrep, ?_, ?_, ?_, toDeque_agree hb hag1, ?_,
    ?_, ?_, ?_⟩
  · unfold Deque.Len
    rw [hrep.2.1, hh.1]
  · intro i h0 hi
    unfold Deque.Len at hi
    have hil : i.toNat < l.length := by have := hh.1; omega
    have e2 := hrep.2.2 i.toNat hil
    have e3 := hh.2 i.toNat hil
    rw [Int.toNat_of_nonneg h0] at e2 e3
    rw [At_toDeque, At_toDeque, e2, e3]
  · rw [Deque.ToSlice_of_Holds hrep.2, Deque.ToSlice_of_Holds hh]
  · intro a ha hda
    have := hf1 a ha
    have := hb a hda
    omega
  · intro x
    obtain ⟨cv2, ep, _⟩ := Deque.PushBack_spec _ x l hrep.1 hspan hrep.2
    obtain ⟨h2, c2, e2, _, _, _, hk⟩ := PushBack_sim hd1 ep
    exact ⟨h2, c2, e2, hsame h2 (hk h.length hl1 hf1).2⟩
  · intro x
    obtain ⟨cv2, ep, _⟩ := Deque.PushFront_spec_room _ x l hrep.1 hrep.2 hroom
    obtain ⟨h2, c2, e2, _, _, _, hk⟩ := PushFront_sim hd1 ep
    exact ⟨h2, c2, e2, hsame h2 (hk h.length hl1 hf1).2⟩
  · intro i v
    by_cases hi : i < 0 ∨ i ≥ (toDeque h1 c).size
    · have es : Deque.Set (toDeque h1 c) i v = some (toDeque h1 c, false) := by
        unfold Deque.Set
        rw [if_pos hi]
      obtain ⟨h2, e2, _, _, hk⟩ := Set_sim hd1 es
      exact ⟨h2, false, e2, hsame h2 (hk h.length hf1)⟩
    · have hsz := hrep.2.1
      have hil : i.toNat < l.length := by omega
      obtain ⟨cv2, es, _⟩ := Deque.Set_spec _ l hrep.1 hrep.2 i.toNat hil v
      rw [Int.toNat_of_nonneg (by omega)] at es
      obtain ⟨h2, e2, _, _, hk⟩ := Set_sim hd1 es
      exact ⟨h2, true, e2, hsame h2 (hk h.length hf1)⟩

/-- C21 witness: the deque after `PushBack 7` on a new deque in an empty
store. -/
theorem clone_is_independent_copy_witness :
    ∃ (h : List (List Nat)) (d : RefDeque),
      RefDeque.PushBack (RefDeque.NewDeque ([] : List (List Nat))).1
        (RefDeque.NewDeque ([] : List (List Nat))).2 7 = some (h, d) ∧
      Below h.length d.mapData ∧ Deque.WF (toDeque h d) ∧
      ∃ h1 c l,
        RefDeque.Clone h d = some (h1, c) ∧
        Deque.Clone (toDeque h d) = some (toDeque h1 c) ∧
        Deque.pushBackAll Deque.NewDeque l = some (toDeque h1 c) ∧
        Deque.Rep (toDeque h d) l ∧ Deque.Rep (toDeque h1 c) l ∧
        Deque.Len (toDeque h1 c) = Deque.Len (toDeque h d) ∧
        (∀ i : Int, 0 ≤ i → i < Deque.Len (toDeque h d) →
          RefDeque.At h1 c i = RefDeque.At h d i) ∧
        Deque.ToSlice (toDeque h1 c) = Deque.ToSlice (toDeque h d) ∧
        toDeque h1 d = toDeque h d ∧
        (∀ a, some a ∈ c.mapData → some a ∉ d.mapData) ∧
        (∀ x, ∃ h2 c2, RefDeque.PushBack h1 c x = some (h2, c2) ∧
          ∀ j, RefDeque.At h2 d j = RefDeque.At h d j) ∧
        (∀ x, ∃ h2 c2, RefDeque.PushFront h1 c x = some (h2, c2) ∧
          ∀ j, RefDeque.At h2 d j = RefDeque.At h d j) ∧
        (∀ i v, ∃ h2 ok, RefDeque.Set h1 c i v = some (h2, c, ok) ∧
          ∀ j, RefDeque.At h2 d j = RefDeque.At h d j) := by
  obtain ⟨e0, hd0, _, _, _⟩ := @NewDeque_sim Nat _ []
  obtain ⟨cv, ep, hw, _, _⟩ := Deque.PushBack_spec (Deque.NewDeque : Deque Nat) 7 []
    Deque.WF_NewDeque Deque.InSpan_NewDeque Deque.Holds_NewDeque
  rw [← e0] at ep
  obtain ⟨h, d, e1, et, hd1, _, _⟩ := PushBack_sim hd0 ep
  subst et
  exact ⟨h, d, e1, hd1.2, hw, clone_is_independent_copy h d hd1.2 hw⟩

end RefDeque

/-! ## The queue adapter on an empty queue -/

namespace Queue

variable {α : Type}

/-- C27: on the zero-value queue, whose deque pointer is nil and for which
`IsEmpty()` returns true, `Pop()`, `Front()` and `Back()` call `IsEmpty` on
the nil deque and panic instead of returning the zero value and false; on every
empty queue with a deque they return the zero value and false. -/
theorem zero_value_queue_panics [Inhabited α] :
    IsEmpty (zeroValue : Queue α) = true ∧ Len (zeroValue : Queue α) = 0 ∧
      Pop (zeroValue : Queue α) = none ∧ Front (zeroValue : Queue α) = none ∧
      Back (zeroValue : Queue α) = none ∧
      ∀ d : Deque α, IsEmpty { deque := some d } = true →
        Pop { deque := some d } = some ({ deque := some d }, default, false) ∧
        Front { deque := some d } = some (default, false) ∧
        Back { deque := some d } = some (default, false) := by
  refine ⟨rfl, rfl, rfl, rfl, rfl, fun d hd => ?_⟩
  have he : Deque.IsEmpty d = true := hd
  simp only [Pop, Front, Back, he, if_true, and_self]

end Queue

namespace Deque

variable {α : Type}

theorem pushFrontAll_append [Inhabited α] (xs ys : List α) :
    ∀ d : Deque α,
      pushFrontAll d (xs ++ ys) = (pushFrontAll d xs).bind fun d1 => pushFrontAll d1 ys := by
  induction xs with
  | nil => intro d; rfl
  | cons x xs ih =>
    intro d
    simp only [List.cons_append, pushFrontAll]
    cases PushFront d x with
    | none => rfl
    | some d1 => exact ih d1

/-! ## Where reachable states keep their cursors -/

theorem Sound.of_set {d d1 : Deque α} {i : Int} {v : α} {ok : Bool} (h : Sound d)
    (e : Set d i v = some (d1, ok)) : Sound d1 := by
  unfold Set at e
  split at e
  · cases e; exact h
  · simp only [] at e
    split at e
    · cases e
    · rename_i m hm
      cases e
      exact h.of_write hm rfl rfl rfl h.size_nonneg h.empty_canon

/-- The optional growth of a push keeps the cursors and their placement in the
map, and leaves a map with sound bookkeeping. -/
theorem grow_placed {c : Prop} [Decidable c] {d d1 : Deque α} (h : Placed d)
    (e : (if c then expandMap d else some d) = some d1) :
    d1.headBlock = d.headBlock ∧ d1.headOffset = d.headOffset ∧ d1.tailBlock = d.tailBlock ∧
      d1.tailOffset = d.tailOffset ∧ d1.size = d.size ∧
      d1.mapSize = len d1.mapData ∧ 0 ≤ d1.mapStart ∧ d1.mapEnd ≤ d1.mapSize ∧
      d1.mapStart + 2 ≤ d1.mapSize ∧ 0 ≤ d1.mapStart + d1.headBlock ∧
      d1.mapStart + d1.tailBlock < d1.mapEnd ∧ BlocksOK d1.mapData ∧
      (c → d.mapStart + 1 ≤ d1.mapStart ∧ d1.mapEnd + 1 ≤ d1.mapSize) := by
  have hs := h.sound
  have a1 := hs.mapLen
  have a2 := hs.mapStart_nonneg
  have a3 := hs.mapStart_lt
  have a4 := hs.mapEnd_le
  have a5 := h.room
  have a6 := h.head_slot
  have a7 := h.tail_slot
  by_cases hc : c
  · rw [if_pos hc] at e
    obtain ⟨d2, e2, b1, b2, b3, b4, b5, b6, b7, b8, b9, _, _⟩ :=
      expandMap_spec d a1 a2 (le_of_lt a3) a4
    obtain ⟨d3, e3, hr⟩ := hs.regrown
    rw [e] at e2 e3
    cases e2
    cases e3
    refine ⟨b5, b6, b7, b8, b9, by omega, by omega, by omega, by omega, by omega, by omega,
      hr.blocks, fun _ => ⟨by omega, by omega⟩⟩
  · rw [if_neg hc] at e
    cases e
    exact ⟨rfl, rfl, rfl, rfl, rfl, a1, a2, a4, a5, a6, a7, hs.blocks, fun hcc => absurd hcc hc⟩

theorem Placed.at_new [Inhabited α] : Placed (NewDeque : Deque α) :=
  { sound := WF_NewDeque.sound
    cursors := Cursors.initial
    room := by simp only [NewDeque, initialMapSize]; omega
    head_slot := by simp only [NewDeque, initialMapSize]; omega
    tail_slot := by simp only [NewDeque, initialMapSize]; omega }

theorem Placed.after_pushBack [Inhabited α] {d d1 : Deque α} {x : α} (h : Placed d)
    (e : PushBack d x = some d1) : Placed d1 := by
  refine ⟨h.sound.pushBack e, h.cursors.keep_pushBack e, ?_, ?_, ?_⟩ <;>
  · have a5 := h.room
    have a6 := h.head_slot
    have a7 := h.tail_slot
    unfold PushBack at e
    split at e
    · split at e
      · cases e
      · cases e; assumption
    · split at e
      · split at e
        · cases e
        · cases e; assumption
      · split at e
        · cases e
        · rename_i d0 hd0
          obtain ⟨c1, c2, c3, c4, c5, c6, c7, c8, c9, c10, c11, _, _⟩ := grow_placed h hd0
          simp only [] at e
          split at e
          · cases e
          · split at e
            · cases e
            · split at e
              · cases e
              · cases e
                simp only
                first
                  | assumption
                  | omega

theorem Placed.after_pushFront [Inhabited α] {d d1 : Deque α} {x : α} (h : Placed d)
    (e : PushFront d x = some d1) : Placed d1 := by
  refine ⟨h.sound.pushFront e, h.cursors.keep_pushFront e, ?_, ?_, ?_⟩ <;>
  · have a5 := h.room
    have a6 := h.head_slot
    have a7 := h.tail_slot
    have a8 := h.cursors.headOffset_lo
    unfold PushFront at e
    split at e
    · split at e
      · cases e
      · cases e; assumption
    · split at e
      · split at e
        · cases e
        · cases e; assumption
      · split at e
        · cases e
        · rename_i d0 hd0
          obtain ⟨c1, c2, c3, c4, c5, c6, c7, c8, c9, c10, c11, _, _⟩ := grow_placed h hd0
          simp only [] at e
          split at e
          · cases e
          · rename_i hbi
            split at e
            · cases e
            · split at e
              · cases e
              · cases e
                simp only
                first
                  | assumption
                  | omega

theorem Placed.after_popBack [Inhabited α] {d d1 : Deque α} {r : α × Bool} (h : Placed d)
    (e : PopBack d = some (d1, r)) : Placed d1 := by
  refine ⟨h.sound.popBack e, h.cursors.keep_popBack e, ?_, ?_, ?_⟩ <;>
  · have a2 := h.sound.mapStart_nonneg
    have a3 := h.sound.mapStart_lt
    have a5 := h.room
    have a6 := h.head_slot
    have a7 := h.tail_slot
    obtain ⟨b1, b2, b3, b4, b5, _, b7⟩ := h.cursors
    simp only [tailPos, headPos, blockSize] at b2 b4 b7
    unfold PopBack at e
    split at e
    · cases e; assumption
    · rename_i hemp
      have hne : d.size ≠ 0 := by simpa [IsEmpty] using hemp
      have b8 := b7 (by omega)
      split at e
      · cases e
      · split at e
        · cases e
        · split at e
          · cases e; simp only; omega
          · split at e <;> cases e <;> simp only <;> omega

theorem Placed.after_popFront [Inhabited α] {d d1 : Deque α} {r : α × Bool} (h : Placed d)
    (e : PopFront d = some (d1, r)) : Placed d1 := by
  refine ⟨h.sound.popFront e, h.cursors.keep_popFront e, ?_, ?_, ?_⟩ <;>
  · have a2 := h.sound.mapStart_nonneg
    have a3 := h.sound.mapStart_lt
    have a5 := h.room
    have a6 := h.head_slot
    have a7 := h.tail_slot
    obtain ⟨b1, b2, b3, b4, b5, _, b7⟩ := h.cursors
    simp only [tailPos, headPos, blockSize] at b2 b4 b7
    unfold PopFront at e
    split at e
    · cases e; assumption
    · rename_i hemp
      have hne : d.size ≠ 0 := by simpa [IsEmpty] using hemp
      have b8 := b7 (by omega)
      split at e
      · cases e
      · split at e
        · cases e
        · split at e
          · cases e; simp only; omega
          · split at e <;> cases e <;> simp only <;> omega

theorem Placed.after_set {d d1 : Deque α} {i : Int} {v : α} {ok : Bool} (h : Placed d)
    (e : Set d i v = some (d1, ok)) : Placed d1 := by
  refine ⟨h.sound.of_set e, h.cursors.keep_set e, ?_, ?_, ?_⟩ <;>
  · have a5 := h.room
    have a6 := h.head_slot
    have a7 := h.tail_slot
    unfold Set at e
    split at e
    · cases e; assumption
    · simp only [] at e
      split at e
      · cases e
      · cases e; assumption

theorem Placed.is_stable [Inhabited α] : Stable (Placed : Deque α → Prop) :=
  { new := Placed.at_new
    pushBack := fun _ _ _ h e => h.after_pushBack e
    pushFront := fun _ _ _ h e => h.after_pushFront e
    popBack := fun _ _ _ h e => h.after_popBack e
    popFront := fun _ _ _ h e => h.after_popFront e
    set := fun _ _ _ _ _ h e => h.after_set e }


/-- C31: in every state reachable from `NewDeque` by the public operations, a
size of 0 comes with canonical cursors (`headBlock = tailBlock = 0`,
`headOffset = tailOffset = 64`) and an allocated block at map slot `mapStart`;
and from a reachable state of size 1 every `PopBack` or `PopFront` that returns
leaves size 0 with the cursors reset to that form. -/
theorem empty_reachable_is_canonical [Inhabited α] (d : Deque α) (hr : Reach d) :
    (d.size = 0 →
      d.headBlock = 0 ∧ d.tailBlock = 0 ∧ d.headOffset = 64 ∧ d.tailOffset = 64 ∧
        AllocAt d.mapData d.mapStart) ∧
    (d.size = 1 → ∀ (d1 : Deque α) (r : α × Bool),
      PopBack d = some (d1, r) ∨ PopFront d = some (d1, r) →
        d1.size = 0 ∧ d1.headBlock = 0 ∧ d1.tailBlock = 0 ∧ d1.headOffset = 64 ∧
          d1.tailOffset = 64 ∧ AllocAt d1.mapData d1.mapStart) := by
  have canon : ∀ c : Deque α, Reach c → c.size = 0 →
      c.headBlock = 0 ∧ c.tailBlock = 0 ∧ c.headOffset = 64 ∧ c.tailOffset = 64 ∧
        AllocAt c.mapData c.mapStart := by
    intro c hc h0
    have hs := (Placed.is_stable.reach hc).sound
    obtain ⟨a1, a2, a3, a4⟩ := hs.empty_canon h0
    simp only [blockSize] at a3 a4
    exact ⟨a1, a2, by omega, by omega, hs.first⟩
  refine ⟨canon d hr, fun h1 d1 r e => ?_⟩
  have hemp : d.IsEmpty = false := by simp [IsEmpty, h1]
  have hsz : d1.size = 0 := by
    rcases e with e | e
    · unfold PopBack at e
      simp only [hemp, Bool.false_eq_true, if_false, h1, if_true] at e
      split at e
      · cases e
      · split at e
        · cases e
        · cases e; rfl
    · unfold PopFront at e
      simp only [hemp, Bool.false_eq_true, if_false, h1, if_true] at e
      split at e
      · cases e
      · split at e
        · cases e
        · cases e; rfl
  have hr1 : Reach d1 := by
    rcases e with e | e
    · exact Reach.popBack r hr e
    · exact Reach.popFront r hr e
  exact ⟨hsz, canon d1 hr1 hsz⟩

/-- C31 witness: the state of size 1 after `PushBack 1, PushBack 2, PopBack`
on a new deque, the `PopFront` that removes its last element, and the empty
state that pop leaves. -/
theorem empty_reachable_is_canonical_witness :
    ∃ d d1 : Deque Nat,
      run NewDeque [Op.pushBack 1, Op.pushBack 2, Op.popBack] = some (d, [(2, true)]) ∧
      Reach d ∧ d.size = 1 ∧ PopFront d = some (d1, 1, true) ∧ Reach d1 ∧
      (d1.size = 0 ∧ d1.headBlock = 0 ∧ d1.tailBlock = 0 ∧ d1.headOffset = 64 ∧
        d1.tailOffset = 64 ∧ AllocAt d1.mapData d1.mapStart) ∧
      (d1.headBlock = 0 ∧ d1.tailBlock = 0 ∧ d1.headOffset = 64 ∧ d1.tailOffset = 64 ∧
        AllocAt d1.mapData d1.mapStart) := by
  obtain ⟨d, e, w, _, hh⟩ := run_refines
    [Op.pushBack 1, Op.pushBack (2 : Nat), Op.popBack] NewDeque []
    WF_NewDeque InSpan_NewDeque Holds_NewDeque (by decide)
  have hr : Reach d := Reach.of_run _ NewDeque d _ Reach.new e
  have hh1 : Holds d [1] := hh
  obtain ⟨d1, e1, _, _⟩ := PopFront_spec d 1 [] w hh1
  have hr1 : Reach d1 := Reach.popFront _ hr e1
  have hpop := (empty_reachable_is_canonical d hr).2 hh1.1 d1 (1, true) (Or.inr e1)
  exact ⟨d, d1, e, hr, hh1.1, e1, hr1, hpop, (empty_reachable_is_canonical d1 hr1).1 hpop.1⟩

/-- C32: in every state reachable from `NewDeque` by the public operations,
`0 ≤ mapStart < mapEnd ≤ mapSize` and `mapSize = len(mapData)`; `expandMap`
on such a state returns a state with the same bounds. -/
theorem reachable_map_bounds [Inhabited α] (d : Deque α) (hr : Reach d) :
    0 ≤ d.mapStart ∧ d.mapStart < d.mapEnd ∧ d.mapEnd ≤ d.mapSize ∧
      d.mapSize = len d.mapData ∧
      ∃ d1, expandMap d = some d1 ∧ 0 ≤ d1.mapStart ∧ d1.mapStart < d1.mapEnd ∧
        d1.mapEnd ≤ d1.mapSize ∧ d1.mapSize = len d1.mapData := by
  have hs := (Placed.is_stable.reach hr).sound
  have a3 := hs.mapStart_lt
  obtain ⟨d1, e, g⟩ := hs.regrown
  have b1 := g.span
  exact ⟨hs.mapStart_nonneg, hs.mapStart_lt, hs.mapEnd_le, hs.mapLen, d1, e, g.mapStart_nonneg,
    by omega, g.mapEnd_le, g.mapLen⟩

/-- C32 witness: the state after `PushBack 1, PushBack 2, PopFront,
PushBack 3` on a new deque. -/
theorem reachable_map_bounds_witness :
    ∃ d : Deque Nat,
      run NewDeque [Op.pushBack 1, Op.pushBack 2, Op.popFront, Op.pushBack 3] =
        some (d, [(1, true)]) ∧ Reach d ∧
      0 ≤ d.mapStart ∧ d.mapStart < d.mapEnd ∧ d.mapEnd ≤ d.mapSize ∧
      d.mapSize = len d.mapData ∧
      ∃ d1, expandMap d = some d1 ∧ 0 ≤ d1.mapStart ∧ d1.mapStart < d1.mapEnd ∧
        d1.mapEnd ≤ d1.mapSize ∧ d1.mapSize = len d1.mapData := by
  obtain ⟨d, e, _, _, _⟩ := run_refines
    [Op.pushBack 1, Op.pushBack 2, Op.popFront, Op.pushBack (3 : Nat)] NewDeque []
    WF_NewDeque InSpan_NewDeque Holds_NewDeque (by decide)
  have hr : Reach d := Reach.of_run _ NewDeque d _ Reach.new e
  exact ⟨d, e, hr, reachable_map_bounds d hr⟩

/-- The second half of a push that moves to an adjacent block returns once the
target slot is inside the map: the lazy allocation and the write succeed. -/
theorem ensure_then_write [Inhabited α] {m : List (Option (List α))} {i j : Int} (x : α)
    (h0 : 0 ≤ i) (h1 : i < len m) (hb : BlocksOK m) (hj0 : 0 ≤ j) (hj1 : j < blockSize) :
    ∃ m2 m3, ensureBlock m i = some m2 ∧ writeSlot m2 i j x = some m3 := by
  obtain ⟨m2, e2, _, _, ha, _, _⟩ := ensureBlock_spec h0 h1 hb
  obtain ⟨m3, e3⟩ := writeSlot_isSome x ha hj0 hj1
  exact ⟨m2, m3, e2, e3⟩

/-- C35: in every state reachable from `NewDeque` by the public operations, when
a push has to move to the adjacent block (non-empty deque, tail at offset 127
for `PushBack`, head at offset 0 for `PushFront`), the growth check returns,
the target slot `mapStart + tailBlock + 1` (resp. `mapStart + headBlock - 1`)
of the state after it lies in `[0, len(mapData))`, and the push returns. -/
theorem adjacent_block_slot_in_map [Inhabited α] (d : Deque α) (hr : Reach d) (x : α) :
    (d.IsEmpty = false → ¬ d.tailOffset < blockSize - 1 →
      ∃ d1, (if d.mapStart + d.tailBlock + 1 ≥ len d.mapData then expandMap d else some d) =
          some d1 ∧
        0 ≤ d1.mapStart + (d1.tailBlock + 1) ∧
        ¬ (d1.mapStart + (d1.tailBlock + 1) ≥ len d1.mapData) ∧
        ∃ d2, PushBack d x = some d2) ∧
    (d.IsEmpty = false → ¬ d.headOffset > 0 →
      ∃ d1, (if d.mapStart + d.headBlock - 1 < 0 then expandMap d else some d) = some d1 ∧
        ¬ (d1.mapStart + (d1.headBlock - 1) < 0 ∨
          d1.mapStart + (d1.headBlock - 1) ≥ len d1.mapData) ∧
        ∃ d2, PushFront d x = some d2) := by
  have hp := Placed.is_stable.reach hr
  have hs := hp.sound
  have a1 := hs.mapLen
  have a2 := hs.mapStart_nonneg
  have a3 := hs.mapStart_lt
  have a4 := hs.mapEnd_le
  have a5 := hp.room
  have a6 := hp.head_slot
  have a7 := hp.tail_slot
  obtain ⟨b1, b2, b3, b4, b5, _, b7⟩ := hp.cursors
  have hgrow : ∀ (c : Prop) [Decidable c], ∃ d1, (if c then expandMap d else some d) = some d1 := by
    intro c _
    by_cases hc : c
    · rw [if_pos hc]
      obtain ⟨d1, e, _⟩ := hs.regrown
      exact ⟨d1, e⟩
    · rw [if_neg hc]
      exact ⟨d, rfl⟩
  constructor
  · intro hemp hto
    have hne : d.size ≠ 0 := by simpa [IsEmpty] using hemp
    have b8 := b7 (by omega)
    simp only [tailPos, headPos, blockSize] at b8 b2 b4
    obtain ⟨d1, e1⟩ := hgrow (d.mapStart + d.tailBlock + 1 ≥ len d.mapData)
    obtain ⟨c1, c2, c3, c4, c5, c6, c7, c8, c9, c10, c11, c12, c13⟩ := grow_placed hp e1
    have hlt : ¬ (d1.mapStart + (d1.tailBlock + 1) ≥ len d1.mapData) := by
      by_cases hc : d.mapStart + d.tailBlock + 1 ≥ len d.mapData
      · have := c13 hc
        omega
      · rw [if_neg hc] at e1
        cases e1
        omega
    have h0 : 0 ≤ d1.mapStart + (d1.tailBlock + 1) := by omega
    refine ⟨d1, e1, h0, hlt, ?_⟩
    obtain ⟨m2, m3, e2, e3⟩ := ensure_then_write x h0 (by omega) c12 (le_refl 0)
      (by simp [blockSize] : (0 : Int) < blockSize)
    unfold PushBack
    simp only [hemp, Bool.false_eq_true, if_false, hto, e1, hlt, e2, e3]
    exact ⟨_, rfl⟩
  · intro hemp hho
    have hne : d.size ≠ 0 := by simpa [IsEmpty] using hemp
    have b8 := b7 (by omega)
    simp only [tailPos, headPos, blockSize] at b8 b2 b4
    obtain ⟨d1, e1⟩ := hgrow (d.mapStart + d.headBlock - 1 < 0)
    obtain ⟨c1, c2, c3, c4, c5, c6, c7, c8, c9, c10, c11, c12, c13⟩ := grow_placed hp e1
    have hin : ¬ (d1.mapStart + (d1.headBlock - 1) < 0 ∨
        d1.mapStart + (d1.headBlock - 1) ≥ len d1.mapData) := by
      by_cases hc : d.mapStart + d.headBlock - 1 < 0
      · have := c13 hc
        omega
      · rw [if_neg hc] at e1
        cases e1
        omega
    refine ⟨d1, e1, hin, ?_⟩
    obtain ⟨m2, m3, e2, e3⟩ := ensure_then_write x (by omega : 0 ≤ d1.mapStart + (d1.headBlock - 1))
      (by omega) c12 (by simp [blockSize] : (0 : Int) ≤ blockSize - 1)
      (by simp [blockSize] : blockSize - 1 < blockSize)
    unfold PushFront
    simp only [hemp, Bool.false_eq_true, if_false, hho, e1, hin, e2, e3]
    exact ⟨_, rfl⟩


/-- C35 witness: the state after 64 `PushBack(0)` on a new deque, whose tail is
at offset 127 of its block. -/
theorem adjacent_block_slot_in_map_witness :
    ∃ d : Deque Nat, pushBackAll NewDeque (List.replicate 64 0) = some d ∧ Reach d ∧
      d.IsEmpty = false ∧ ¬ d.tailOffset < blockSize - 1 ∧
      ((d.IsEmpty = false → ¬ d.tailOffset < blockSize - 1 →
        ∃ d1, (if d.mapStart + d.tailBlock + 1 ≥ len d.mapData then expandMap d else some d) =
            some d1 ∧
          0 ≤ d1.mapStart + (d1.tailBlock + 1) ∧
          ¬ (d1.mapStart + (d1.tailBlock + 1) ≥ len d1.mapData) ∧
          ∃ d2, PushBack d 1 = some d2) ∧
      (d.IsEmpty = false → ¬ d.headOffset > 0 →
        ∃ d1, (if d.mapStart + d.headBlock - 1 < 0 then expandMap d else some d) = some d1 ∧
          ¬ (d1.mapStart + (d1.headBlock - 1) < 0 ∨
            d1.mapStart + (d1.headBlock - 1) ≥ len d1.mapData) ∧
          ∃ d2, PushFront d 1 = some d2)) := by
  obtain ⟨d, e, w, _, hh, hb, ho⟩ := pushBackAll_head (List.replicate 64 (0 : Nat))
    (NewDeque : Deque Nat) [] WF_NewDeque InSpan_NewDeque Holds_NewDeque
  have hr : Reach d := Reach.of_pushBackAll _ NewDeque d Reach.new e
  have hsz : d.size = 64 := by rw [hh.1]; simp
  have hc := w.cursors (by omega)
  have t0 := w.tailOffset_lo
  have t1 := w.tailOffset_hi
  have hb0 : d.headBlock = 0 := hb
  have ho0 : d.headOffset = 64 := ho
  simp only [tailPos, headPos, blockSize] at hc t1
  refine ⟨d, e, hr, by simp [IsEmpty, hsz], ?_, adjacent_block_slot_in_map d hr 1⟩
  simp only [blockSize]
  omega

/-- C33: on a state with `0 ≤ mapStart < mapEnd ≤ mapSize = len(mapData)`,
`expandMap` returns a state whose map has exactly `2 * mapSize` slots, with
`mapStart = (2 * mapSize - (mapEnd - mapStart)) / 2` (the truncated and the
floor quotient agree) and `mapEnd = mapStart + (old mapEnd - old mapStart)`;
the block of old slot `mapStart + j` is at new slot `newMapStart + j` for every
`0 ≤ j < mapEnd - mapStart`, every other new slot is nil, and cursors and size
are unchanged. -/
theorem expandMap_recentres (d : Deque α) (h0 : 0 ≤ d.mapStart) (h1 : d.mapStart < d.mapEnd)
    (h2 : d.mapEnd ≤ d.mapSize) (hM : d.mapSize = len d.mapData) :
    ∃ d1, expandMap d = some d1 ∧
      d1.mapSize = 2 * d.mapSize ∧ len d1.mapData = 2 * d.mapSize ∧
      d1.mapStart = (2 * d.mapSize - (d.mapEnd - d.mapStart)) / 2 ∧
      d1.mapStart = Int.tdiv (2 * d.mapSize - (d.mapEnd - d.mapStart)) 2 ∧
      d1.mapEnd = d1.mapStart + (d.mapEnd - d.mapStart) ∧
      (∀ j, 0 ≤ j → j < d.mapEnd - d.mapStart →
        idx d1.mapData (d1.mapStart + j) = idx d.mapData (d.mapStart + j)) ∧
      (∀ k, 0 ≤ k → k < 2 * d.mapSize → (k < d1.mapStart ∨ d1.mapEnd ≤ k) →
        idx d1.mapData k = some none) ∧
      d1.headBlock = d.headBlock ∧ d1.headOffset = d.headOffset ∧
      d1.tailBlock = d.tailBlock ∧ d1.tailOffset = d.tailOffset ∧ d1.size = d.size := by
  obtain ⟨d1, e, b1, b2, b3, b4, b5, b6, b7, b8, b9, hin, hout⟩ :=
    expandMap_spec d hM h0 (le_of_lt h1) h2
  refine ⟨d1, e, b1, b2, b3, ?_, b4, hin, hout, b5, b6, b7, b8, b9⟩
  rw [b3, Int.tdiv_eq_ediv (by omega) (by omega)]

/-- C33 witness: `expandMap` on a new deque. -/
theorem expandMap_recentres_witness :
    ∃ d1, expandMap (NewDeque : Deque Nat) = some d1 ∧
      d1.mapSize = 2 * (NewDeque : Deque Nat).mapSize ∧
      len d1.mapData = 2 * (NewDeque : Deque Nat).mapSize ∧
      d1.mapStart = (2 * (NewDeque : Deque Nat).mapSize -
        ((NewDeque : Deque Nat).mapEnd - (NewDeque : Deque Nat).mapStart)) / 2 ∧
      d1.mapStart = Int.tdiv (2 * (NewDeque : Deque Nat).mapSize -
        ((NewDeque : Deque Nat).mapEnd - (NewDeque : Deque Nat).mapStart)) 2 ∧
      d1.mapEnd = d1.mapStart + ((NewDeque : Deque Nat).mapEnd - (NewDeque : Deque Nat).mapStart) ∧
      (∀ j, 0 ≤ j → j < (NewDeque : Deque Nat).mapEnd - (NewDeque : Deque Nat).mapStart →
        idx d1.mapData (d1.mapStart + j) =
          idx (NewDeque : Deque Nat).mapData ((NewDeque : Deque Nat).mapStart + j)) ∧
      (∀ k, 0 ≤ k → k < 2 * (NewDeque : Deque Nat).mapSize →
        (k < d1.mapStart ∨ d1.mapEnd ≤ k) → idx d1.mapData k = some none) ∧
      d1.headBlock = (NewDeque : Deque Nat).headBlock ∧
      d1.headOffset = (NewDeque : Deque Nat).headOffset ∧
      d1.tailBlock = (NewDeque : Deque Nat).tailBlock ∧
      d1.tailOffset = (NewDeque : Deque Nat).tailOffset ∧
      d1.size = (NewDeque : Deque Nat).size :=
  expandMap_recentres (NewDeque : Deque Nat) (by decide) (by decide) (by decide) rfl

/-- A write to a slot keeps, for every map slot, whether it is nil. -/
theorem writeSlot_nil_iff {m m1 : List (Option (List α))} {i j : Int} {v : α}
    (h : writeSlot m i j v = some m1) (k : Int) :
    idx m1 k = some none ↔ idx m k = some none := by
  obtain ⟨b, b1, h1, h2, h3⟩ := writeSlot_eq_some.mp h
  by_cases hk : k = i
  · subst hk
    rw [idx_setIdx_same h3, h1]
    simp
  · rw [idx_setIdx_other h3 hk]

/-- A write to a slot allocates no block. -/
theorem AllocAt_of_writeSlot {m m1 : List (Option (List α))} {i j k : Int} {v : α}
    (h : writeSlot m i j v = some m1) (ha : AllocAt m1 k) : AllocAt m k := by
  obtain ⟨b, b1, h1, h2, h3⟩ := writeSlot_eq_some.mp h
  by_cases hk : k = i
  · subst hk
    obtain ⟨c, hc, hl⟩ := ha
    rw [idx_setIdx_same h3] at hc
    cases hc
    exact ⟨b, h1, by rw [← len_setIdx h2]; exact hl⟩
  · obtain ⟨c, hc, hl⟩ := ha
    rw [idx_setIdx_other h3 hk] at hc
    exact ⟨c, hc, hl⟩

/-- C34: on a well-formed deque `Set(i, v)` returns a state with the size, the
map size, `mapStart`, `mapEnd`, both cursors, the map length and the set of
allocated (and of nil) map slots of the state before; outside `0 ≤ i < size` it
returns false and the state itself; inside it returns true, the slot addressed
by `i` holds `v`, and every other slot of every block reads as before. -/
theorem set_frame (d : Deque α) (i : Int) (v : α) (hwf : WF d) :
    ∃ d1 ok, Set d i v = some (d1, ok) ∧
      d1.size = d.size ∧ d1.mapSize = d.mapSize ∧ d1.mapStart = d.mapStart ∧
      d1.mapEnd = d.mapEnd ∧ d1.headBlock = d.headBlock ∧ d1.headOffset = d.headOffset ∧
      d1.tailBlock = d.tailBlock ∧ d1.tailOffset = d.tailOffset ∧
      len d1.mapData = len d.mapData ∧
      (∀ k, AllocAt d1.mapData k ↔ AllocAt d.mapData k) ∧
      (∀ k, idx d1.mapData k = some none ↔ idx d.mapData k = some none) ∧
      (ok = true ↔ 0 ≤ i ∧ i < d.size) ∧
      (ok = false → d1 = d) ∧
      (ok = true →
        readSlot d1.mapData (d.mapStart + (d.headBlock + (d.headOffset + i) / 128))
          ((d.headOffset + i) % 128) = some v ∧
        ∀ k j, k ≠ d.mapStart + (d.headBlock + (d.headOffset + i) / 128) ∨
            j ≠ (d.headOffset + i) % 128 →
          readSlot d1.mapData k j = readSlot d.mapData k j) := by
  by_cases hi : i < 0 ∨ i ≥ d.size
  · refine ⟨d, false, by unfold Set; rw [if_pos hi], rfl, rfl, rfl, rfl, rfl, rfl, rfl, rfl, rfl,
      fun _ => Iff.rfl, fun _ => Iff.rfl, ?_, fun _ => rfl, fun h => (by cases h)⟩
    constructor
    · intro h; cases h
    · intro h; omega
  · have ho0 := hwf.headOffset_lo
    have ha := hwf.slot_alloc i (by omega) (by omega)
    simp only [blockSize] at ha
    have hdiv : Int.tdiv (d.headOffset + i) blockSize = (d.headOffset + i) / 128 := by
      simp only [blockSize]
      exact Int.tdiv_eq_ediv (by omega) (by omega)
    have hmod : Int.tmod (d.headOffset + i) blockSize = (d.headOffset + i) % 128 := by
      simp only [blockSize]
      exact Int.tmod_eq_emod (by omega) (by omega)
    have hj0 : 0 ≤ (d.headOffset + i) % 128 := by omega
    have hj1 : (d.headOffset + i) % 128 < blockSize := by simp only [blockSize]; omega
    obtain ⟨m, hm⟩ := writeSlot_isSome v ha hj0 hj1
    have e : Set d i v = some ({ d with mapData := m }, true) := by
      unfold Set
      simp only [if_neg hi, hdiv, hmod, hm]
    refine ⟨{ d with mapData := m }, true, e, rfl, rfl, rfl, rfl, rfl, rfl, rfl, rfl,
      len_writeSlot hm, fun k => ⟨AllocAt_of_writeSlot hm, AllocAt_writeSlot hm⟩,
      writeSlot_nil_iff hm, ?_, fun h => (by cases h), fun _ =>
        ⟨readSlot_writeSlot_same hm, fun k j hne => readSlot_writeSlot_other hm hne⟩⟩
    constructor
    · intro _; omega
    · intro _; rfl

/-- C34 witness: the deque built by pushing `1, 2, 3`, with `Set(1, 9)`. -/
theorem set_frame_witness :
    ∃ d : Deque Nat, pushBackAll NewDeque [1, 2, 3] = some d ∧ WF d ∧
      ∃ d1 ok, Set d 1 9 = some (d1, ok) ∧
        d1.size = d.size ∧ d1.mapSize = d.mapSize ∧ d1.mapStart = d.mapStart ∧
        d1.mapEnd = d.mapEnd ∧ d1.headBlock = d.headBlock ∧ d1.headOffset = d.headOffset ∧
        d1.tailBlock = d.tailBlock ∧ d1.tailOffset = d.tailOffset ∧
        len d1.mapData = len d.mapData ∧
        (∀ k, AllocAt d1.mapData k ↔ AllocAt d.mapData k) ∧
        (∀ k, idx d1.mapData k = some none ↔ idx d.mapData k = some none) ∧
        (ok = true ↔ 0 ≤ (1 : Int) ∧ 1 < d.size) ∧
        (ok = false → d1 = d) ∧
        (ok = true →
          readSlot d1.mapData (d.mapStart + (d.headBlock + (d.headOffset + 1) / 128))
            ((d.headOffset + 1) % 128) = some 9 ∧
          ∀ k j, k ≠ d.mapStart + (d.headBlock + (d.headOffset + 1) / 128) ∨
              j ≠ (d.headOffset + 1) % 128 →
            readSlot d1.mapData k j = readSlot d.mapData k j) := by
  obtain ⟨d, e, r, _, _⟩ := pushBackAll_NewDeque [1, 2, (3 : Nat)]
  exact ⟨d, e, r.1, set_frame d 1 9 r.1⟩

/-- C36: on a well-formed non-empty deque `PopBack` (resp. `PopFront`) returns,
and in the state it leaves the slot at the tail (resp. head) cursor position of
the state before holds the zero value, whether or not the pop removed the last
element and reset the cursors; the map keeps its `mapStart`. -/
theorem pop_zeroes_vacated_slot [Inhabited α] (d : Deque α) (hwf : WF d) (hne : d.size ≠ 0) :
    (∃ d1 e, PopBack d = some (d1, e, true) ∧ d1.mapStart = d.mapStart ∧
      readSlot d1.mapData (d.mapStart + d.tailBlock) d.tailOffset = some default) ∧
    (∃ d1 e, PopFront d = some (d1, e, true) ∧ d1.mapStart = d.mapStart ∧
      readSlot d1.mapData (d.mapStart + d.headBlock) d.headOffset = some default) := by
  have hemp : d.IsEmpty = false := by simp [IsEmpty, hne]
  constructor
  · obtain ⟨e, he⟩ := readSlot_isSome hwf.tail_alloc hwf.tailOffset_lo hwf.tailOffset_hi
    obtain ⟨m, hm⟩ := writeSlot_isSome (default : α) hwf.tail_alloc hwf.tailOffset_lo
      hwf.tailOffset_hi
    have hz := readSlot_writeSlot_same hm
    unfold PopBack
    simp only [hemp, Bool.false_eq_true, if_false, he, hm]
    by_cases h1 : d.size = 1
    · rw [if_pos h1]
      exact ⟨_, e, rfl, rfl, hz⟩
    · rw [if_neg h1]
      by_cases h2 : d.tailOffset > 0
      · rw [if_pos h2]
        exact ⟨_, e, rfl, rfl, hz⟩
      · rw [if_neg h2]
        exact ⟨_, e, rfl, rfl, hz⟩
  · obtain ⟨e, he⟩ := readSlot_isSome hwf.head_alloc hwf.headOffset_lo hwf.headOffset_hi
    obtain ⟨m, hm⟩ := writeSlot_isSome (default : α) hwf.head_alloc hwf.headOffset_lo
      hwf.headOffset_hi
    have hz := readSlot_writeSlot_same hm
    unfold PopFront
    simp only [hemp, Bool.false_eq_true, if_false, he, hm]
    by_cases h1 : d.size = 1
    · rw [if_pos h1]
      exact ⟨_, e, rfl, rfl, hz⟩
    · rw [if_neg h1]
      by_cases h2 : d.headOffset < blockSize - 1
      · rw [if_pos h2]
        exact ⟨_, e, rfl, rfl, hz⟩
      · rw [if_neg h2]
        exact ⟨_, e, rfl, rfl, hz⟩

/-- C36 witness: the deque holding the one element 7, where either pop removes
the last element. -/
theorem pop_zeroes_vacated_slot_witness :
    ∃ d : Deque Nat, pushBackAll NewDeque [7] = some d ∧ WF d ∧ d.size = 1 ∧
      (∃ d1 e, PopBack d = some (d1, e, true) ∧ d1.mapStart = d.mapStart ∧
        readSlot d1.mapData (d.mapStart + d.tailBlock) d.tailOffset = some default) ∧
      (∃ d1 e, PopFront d = some (d1, e, true) ∧ d1.mapStart = d.mapStart ∧
        readSlot d1.mapData (d.mapStart + d.headBlock) d.headOffset = some default) := by
  obtain ⟨d, e, r, _, _⟩ := pushBackAll_NewDeque [(7 : Nat)]
  have hsz : d.size = 1 := r.2.1
  exact ⟨d, e, r.1, hsz, pop_zeroes_vacated_slot d r.1 (by rw [hsz]; decide)⟩

/-! ## Push-pop pairs on reachable states, and a push that panics -/

/-- `PushFront` returns exactly when `PushFrontOutcome` does, with the same
state, and panics exactly when `PushFrontOutcome` does. -/
theorem PushFront_outcome [Inhabited α] (d : Deque α) (x : α) :
    (∀ d1, PushFrontOutcome d x = Outcome.returned d1 ↔ PushFront d x = some d1) ∧
      ((∃ d1, PushFrontOutcome d x = Outcome.panicked d1) ↔ PushFront d x = none) := by
  unfold PushFront PushFrontOutcome
  by_cases hemp : d.IsEmpty = true
  · simp only [hemp, if_true]
    cases writeSlot d.mapData (d.mapStart + d.headBlock) d.headOffset x with
    | none => simp
    | some m => simp
  · simp only [hemp, Bool.false_eq_true, if_false]
    by_cases ho : d.headOffset > 0
    · simp only [ho, if_true]
      cases writeSlot d.mapData (d.mapStart + d.headBlock) (d.headOffset - 1) x with
      | none => simp
      | some m => simp
    · simp only [ho, if_false]
      cases (if d.mapStart + d.headBlock - 1 < 0 then expandMap d else some d) with
      | none => simp
      | some d1 =>
        simp only []
        by_cases hbi : d1.mapStart + (d1.headBlock - 1) < 0 ∨
            d1.mapStart + (d1.headBlock - 1) ≥ len d1.mapData
        · simp only [hbi, if_true]
          simp
        · simp only [hbi, if_false]
          cases ensureBlock d1.mapData (d1.mapStart + (d1.headBlock - 1)) with
          | none => simp
          | some m2 =>
            simp only []
            cases writeSlot m2 (d1.mapStart + (d1.headBlock - 1)) (blockSize - 1) x with
            | none => simp
            | some m3 => simp

/-- No reachable state has `mapStart` in the last map slot, so none is in the
situation `FrontStuck` describes. -/
theorem Reach.not_frontStuck [Inhabited α] {d : Deque α} (hr : Reach d) : ¬ FrontStuck d := by
  intro hst
  have h := (Placed.is_stable.reach hr).room
  have := hst.2.2.2
  omega

/-- C10: for every well-formed state `d` that the public operations reach from
`NewDeque`, the empty one and the states where the push crosses a block
boundary or grows the map included, and every `x`: `PushFront(x)` followed by
`PopFront()` returns `(x, true)` and restores `Len()`, and `PushBack(x)`
followed by `PopBack()` returns `(x, true)` and restores `Len()`. -/
theorem push_then_pop_on_reachable [Inhabited α] (d : Deque α) (x : α) (hwf : WF d)
    (hr : Reach d) :
    (∃ d1 d2, PushFront d x = some d1 ∧ PopFront d1 = some (d2, x, true) ∧ Len d2 = Len d) ∧
    (∃ d1 d2, PushBack d x = some d1 ∧ PopBack d1 = some (d2, x, true) ∧ Len d2 = Len d) := by
  have hs0 := hwf.size_nonneg
  constructor
  · obtain ⟨d1, e1, hsz, hrd⟩ := PushFront_head d x hwf hr.not_frontStuck
    obtain ⟨d2, e2, hsz2⟩ := PopFront_of_read d1 x (by omega) hrd
    exact ⟨d1, d2, e1, e2, by simp only [Len]; omega⟩
  · obtain ⟨d1, e1, c⟩ := PushBack_char d x hwf
    obtain ⟨d2, e2, hsz2⟩ := PopBack_of_read d1 x (by have := c.size; omega) c.tail_read
    exact ⟨d1, d2, e1, e2, by simp only [Len]; have := c.size; omega⟩

/-! ## Map growth after the head has left the valid range -/

section Evaluation

set_option maxRecDepth 200000

theorem run_frontThenBackOps :
    run NewDeque frontThenBackOps = some (frontThenBackState, []) := by
  decide

theorem run_frontPopBackOps :
    (run NewDeque frontPopBackOps).map (fun r => r.1) = some frontPopBackState := by
  decide

theorem pushFrontAll_577 :
    pushFrontAll NewDeque (List.range 577) = some front577State := by
  decide

theorem pushFront_front577State : PushFront front577State 577 = some front578State := by
  decide

theorem pushFrontAll_578 :
    pushFrontAll NewDeque (List.range 578) = some front578State := by
  rw [List.range_succ, pushFrontAll_append, pushFrontAll_577]
  simp only [Option.some_bind, pushFrontAll, pushFront_front577State]

theorem pushFrontAll_66 :
    (pushFrontAll (NewDeque : Deque Nat) (List.range 66)).map
        (fun d => decide (d.size = 66 ∧ d.headBlock = -1 ∧ d.headOffset = 127 ∧ d.tailBlock = 0 ∧
          d.mapStart = 4 ∧ d.mapEnd = 5 ∧ At d 0 = some 65 ∧ At d 65 = some 0)) = some true := by
  decide

theorem expandMap_front577State :
    (expandMap front577State).map
        (fun d => decide (d.size = 577 ∧ d.headBlock = -4 ∧ d.headOffset = 0 ∧ d.mapSize = 16 ∧
          d.mapStart = 7 ∧ d.mapEnd = 8 ∧ At d 0 = none ∧ At d 511 = none ∧
          At d 512 = some 64 ∧ At d 576 = some 0)) = some true := by
  decide

theorem At_front577State :
    At front577State 0 = some 576 ∧ At front577State 511 = some 65 ∧
      At front577State 512 = some 64 ∧ At front577State 576 = some 0 := by
  decide

/-- The first five map slots of `front577State` hold blocks of 128 cells. -/
theorem alloc_front577State (i : Int) (h0 : 0 ≤ i) (h1 : i < 5) :
    AllocAt front577State.mapData i := by
  have hi : i = 0 ∨ i = 1 ∨ i = 2 ∨ i = 3 ∨ i = 4 := by omega
  rcases hi with h | h | h | h | h <;> subst h
  · exact ⟨(List.range 128).map fun o => 576 - o, rfl, by decide⟩
  · exact ⟨(List.range 128).map fun o => 448 - o, rfl, by decide⟩
  · exact ⟨(List.range 128).map fun o => 320 - o, rfl, by decide⟩
  · exact ⟨(List.range 128).map fun o => 192 - o, rfl, by decide⟩
  · exact ⟨(List.range 65).reverse ++ List.replicate 63 0, rfl, by decide⟩

theorem blocks_front577State : BlocksOK front577State.mapData := by
  intro i b hb
  obtain ⟨h0, h⟩ := idx_eq_some.mp hb
  have hlt : i.toNat < 8 := (List.getElem?_eq_some.mp h).1
  have hi : i = 0 ∨ i = 1 ∨ i = 2 ∨ i = 3 ∨ i = 4 ∨ i = 5 ∨ i = 6 ∨ i = 7 := by omega
  rcases hi with h5 | h5 | h5 | h5 | h5 | h5 | h5 | h5 <;> subst h5
  · obtain ⟨c, hc, hl⟩ := alloc_front577State 0 (by decide) (by decide)
    rw [hb] at hc; cases hc; exact hl
  · obtain ⟨c, hc, hl⟩ := alloc_front577State 1 (by decide) (by decide)
    rw [hb] at hc; cases hc; exact hl
  · obtain ⟨c, hc, hl⟩ := alloc_front577State 2 (by decide) (by decide)
    rw [hb] at hc; cases hc; exact hl
  · obtain ⟨c, hc, hl⟩ := alloc_front577State 3 (by decide) (by decide)
    rw [hb] at hc; cases hc; exact hl
  · obtain ⟨c, hc, hl⟩ := alloc_front577State 4 (by decide) (by decide)
    rw [hb] at hc; cases hc; exact hl
  · have : idx front577State.mapData 5 = some none := rfl
    rw [hb] at this; cases this
  · have : idx front577State.mapData 6 = some none := rfl
    rw [hb] at this; cases this
  · have : idx front577State.mapData 7 = some none := rfl
    rw [hb] at this; cases this

end Evaluation

theorem WF_front577State : WF front577State :=
  { mapLen := rfl
    mapStart_nonneg := by decide
    mapStart_lt := by decide
    mapEnd_le := by decide
    blocks := blocks_front577State
    headOffset_lo := by decide
    headOffset_hi := by decide
    tailOffset_lo := by decide
    tailOffset_hi := by decide
    size_nonneg := by decide
    empty_canon := fun h => absurd h (by decide)
    cursors := fun _ => by decide
    live := fun k hk0 hk1 => alloc_front577State _
      (by simp only [front577State] at hk0 ⊢; omega)
      (by simp only [front577State] at hk1 ⊢; omega)
    first := alloc_front577State _ (by decide) (by decide) }

theorem WF_lastSlotState : WF lastSlotState := by
  have hall : ∀ i : Int, 0 ≤ i → i < 8 → AllocAt lastSlotState.mapData i := by
    intro i h0 h1
    refine ⟨List.replicate 128 0, idx_eq_some.mpr ⟨h0, ?_⟩, rfl⟩
    simp only [lastSlotState, List.getElem?_replicate]
    rw [if_pos (by omega)]
  exact
    { mapLen := rfl
      mapStart_nonneg := by decide
      mapStart_lt := by decide
      mapEnd_le := by decide
      blocks := by
        intro i b hb
        obtain ⟨_, h⟩ := idx_eq_some.mp hb
        simp only [lastSlotState, List.getElem?_replicate] at h
        split at h
        · cases h; rfl
        · cases h
      headOffset_lo := by decide
      headOffset_hi := by decide
      tailOffset_lo := by decide
      tailOffset_hi := by decide
      size_nonneg := by decide
      empty_canon := fun h => absurd h (by decide)
      cursors := fun _ => by decide
      live := fun k hk0 hk1 => hall _ (by simp only [lastSlotState] at hk0 ⊢; omega)
        (by simp only [lastSlotState] at hk1 ⊢; omega)
      first := hall _ (by decide) (by decide) }

section FailingInputs

set_option maxRecDepth 200000

/-- C2 (failing input): after `PushFront(0), ..., PushFront(577)` on a new
deque, `Len()` is 578 and `At(0)` is 577, but `At(1)` panics instead of
returning 576: the 578th push grew the map and dropped four blocks. -/
theorem pushFront_578_loses_elements :
    ∃ d : Deque Nat, pushFrontAll NewDeque (List.range 578) = some d ∧ Len d = 578 ∧
      At d 0 = some 577 ∧ At d 1 = none :=
  ⟨front578State, pushFrontAll_578, by decide, by decide, by decide⟩

/-- C3 (failing input): after 66 `PushFront(1)` and 448 `PushBack(2)` the list
model holds 514 elements with first element 1, while on the deque `At(0)` and
`PopFront()` panic. -/
theorem mixed_run_leaves_model :
    ∃ d : Deque Nat, run NewDeque frontThenBackOps = some (d, []) ∧ Len d = 514 ∧
      (modelRun [] frontThenBackOps).1.length = 514 ∧
      (modelRun [] frontThenBackOps).1[0]? = some 1 ∧
      (modelStep (modelRun [] frontThenBackOps).1 Op.popFront).2 = some (1, true) ∧
      At d 0 = none ∧ PopFront d = none :=
  ⟨frontThenBackState, run_frontThenBackOps, by decide, by decide, by decide, by decide,
    by decide, by decide⟩

/-- C6 (failing input): after `PushFront(0), ..., PushFront(577)` on a new deque
the first `PopFront()` returns `(577, true)` and the second one panics, so 578
successive pops do not return the values. -/
theorem pushFront_578_popFront_panics :
    ∃ d : Deque Nat, pushFrontAll NewDeque (List.range 578) = some d ∧ Len d = 578 ∧
      (popFrontN d 1).map (fun r => r.2) = some [(577, true)] ∧ popFrontN d 2 = none ∧
      popFrontN d 578 = none :=
  ⟨front578State, pushFrontAll_578, by decide, by decide, by decide, by decide⟩

/-- C7 (failing inputs): `PushFront(3)` panics in the state reached by 66
`PushFront(1)` and 448 `PushBack(2)`, and `PushBack(3)` panics in the state
reached by 577 `PushFront(1)`, 66 `PopBack()` and one more `PushFront(1)`. -/
theorem push_panics_after_front_growth :
    (∃ d : Deque Nat, run NewDeque frontThenBackOps = some (d, []) ∧ PushFront d 3 = none) ∧
    (∃ d : Deque Nat, (run NewDeque frontPopBackOps).map (fun r => r.1) = some d ∧
      PushBack d 3 = none) :=
  ⟨⟨frontThenBackState, run_frontThenBackOps, by decide⟩,
    ⟨frontPopBackState, run_frontPopBackOps, by decide⟩⟩

/-- C28 (failing input): after `PushFront(0), ..., PushFront(576)` on a new
deque the next `PushFront` has to grow the map (non-empty, head at offset 0 of
map slot 0); before `expandMap`, `At(0)` is 576 and `At(511)` is 65, and
immediately after it `Len()` is still 577 but `At(0)` and `At(511)` panic,
because the four blocks before `mapStart` are not in the new map; `At(512)`,
in the block at `mapStart`, is kept. -/
theorem expandMap_drops_front_blocks :
    pushFrontAll NewDeque (List.range 577) = some front577State ∧ Reach front577State ∧
      front577State.IsEmpty = false ∧ front577State.headOffset = 0 ∧
      front577State.mapStart + front577State.headBlock - 1 < 0 ∧
      At front577State 0 = some 576 ∧ At front577State 511 = some 65 ∧
      At front577State 512 = some 64 ∧
      ∃ d1, expandMap front577State = some d1 ∧ Len d1 = Len front577State ∧
        At d1 0 = none ∧ At d1 511 = none ∧ At d1 512 = some 64 := by
  have hk := expandMap_front577State
  cases hd : expandMap front577State with
  | none => rw [hd] at hk; cases hk
  | some d1 =>
    rw [hd] at hk
    simp only [Option.map_some', Option.some.injEq, decide_eq_true_eq] at hk
    obtain ⟨h1, _, _, _, _, _, h7, h8, h9, _⟩ := hk
    exact ⟨pushFrontAll_577, Reach.of_pushFrontAll _ _ _ Reach.new pushFrontAll_577, rfl, rfl,
      by decide, At_front577State.1, At_front577State.2.1, At_front577State.2.2.1, d1, rfl, h1,
      h7, h8, h9⟩

/-- C29 (failing input): after `PushFront(0), ..., PushFront(65)` on a new deque
`Len()` is 66 and `headBlock` is -1 while `mapStart` is still 4 and `mapEnd`
is 5: the live element `At(0) = 65` is stored at map slot 3, outside
`[mapStart, mapEnd)`. -/
theorem pushFront_66_head_outside_range :
    ∃ d : Deque Nat, pushFrontAll NewDeque (List.range 66) = some d ∧ Reach d ∧ 0 < Len d ∧
      d.headBlock = -1 ∧ d.mapStart = 4 ∧ d.mapEnd = 5 ∧ At d 0 = some 65 ∧
      d.mapStart + d.headBlock + (d.headOffset + 0) / 128 = 3 ∧
      ¬ (d.mapStart ≤ d.mapStart + d.headBlock + (d.headOffset + 0) / 128) := by
  have hk := pushFrontAll_66
  cases hd : pushFrontAll (NewDeque : Deque Nat) (List.range 66) with
  | none => rw [hd] at hk; cases hk
  | some d =>
    rw [hd] at hk
    simp only [Option.map_some', Option.some.injEq, decide_eq_true_eq] at hk
    obtain ⟨h1, h2, h3, _, h5, h6, h7, _⟩ := hk
    refine ⟨d, rfl, Reach.of_pushFrontAll _ _ _ Reach.new hd, ?_, h2, h5, h6, h7, ?_, ?_⟩
    · unfold Len; omega
    · rw [h2, h3, h5]; decide
    · rw [h2, h3, h5]; decide

/-- C10 witness: the state after `PushFront(0), ..., PushFront(576)` on a new
deque, which is well-formed and has its head at offset 0 of map slot 0, so that
`PushFront` crosses a block boundary and grows the map. -/
theorem push_then_pop_on_reachable_witness :
    WF front577State ∧ Reach front577State ∧ front577State.headOffset = 0 ∧
      front577State.mapStart + front577State.headBlock - 1 < 0 ∧
      (∃ d1 d2, PushFront front577State 577 = some d1 ∧ PopFront d1 = some (d2, 577, true) ∧
        Len d2 = Len front577State) ∧
      (∃ d1 d2, PushBack front577State 577 = some d1 ∧ PopBack d1 = some (d2, 577, true) ∧
        Len d2 = Len front577State) :=
  ⟨WF_front577State, Reach.of_pushFrontAll _ _ _ Reach.new pushFrontAll_577, rfl, by decide,
    push_then_pop_on_reachable front577State 577 WF_front577State
      (Reach.of_pushFrontAll _ _ _ Reach.new pushFrontAll_577)⟩

/-- C30 (failing input): in the reachable state after 66 `PushFront(1)` and 448
`PushBack(2)`, `PushFront(3)` panics after it has moved the head cursor: the
write goes to the block that the map growth dropped.  The state the deque is
left in has size 514 and its tail 514 cells after its head, not `size - 1`. -/
theorem recovered_pushFront_breaks_cursors :
    ∃ d d1 : Deque Nat, run NewDeque frontThenBackOps = some (d, []) ∧ Reach d ∧
      PushFront d 3 = none ∧ PushFrontOutcome d 3 = Outcome.panicked d1 ∧
      d1 = { d with headOffset := d.headOffset - 1 } ∧ d1.size = 514 ∧
      0 ≤ d1.headOffset ∧ d1.headOffset < 128 ∧ 0 ≤ d1.tailOffset ∧ d1.tailOffset < 128 ∧
      (d1.tailBlock * 128 + d1.tailOffset) - (d1.headBlock * 128 + d1.headOffset) = 514 ∧
      ¬ ((d1.tailBlock * 128 + d1.tailOffset) - (d1.headBlock * 128 + d1.headOffset) =
        d1.size - 1) :=
  ⟨frontThenBackState, { frontThenBackState with headOffset := frontThenBackState.headOffset - 1 },
    run_frontThenBackOps, Reach.of_run _ _ _ _ Reach.new run_frontThenBackOps, by decide,
    by decide, rfl, by decide, by decide, by decide, by decide, by decide, by decide, by decide⟩

end FailingInputs

/-- The state `lastSlotState`, which no sequence of public calls produces, is
well-formed and non-empty, yet `PushFront` panics on it: after the growth the
re-centred `mapStart` is still 7, so the block before the head would be at map
slot -1. -/
theorem pushFront_panics_in_last_slot :
    WF lastSlotState ∧ lastSlotState.size = 897 ∧ PushFront lastSlotState 1 = none ∧
      ¬ ∃ d1 d2, PushFront lastSlotState 1 = some d1 ∧ PopFront d1 = some (d2, 1, true) ∧
        Len d2 = Len lastSlotState :=
  ⟨WF_lastSlotState, rfl, by decide, fun ⟨_, _, h, _⟩ => by
    have hn : PushFront lastSlotState 1 = none := by decide
    rw [hn] at h
    cases h⟩

end Deque
